import Mathlib

/-!
# Simple calculator: evaluator state machine and history ledger

A shallow embedding of `src/index.js`.  The module-level variables of the
script (`currentInput`, `previousInput`, `operator`, `waitingForNewInput`,
`calculationHistory`) become the fields of `State`; every handler becomes a
function `State → State`.  The DOM is a pure projection of the state
(`updateDisplay`, `updateHistoryDisplay`) and is left out, except that
`loadHistory` records whether `updateHistoryDisplay` raises on the value it
read; `alert` and `localStorage` are recorded in the state.

JavaScript values used by the script are modelled as follows.

* Strings are Lean `String`s (sequences of characters).  All text the
  handlers build is made of digits, `.`, `-`, `+`, `e` and the words
  `Infinity` and `NaN`, for which characters and UTF-16 code units agree.
* Numbers are IEEE-754 binary64 values (`JSNumber`), with the four arithmetic
  operations rounding to nearest, ties to even, `parseFloat` and
  `Number::toString` following ECMA-262.
* `JSON.stringify` is modelled on ledgers, `JSON.parse` on every text.  The
  value read from `localStorage` need not be a list of entries; `loadHistory`
  then ends in an outcome that carries the value read (`LoadOutcome`).
-/

namespace Calculator

/-! ## Numbers -/

/-- A JavaScript Number.  `fin neg m e` is the finite value `(-1)^neg * m * 2^e`;
values built by the operations below are canonical: zero is `fin _ 0 0`,
subnormals have `m < 2^52` and `e = -1074`, normal values have
`2^52 ≤ m < 2^53` and `-1074 ≤ e ≤ 971`. -/
inductive JSNumber where
  | nan
  | inf (neg : Bool)
  | fin (neg : Bool) (m : Nat) (e : Int)
deriving DecidableEq, Repr

/-- Bit length of a natural number, by structural recursion on a fuel. -/
def bitLenAux : Nat → Nat → Nat
  | 0, _ => 0
  | fuel + 1, n => if n = 0 then 0 else bitLenAux fuel (n / 2) + 1

/-- Number of binary digits of `n` (`0` for `0`). -/
def bitLen (n : Nat) : Nat := bitLenAux n n

/-- The fraction `num / den` divided by `2^e`, as a numerator and a denominator. -/
def scale2 (num den : Nat) (e : Int) : Nat × Nat :=
  if 0 ≤ e then (num, den * 2 ^ e.toNat) else (num * 2 ^ (-e).toNat, den)

/-- Round the non-negative rational `num / den` to the nearest binary64 value,
ties to even, with sign `neg`; overflow gives an infinity, underflow a zero. -/
def roundRat (neg : Bool) (num den : Nat) : JSNumber :=
  if num = 0 ∨ den = 0 then .fin neg 0 0
  else
    let l : Int := (bitLen num : Int) - (bitLen den : Int)
    let e1 : Int := l - 52
    let q1 := (scale2 num den e1).1 / (scale2 num den e1).2
    let e2 : Int := if q1 < 2 ^ 52 then e1 - 1 else e1
    let e : Int := if e2 < -1074 then -1074 else e2
    let nd := scale2 num den e
    let q := nd.1 / nd.2
    let r := nd.1 % nd.2
    let up : Bool := decide (nd.2 < 2 * r) || (decide (2 * r = nd.2) && decide (q % 2 = 1))
    let m := if up then q + 1 else q
    let me : Nat × Int := if m = 2 ^ 53 then (2 ^ 52, e + 1) else (m, e)
    if me.1 = 0 then .fin neg 0 0
    else if 971 < me.2 then .inf neg
    else .fin neg me.1 me.2

/-- Round `n * 2^e` to binary64. -/
def roundInt (neg : Bool) (n : Nat) (e : Int) : JSNumber :=
  if 0 ≤ e then roundRat neg (n * 2 ^ e.toNat) 1 else roundRat neg n (2 ^ (-e).toNat)

/-- The Number `+0`, the value of the literal `0`. -/
def zero : JSNumber := .fin false 0 0

/-- JavaScript `isNaN` on a Number. -/
def isNaN : JSNumber → Bool
  | .nan => true
  | _ => false

/-- JavaScript `x === 0` on a Number: true for `+0` and `-0` only. -/
def isZero : JSNumber → Bool
  | .fin _ 0 _ => true
  | _ => false

/-- JavaScript `a + b` on Numbers. -/
def add : JSNumber → JSNumber → JSNumber
  | .nan, _ => .nan
  | _, .nan => .nan
  | .inf a, .inf b => if a = b then .inf a else .nan
  | .inf a, .fin _ _ _ => .inf a
  | .fin _ _ _, .inf b => .inf b
  | .fin sa ma ea, .fin sb mb eb =>
    let e := min ea eb
    let x := ma * 2 ^ (ea - e).toNat
    let y := mb * 2 ^ (eb - e).toNat
    if sa = sb then roundInt sa (x + y) e
    else if x = y then .fin false 0 0
    else if y < x then roundInt sa (x - y) e
    else roundInt sb (y - x) e

/-- Unary minus. -/
def negate : JSNumber → JSNumber
  | .nan => .nan
  | .inf s => .inf (!s)
  | .fin s m e => .fin (!s) m e

/-- JavaScript `a - b` on Numbers. -/
def sub (a b : JSNumber) : JSNumber := add a (negate b)

/-- JavaScript `a * b` on Numbers. -/
def mul : JSNumber → JSNumber → JSNumber
  | .nan, _ => .nan
  | _, .nan => .nan
  | .inf a, .inf b => .inf (xor a b)
  | .inf a, .fin b m _ => if m = 0 then .nan else .inf (xor a b)
  | .fin a m _, .inf b => if m = 0 then .nan else .inf (xor a b)
  | .fin sa ma ea, .fin sb mb eb => roundInt (xor sa sb) (ma * mb) (ea + eb)

/-- JavaScript `a / b` on Numbers. -/
def div : JSNumber → JSNumber → JSNumber
  | .nan, _ => .nan
  | _, .nan => .nan
  | .inf _, .inf _ => .nan
  | .inf a, .fin b _ _ => .inf (xor a b)
  | .fin a _ _, .inf b => .fin (xor a b) 0 0
  | .fin sa ma ea, .fin sb mb eb =>
    if mb = 0 then (if ma = 0 then .nan else .inf (xor sa sb))
    else roundRat (xor sa sb) (scale2 ma mb (eb - ea)).1 (scale2 ma mb (eb - ea)).2

/-! ## Text to number: `parseFloat` -/

/-- ECMA-262 WhiteSpace and LineTerminator code points, stripped by `parseFloat`. -/
def isWhiteSpace (c : Char) : Bool :=
  [9, 10, 11, 12, 13, 32, 160, 5760, 8232, 8233, 8239, 8287, 12288, 65279].contains c.toNat
    || (decide (8192 ≤ c.toNat) && decide (c.toNat ≤ 8202))

/-- Value of a run of decimal digits. -/
def decimalValue (ds : List Char) : Nat :=
  ds.foldl (fun n c => 10 * n + (c.toNat - 48)) 0

/-- Round `s * 10^p` to binary64. -/
def roundDec (neg : Bool) (s : Nat) (p : Int) : JSNumber :=
  if 0 ≤ p then roundRat neg (s * 10 ^ p.toNat) 1 else roundRat neg s (10 ^ (-p).toNat)

/-- Value of the longest `ExponentPart` prefix (`e`, optional sign, digits),
`0` when the text does not start with one. -/
def exponentPart : List Char → Int
  | [] => 0
  | c :: rest =>
    if c = 'e' ∨ c = 'E' then
      match rest with
      | [] => 0
      | d :: ds =>
        if d = '+' then
          (if ds.takeWhile Char.isDigit = [] then 0
           else (decimalValue (ds.takeWhile Char.isDigit) : Int))
        else if d = '-' then
          (if ds.takeWhile Char.isDigit = [] then 0
           else -(decimalValue (ds.takeWhile Char.isDigit) : Int))
        else if (d :: ds).takeWhile Char.isDigit = [] then 0
        else (decimalValue ((d :: ds).takeWhile Char.isDigit) : Int)
    else 0

/-- The longest prefix of the text that is a `StrUnsignedDecimalLiteral`,
rounded to a Number with sign `neg`; `NaN` when there is none. -/
def strUnsignedDecimalLiteral (neg : Bool) (cs : List Char) : JSNumber :=
  if "Infinity".data.isPrefixOf cs then .inf neg
  else
    let ip := cs.takeWhile Char.isDigit
    let r1 := cs.dropWhile Char.isDigit
    match r1 with
    | [] => if ip = [] then .nan else roundDec neg (decimalValue ip) 0
    | c :: r2 =>
      if c = '.' then
        let fp := r2.takeWhile Char.isDigit
        let r3 := r2.dropWhile Char.isDigit
        if ip = [] ∧ fp = [] then .nan
        else roundDec neg (decimalValue (ip ++ fp)) (exponentPart r3 - (fp.length : Int))
      else if ip = [] then .nan
      else roundDec neg (decimalValue ip) (exponentPart (c :: r2))

/-- JavaScript `parseFloat(string)`: skip leading white space, read an optional
sign and the longest decimal literal that follows. -/
def parseFloat (s : String) : JSNumber :=
  match s.data.dropWhile isWhiteSpace with
  | [] => .nan
  | c :: cs =>
    if c = '-' then strUnsignedDecimalLiteral true cs
    else if c = '+' then strUnsignedDecimalLiteral false cs
    else strUnsignedDecimalLiteral false (c :: cs)

/-! ## Number to text: `String(number)` -/

/-- The fraction `num / den` divided by `10^p`. -/
def scale10 (num den : Nat) (p : Int) : Nat × Nat :=
  if 0 ≤ p then (num, den * 10 ^ p.toNat) else (num * 10 ^ (-p).toNat, den)

/-- For `0 < num < den`: the number of zeros after the decimal point of
`num / den` before its first non-zero digit. -/
def leadingZeros : Nat → Nat → Nat → Nat
  | 0, _, _ => 0
  | fuel + 1, num, den => if den ≤ 10 * num then 0 else leadingZeros fuel (10 * num) den + 1

/-- The decimal exponent `n` of a positive `num / den`: `10^(n-1) ≤ num/den < 10^n`. -/
def decExp (num den : Nat) : Int :=
  if den ≤ num then ((Nat.toDigits 10 (num / den)).length : Int)
  else -(leadingZeros 400 num den : Int)

/-- The `k`-digit decimal in `[10^(k-1), 10^k)` times `10^(n-k)` that rounds to the
positive Number `x = num / den` and is closest to it (the even one on a tie),
if there is one; returned as the digits `s` and the exponent `n`. -/
def digitsAt (x : JSNumber) (num den : Nat) (n0 : Int) (k : Nat) : Option (Nat × Int) :=
  let p : Int := n0 - (k : Int)
  let nd := scale10 num den p
  let lo := nd.1 / nd.2
  let r := nd.1 % nd.2
  let okLo : Bool := decide (roundDec false lo p = x)
  let okHi : Bool := decide (roundDec false (lo + 1) p = x)
  let pick : Option Nat :=
    if okLo && okHi then
      (if 2 * r < nd.2 then some lo
       else if nd.2 < 2 * r then some (lo + 1)
       else if lo % 2 = 0 then some lo else some (lo + 1))
    else if okLo then some lo
    else if okHi then some (lo + 1)
    else none
  pick.map fun s => if s = 10 ^ k then (10 ^ (k - 1), n0 + 1) else (s, n0)

/-- Search for the least number of digits `k` that identifies `x`. -/
def shortestAux (x : JSNumber) (num den : Nat) (n0 : Int) : Nat → Nat → Nat × Int
  | 0, _ => (0, 0)
  | fuel + 1, k =>
    match digitsAt x num den n0 k with
    | some r => r
    | none => shortestAux x num den n0 fuel (k + 1)

/-- The integers `s` and `n` of ECMA-262 `Number::toString` for the positive
finite Number `m * 2^e`: the shortest decimal `s * 10^(n-k)` that reads back as it. -/
def shortest (m : Nat) (e : Int) : Nat × Int :=
  let nd := scale2 m 1 (-e)
  shortestAux (.fin false m e) nd.1 nd.2 (decExp nd.1 nd.2) 17 1

/-- Lay out the digits `ds` of `s` with decimal exponent `n` (steps 7 to 11 of
`Number::toString`). -/
def layout (ds : List Char) (n : Int) : List Char :=
  let k : Int := ds.length
  if k ≤ n ∧ n ≤ 21 then ds ++ List.replicate (n - k).toNat '0'
  else if 0 < n ∧ n ≤ 21 then ds.take n.toNat ++ '.' :: ds.drop n.toNat
  else if -6 < n ∧ n ≤ 0 then '0' :: '.' :: (List.replicate (-n).toNat '0' ++ ds)
  else
    let ex : List Char :=
      'e' :: (if n - 1 < 0 then '-' else '+') :: Nat.toDigits 10 (n - 1).natAbs
    match ds with
    | [] => ex
    | [d] => d :: ex
    | d :: rest => d :: '.' :: (rest ++ ex)

/-- JavaScript `String(x)` for a Number `x` (`Number::toString`, radix 10). -/
def numberToString : JSNumber → String
  | .nan => "NaN"
  | .inf false => "Infinity"
  | .inf true => "-Infinity"
  | .fin neg m e =>
    if m = 0 then "0"
    else
      let sn := shortest m e
      String.mk ((if neg then ['-'] else []) ++ layout (Nat.toDigits 10 sn.1) sn.2)

/-! ## Calculator state -/

/-- One entry of the history: the object literal built in `calculateResult`. -/
structure Calculation where
  expression : String
  result : JSNumber
deriving DecidableEq, Repr

/-- The module-level variables of `index.js`, together with the two effects the
handlers have outside them: the value stored under the `localStorage` key
`calculatorHistory` (`none` while the key is absent) and the messages shown
with `alert`, oldest first. -/
structure State where
  currentInput : String
  previousInput : String
  operator : Option String
  waitingForNewInput : Bool
  calculationHistory : List Calculation
  storage : Option String
  alerts : List String
deriving DecidableEq, Repr

/-- The state after the script is loaded, with nothing stored yet. -/
def init : State :=
  { currentInput := "0", previousInput := "", operator := none,
    waitingForNewInput := false, calculationHistory := [], storage := none, alerts := [] }

/-! ## History ledger -/

/-- Two lower-case hexadecimal digits of a code point below 256. -/
def hex2 (n : Nat) : List Char :=
  [Nat.digitChar (n / 16 % 16), Nat.digitChar (n % 16)]

/-- ECMA-262 `QuoteJSONString` on one character. -/
def quoteJSONChar (c : Char) : List Char :=
  if c = '"' then ['\\', '"']
  else if c = '\\' then ['\\', '\\']
  else if c.toNat = 8 then ['\\', 'b']
  else if c.toNat = 9 then ['\\', 't']
  else if c.toNat = 10 then ['\\', 'n']
  else if c.toNat = 12 then ['\\', 'f']
  else if c.toNat = 13 then ['\\', 'r']
  else if c.toNat < 32 then '\\' :: 'u' :: '0' :: '0' :: hex2 c.toNat
  else [c]

/-- ECMA-262 `QuoteJSONString`. -/
def quoteJSONString (s : String) : String :=
  String.mk ('"' :: (s.data.flatMap quoteJSONChar ++ ['"']))

/-- `JSON.stringify` of a Number: finite values print as `String` does, the
others as `null`. -/
def stringifyNumber : JSNumber → String
  | .fin neg m e => numberToString (.fin neg m e)
  | _ => "null"

/-- `JSON.stringify` of one history entry. -/
def stringifyCalculation (c : Calculation) : String :=
  "\x7b\"expression\":" ++ quoteJSONString c.expression ++ ",\"result\":"
    ++ stringifyNumber c.result ++ "\x7d"

/-- `JSON.stringify(calculationHistory)`. -/
def stringify (h : List Calculation) : String :=
  "[" ++ ",".intercalate (h.map stringifyCalculation) ++ "]"

/-- `saveHistory()`: write the serialized history to `localStorage`. -/
def saveHistory (s : State) : State :=
  { s with storage := some (stringify s.calculationHistory) }

/-- `addToHistory(calculation)`: `unshift`, then one `pop` when more than ten
entries are held, then save. -/
def addToHistory (s : State) (calculation : Calculation) : State :=
  let h := calculation :: s.calculationHistory
  saveHistory { s with calculationHistory := if 10 < h.length then h.dropLast else h }

/-- `clearHistory()`. -/
def clearHistory (s : State) : State :=
  saveHistory { s with calculationHistory := [] }

/-! ## Evaluator -/

/-- `calculate(firstNum, secondNum, operator)`: the value returned and the
messages it shows with `alert`. -/
def calculate (firstNum secondNum : JSNumber) (operator : String) : JSNumber × List String :=
  if operator = "+" then (add firstNum secondNum, [])
  else if operator = "-" then (sub firstNum secondNum, [])
  else if operator = "×" then (mul firstNum secondNum, [])
  else if operator = "÷" then
    (if isZero secondNum then (zero, ["Cannot divide by zero!"])
     else (div firstNum secondNum, []))
  else (secondNum, [])

/-- `inputDigit(digit)`. -/
def inputDigit (s : State) (digit : String) : State :=
  if s.waitingForNewInput then
    { s with currentInput := digit, waitingForNewInput := false }
  else
    { s with currentInput := if s.currentInput = "0" then digit else s.currentInput ++ digit }

/-- `inputOperator(nextOperator)`.  The test `else if (operator)` holds for a
non-empty operator string. -/
def inputOperator (s : State) (nextOperator : String) : State :=
  let inputValue := parseFloat s.currentInput
  let s1 : State :=
    if s.previousInput = "" ∧ s.operator = none then
      { s with previousInput := s.currentInput }
    else
      match s.operator with
      | none => s
      | some op =>
        if op = "" then s
        else
          let result := calculate (parseFloat s.previousInput) inputValue op
          { s with
            currentInput := numberToString result.1,
            previousInput := numberToString result.1,
            alerts := s.alerts ++ result.2 }
  { s1 with waitingForNewInput := true, operator := some nextOperator }

/-- `calculateResult()`, the handler of the equals button. -/
def calculateResult (s : State) : State :=
  match s.operator with
  | none => s
  | some op =>
    if s.waitingForNewInput then s
    else
      let inputValue := parseFloat s.currentInput
      let prevValue := parseFloat s.previousInput
      if isNaN prevValue || isNaN inputValue then s
      else
        let result := calculate prevValue inputValue op
        let calculation : Calculation :=
          { expression := numberToString prevValue ++ " " ++ op ++ " " ++ numberToString inputValue,
            result := result.1 }
        let s1 := addToHistory { s with alerts := s.alerts ++ result.2 } calculation
        { s1 with
          currentInput := numberToString result.1,
          previousInput := "",
          operator := none,
          waitingForNewInput := true }

/-- `clearCalculator()`. -/
def clearCalculator (s : State) : State :=
  { s with currentInput := "0", previousInput := "", operator := none,
           waitingForNewInput := false }

/-- The UTF-16 code units of a character, which is how a JavaScript string
holds it: one unit for a character of the Basic Multilingual Plane, a pair of
surrogates for any other. -/
def utf16Units (c : Char) : List Nat :=
  if c.toNat < 0x10000 then [c.toNat]
  else [0xD800 + (c.toNat - 0x10000) / 0x400, 0xDC00 + (c.toNat - 0x10000) % 0x400]

/-- The UTF-16 code units of a text; `length` counts them and `slice` cuts
between them. -/
def utf16 (t : String) : List Nat := t.data.flatMap utf16Units

/-- Whether every character of a text is one UTF-16 code unit. -/
def isBMP (t : String) : Bool := t.data.all fun c => decide (c.toNat < 0x10000)

/-- `handleBackspace()`: the test `length > 1` and `slice(0, -1)`.  A text of the
model is a sequence of characters; the source counts and slices UTF-16 code
units, which is the same on a text of characters of the Basic Multilingual
Plane (`isBMP`).  A text ending in any other character would lose one half of
it on `slice(0, -1)`, a text no `String` holds. -/
def handleBackspace (s : State) : State :=
  if 1 < s.currentInput.length then
    { s with currentInput := String.mk s.currentInput.data.dropLast }
  else
    { s with currentInput := "0" }

/-! ## Events -/

/-- The user actions wired to the evaluator in `initCalculator`. -/
inductive Event where
  | digit (d : String)
  | operator (op : String)
  | equals
  | clear
  | backspace
deriving DecidableEq, Repr

/-- The handler that an event runs. -/
def step (s : State) : Event → State
  | .digit d => inputDigit s d
  | .operator op => inputOperator s op
  | .equals => calculateResult s
  | .clear => clearCalculator s
  | .backspace => handleBackspace s

/-- Run a sequence of events, first to last. -/
def run (s : State) (evs : List Event) : State := evs.foldl step s

/-! ## Reading the stored history: `JSON.parse` -/

/-- A value that `JSON.parse` returns.  The members of an object are kept in the
order of the text, repeated keys included. -/
inductive JSON where
  | null
  | bool (b : Bool)
  | num (x : JSNumber)
  | str (s : String)
  | arr (items : List JSON)
  | obj (members : List (String × JSON))

/-- Result of reading a JSON construct from the front of a text: the value and
the text left, a `SyntaxError`, or `unsupported` when the text spells an
unpaired surrogate (`\uD800`), which no `String` of this model holds, or when
the fuel of the reader runs out. -/
inductive Parsed (α : Type) where
  | ok (a : α) (rest : List Char)
  | syntaxError
  | unsupported

/-- JSON white space: tab, line feed, carriage return, space. -/
def isJSONWhiteSpace (c : Char) : Bool :=
  c.toNat = 9 || c.toNat = 10 || c.toNat = 13 || c.toNat = 32

/-- Value of a hexadecimal digit. -/
def hexVal (c : Char) : Option Nat :=
  if c.isDigit then some (c.toNat - 48)
  else if 97 ≤ c.toNat ∧ c.toNat ≤ 102 then some (c.toNat - 87)
  else if 65 ≤ c.toNat ∧ c.toNat ≤ 70 then some (c.toNat - 55)
  else none

/-- Value of four hexadecimal digits. -/
def hex4 (a b c d : Char) : Option Nat :=
  match hexVal a, hexVal b, hexVal c, hexVal d with
  | some x, some y, some z, some w => some (((x * 16 + y) * 16 + z) * 16 + w)
  | _, _, _, _ => none

/-- The character named by a one-letter escape of a JSON string. -/
def simpleEscape (e : Char) : Option Char :=
  if e = '"' then some '"'
  else if e = '\\' then some '\\'
  else if e = '/' then some '/'
  else if e = 'b' then some (Char.ofNat 8)
  else if e = 'f' then some (Char.ofNat 12)
  else if e = 'n' then some (Char.ofNat 10)
  else if e = 'r' then some (Char.ofNat 13)
  else if e = 't' then some (Char.ofNat 9)
  else none

/-- Put a character in front of the characters read after it. -/
def Parsed.cons (c : Char) : Parsed (List Char) → Parsed (List Char)
  | .ok s rest => .ok (c :: s) rest
  | .syntaxError => .syntaxError
  | .unsupported => .unsupported

/-- The low surrogate escape that must follow the high surrogate `u`, and the
character the pair encodes. -/
def surrogatePair (u : Nat) : List Char → Parsed Char
  | p :: q :: a :: b :: c :: d :: rest =>
    if p = '\\' ∧ q = 'u' then
      match hex4 a b c d with
      | none => .syntaxError
      | some v =>
        if 56320 ≤ v ∧ v < 57344 then
          .ok (Char.ofNat (65536 + (u - 55296) * 1024 + (v - 56320))) rest
        else .unsupported
    else .unsupported
  | _ => .unsupported

/-- The character written by an escape sequence, read from just after its
backslash. -/
def parseEscape : List Char → Parsed Char
  | [] => .syntaxError
  | e :: rest =>
    if e = 'u' then
      match rest with
      | a :: b :: c :: d :: rest2 =>
        match hex4 a b c d with
        | none => .syntaxError
        | some u =>
          if 55296 ≤ u ∧ u < 56320 then surrogatePair u rest2
          else if 56320 ≤ u ∧ u < 57344 then .unsupported
          else .ok (Char.ofNat u) rest2
      | _ => .syntaxError
    else
      match simpleEscape e with
      | some ch => .ok ch rest
      | none => .syntaxError

/-- The characters of a JSON string, read from just after its opening quote up
to its closing quote.  Every step consumes a character, so a fuel above the
length of the text is never used up. -/
def parseStringChars : Nat → List Char → Parsed (List Char)
  | 0, _ => .unsupported
  | _ + 1, [] => .syntaxError
  | fuel + 1, c :: rest =>
    if c = '"' then .ok [] rest
    else if c = '\\' then
      match parseEscape rest with
      | .ok ch rest1 => (parseStringChars fuel rest1).cons ch
      | .syntaxError => .syntaxError
      | .unsupported => .unsupported
    else if c.toNat < 32 then .syntaxError
    else (parseStringChars fuel rest).cons c

/-- The characters a JSON number is written with. -/
def isNumberChar (c : Char) : Bool :=
  c.isDigit || c = '-' || c = '+' || c = '.' || c = 'e' || c = 'E'

/-- Value of the exponent part of a JSON number (`e`, optional sign, digits),
`0` for no exponent part, `none` when the text is neither. -/
def jsonExponent? : List Char → Option Int
  | [] => some 0
  | c :: r =>
    if c = 'e' ∨ c = 'E' then
      match r with
      | [] => none
      | d :: ds =>
        if d = '+' then
          (if ds ≠ [] ∧ ds.all Char.isDigit then some (decimalValue ds : Int) else none)
        else if d = '-' then
          (if ds ≠ [] ∧ ds.all Char.isDigit then some (-(decimalValue ds : Int)) else none)
        else if (d :: ds).all Char.isDigit then some (decimalValue (d :: ds) : Int)
        else none
    else none

/-- Value of an unsigned JSON number: digits without a superfluous leading
zero, an optional fraction with at least one digit, an optional exponent. -/
def jsonUnsigned? (neg : Bool) (body : List Char) : Option JSNumber :=
  let ip := body.takeWhile Char.isDigit
  let r1 := body.dropWhile Char.isDigit
  if ip = [] ∨ (1 < ip.length ∧ ip.head? = some '0') then none
  else
    match r1 with
    | [] => some (roundDec neg (decimalValue ip) 0)
    | c :: r =>
      if c = '.' then
        (if r.takeWhile Char.isDigit = [] then none
         else
          match jsonExponent? (r.dropWhile Char.isDigit) with
          | none => none
          | some ex =>
            some (roundDec neg (decimalValue (ip ++ r.takeWhile Char.isDigit))
              (ex - ((r.takeWhile Char.isDigit).length : Int))))
      else
        match jsonExponent? (c :: r) with
        | none => none
        | some ex => some (roundDec neg (decimalValue ip) ex)

/-- Value of a JSON number token, `none` when the token is not a JSON number. -/
def jsonNumber? : List Char → Option JSNumber
  | [] => none
  | c :: r => if c = '-' then jsonUnsigned? true r else jsonUnsigned? false (c :: r)

/-- What the reader is reading: a value, the rest of an array after the
elements `acc`, or the rest of an object after the members `acc`. -/
inductive Mode where
  | value
  | elements (acc : List JSON)
  | members (acc : List (String × JSON))

/-- The JSON reader.  A value starts after optional white space; a number is
the longest run of number characters, which must be a JSON number. -/
def parseAux : Nat → Mode → List Char → Parsed JSON
  | 0, _, _ => .unsupported
  | fuel + 1, .value, cs =>
    match cs.dropWhile isJSONWhiteSpace with
    | [] => .syntaxError
    | c :: rest =>
      if c = '[' then
        match rest.dropWhile isJSONWhiteSpace with
        | [] => .syntaxError
        | d :: r => if d = ']' then .ok (.arr []) r else parseAux fuel (.elements []) rest
      else if c = '\x7b' then
        match rest.dropWhile isJSONWhiteSpace with
        | [] => .syntaxError
        | d :: r => if d = '\x7d' then .ok (.obj []) r else parseAux fuel (.members []) rest
      else if c = '"' then
        match parseStringChars (rest.length + 1) rest with
        | .ok s r => .ok (.str (String.mk s)) r
        | .syntaxError => .syntaxError
        | .unsupported => .unsupported
      else if "null".data.isPrefixOf (c :: rest) then .ok .null ((c :: rest).drop 4)
      else if "true".data.isPrefixOf (c :: rest) then .ok (.bool true) ((c :: rest).drop 4)
      else if "false".data.isPrefixOf (c :: rest) then .ok (.bool false) ((c :: rest).drop 5)
      else
        match jsonNumber? ((c :: rest).takeWhile isNumberChar) with
        | some x => .ok (.num x) ((c :: rest).dropWhile isNumberChar)
        | none => .syntaxError
  | fuel + 1, .elements acc, cs =>
    match parseAux fuel .value cs with
    | .ok v r =>
      match r.dropWhile isJSONWhiteSpace with
      | [] => .syntaxError
      | d :: r2 =>
        if d = ',' then parseAux fuel (.elements (acc ++ [v])) r2
        else if d = ']' then .ok (.arr (acc ++ [v])) r2
        else .syntaxError
    | .syntaxError => .syntaxError
    | .unsupported => .unsupported
  | fuel + 1, .members acc, cs =>
    match cs.dropWhile isJSONWhiteSpace with
    | [] => .syntaxError
    | q :: r0 =>
      if q = '"' then
        match parseStringChars (r0.length + 1) r0 with
        | .ok k r1 =>
          match r1.dropWhile isJSONWhiteSpace with
          | [] => .syntaxError
          | colon :: r2 =>
            if colon = ':' then
              match parseAux fuel .value r2 with
              | .ok v r3 =>
                match r3.dropWhile isJSONWhiteSpace with
                | [] => .syntaxError
                | d :: r4 =>
                  if d = ',' then parseAux fuel (.members (acc ++ [(String.mk k, v)])) r4
                  else if d = '\x7d' then .ok (.obj (acc ++ [(String.mk k, v)])) r4
                  else .syntaxError
              | .syntaxError => .syntaxError
              | .unsupported => .unsupported
            else .syntaxError
        | .syntaxError => .syntaxError
        | .unsupported => .unsupported
      else .syntaxError

/-- `JSON.parse(text)`: one value, with nothing but white space after it. -/
def parseJSON (text : String) : Parsed JSON :=
  match parseAux (2 * text.length + 2) .value text.data with
  | .ok v rest => if rest.dropWhile isJSONWhiteSpace = [] then .ok v [] else .syntaxError
  | .syntaxError => .syntaxError
  | .unsupported => .unsupported

/-! ## Loading the history -/

/-- The own property `key` of a parsed object: its last member with that key. -/
def lookup (key : String) : List (String × JSON) → Option JSON
  | [] => none
  | m :: ms =>
    match lookup key ms with
    | some w => some w
    | none => if m.1 = key then some m.2 else none

/-- The entry `{expression, result}` that a parsed value is, if it is an object
with exactly these two properties, in this order, a string and a number. -/
def toCalculation : JSON → Option Calculation
  | .obj ms =>
    if (ms.map Prod.fst).eraseDups = ["expression", "result"] then
      match lookup "expression" ms, lookup "result" ms with
      | some (.str e), some (.num x) => some ⟨e, x⟩
      | _, _ => none
    else none
  | _ => none

/-- The entries that a list of parsed values is, if all of them are entries. -/
def toCalculations : List JSON → Option (List Calculation)
  | [] => some []
  | v :: vs =>
    match toCalculation v, toCalculations vs with
    | some c, some cs => some (c :: cs)
    | _, _ => none

/-- The ledger that a parsed value is, if it is an array of entries. -/
def toLedger : JSON → Option (List Calculation)
  | .arr items => toCalculations items
  | _ => none

mutual
/-- Whether converting a parsed value to a string raises a `TypeError`: an
object does when its own property `toString` hides the inherited method, an
array when one of its elements other than `null` does. -/
def toStringThrows : JSON → Bool
  | .obj ms => ms.any fun m => m.1 = "toString"
  | .arr items => anyToStringThrows items
  | _ => false
/-- Whether an element of the list makes `Array.prototype.join` raise. -/
def anyToStringThrows : List JSON → Bool
  | [] => false
  | v :: vs => toStringThrows v || anyToStringThrows vs
end

/-- Whether the callback of `updateHistoryDisplay` raises on an item: reading a
property of `null` does, and so does a property that cannot be converted to a
string. -/
def itemThrows : JSON → Bool
  | .null => true
  | .obj ms =>
    (match lookup "expression" ms with
     | some v => toStringThrows v
     | none => false)
    || (match lookup "result" ms with
        | some v => toStringThrows v
        | none => false)
  | _ => false

/-- Whether `updateHistoryDisplay()` raises a `TypeError` when
`calculationHistory` holds the parsed value: reading `length` of `null` does;
a value whose `length` is `0` returns early; any other value but an array has
no `forEach` method to call. -/
def updateHistoryDisplayThrows : JSON → Bool
  | .null => true
  | .bool _ => true
  | .num _ => true
  | .str s => decide (s ≠ "")
  | .obj ms =>
    (match lookup "length" ms with
     | some (.num x) => !isZero x
     | _ => true)
  | .arr items => items.any itemThrows

/-- How a call of `loadHistory()` ends. -/
inductive LoadOutcome where
  /-- The call returns and `calculationHistory` is the ledger of the state. -/
  | returned (s : State)
  /-- The call returns and `calculationHistory` holds a value that is not a list
  of entries, which no `State` describes. -/
  | returnedOther (v : JSON)
  /-- `JSON.parse` raises a `SyntaxError`; nothing has been assigned. -/
  | syntaxError
  /-- `updateHistoryDisplay` raises a `TypeError` after the value was assigned to
  `calculationHistory`. -/
  | typeError (v : JSON)
  /-- The stored text is outside the string model. -/
  | unsupported

/-- `loadHistory()`: the test `if (savedHistory)` fails for a missing key and
for the empty string. -/
def loadHistory (s : State) : LoadOutcome :=
  match s.storage with
  | none => .returned s
  | some savedHistory =>
    if savedHistory = "" then .returned s
    else
      match parseJSON savedHistory with
      | .syntaxError => .syntaxError
      | .unsupported => .unsupported
      | .ok v _ =>
        match toLedger v with
        | some h => .returned { s with calculationHistory := h }
        | none => if updateHistoryDisplayThrows v then .typeError v else .returnedOther v

/-- The state in which `loadHistory()` returned with a ledger of entries. -/
def LoadOutcome.state? : LoadOutcome → Option State
  | .returned s => some s
  | _ => none

/-- Whether `loadHistory()` ended by raising an exception. -/
def LoadOutcome.raises : LoadOutcome → Bool
  | .syntaxError => true
  | .typeError _ => true
  | _ => false

/-! ## Keyboard -/

/-- The comparison `a <= b` of two strings: lexicographic in the code of their
characters. -/
def strLe : List Char → List Char → Bool
  | [], _ => true
  | _ :: _, [] => false
  | a :: as, b :: bs => decide (a.toNat < b.toNat) || (decide (a.toNat = b.toNat) && strLe as bs)

/-- `handleKeyboardInput(event)` for `event.key = key`. -/
def handleKeyboardInput (s : State) (key : String) : State :=
  if strLe "0".data key.data && strLe key.data "9".data then inputDigit s key
  else if key = "." then
    (if '.' ∈ s.currentInput.data then s else inputDigit s ".")
  else if key = "+" ∨ key = "-" ∨ key = "*" ∨ key = "/" then
    inputOperator s (if key = "*" then "×" else if key = "/" then "÷" else key)
  else if key = "Enter" ∨ key = "=" then calculateResult s
  else if key = "Escape" ∨ key = "Delete" then clearCalculator s
  else if key = "Backspace" then handleBackspace s
  else s

/-- Dispatch of an event when digits and the decimal point come from the
keyboard: the key pressed goes through `handleKeyboardInput`. -/
def keyStep (s : State) : Event → State
  | .digit d => handleKeyboardInput s d
  | e => step s e

/-- The fresh instance of the script over a given content of `localStorage`. -/
def fresh (storage : Option String) : State := { init with storage := storage }

/-- Whether the text `String(x)` of a Number is a JSON number that `JSON.parse`
reads as `x` again.  It is not for `NaN` and the infinities, whose text is no
JSON number, nor for `-0`, whose text `0` reads as `+0`. -/
def readsBack (x : JSNumber) : Bool :=
  (numberToString x).data.all isNumberChar
    && decide (jsonNumber? (numberToString x).data = some x)

/-- The value `JSON.parse` reads from the text that `JSON.stringify` writes for
a Number: `null` for `NaN` and the infinities, whose text is `null`; `+0` for
a zero of either sign, whose text is `0`; the Number itself otherwise. -/
def reparsed : JSNumber → JSON
  | .fin neg m e => if m = 0 then .num zero else .num (.fin neg m e)
  | _ => .null

/-- The value that `JSON.parse` returns for the text of an entry. -/
def Calculation.toJSON (c : Calculation) : JSON :=
  .obj [("expression", .str c.expression), ("result", reparsed c.result)]

/-! ## Auxiliary definitions: the two halves of `roundRat` -/

/-- The exponent `E` with `2^52 ≤ (num / den) / 2^E < 2^53`, as `roundRat` computes
it for positive `num` and `den`. -/
def binadeExp (num den : Nat) : Int :=
  let l : Int := (bitLen num : Int) - (bitLen den : Int)
  let e1 : Int := l - 52
  let q1 := (scale2 num den e1).1 / (scale2 num den e1).2
  if q1 < 2 ^ 52 then e1 - 1 else e1

/-- The second half of `roundRat`: rounding `num / den` to a multiple of `2^e`,
ties to even. -/
def roundAt (neg : Bool) (num den : Nat) (e : Int) : JSNumber :=
  let nd := scale2 num den e
  let q := nd.1 / nd.2
  let r := nd.1 % nd.2
  let up : Bool := decide (nd.2 < 2 * r) || (decide (2 * r = nd.2) && decide (q % 2 = 1))
  let m := if up then q + 1 else q
  let me : Nat × Int := if m = 2 ^ 53 then (2 ^ 52, e + 1) else (m, e)
  if me.1 = 0 then .fin neg 0 0
  else if 971 < me.2 then .inf neg
  else .fin neg me.1 me.2

/-- A finite Number in canonical form that is not zero: a normal or a subnormal
binary64 value. -/
def isCanonical (m : Nat) (e : Int) : Prop :=
  (2 ^ 52 ≤ m ∧ m < 2 ^ 53 ∧ -1074 ≤ e ∧ e ≤ 971) ∨ (0 < m ∧ m < 2 ^ 52 ∧ e = -1074)

instance isCanonical.decidable (m : Nat) (e : Int) : Decidable (isCanonical m e) := by
  unfold isCanonical
  exact inferInstance

/-- JavaScript `isFinite(x)` on a Number. -/
def isFinite : JSNumber → Bool
  | .fin _ _ _ => true
  | _ => false

/-- JavaScript `a === b` on Numbers: `NaN` equals nothing, and `-0` equals `+0`. -/
def strictEquals (a b : JSNumber) : Bool :=
  !isNaN a && !isNaN b && ((isZero a && isZero b) || decide (a = b))

/-- Whether a value of the model has the form of a Number: `NaN`, an infinity,
a zero of either sign, or a normal or subnormal binary64 value of either
sign. -/
def isNumberValue : JSNumber → Bool
  | .fin _ m e => if m = 0 then decide (e = 0) else decide (isCanonical m e)
  | _ => true

/-! ## Lemmas shared by the results below -/

/-- The ledger after `addToHistory`. -/
def pushed (c : Calculation) (h : List Calculation) : List Calculation :=
  if 10 < (c :: h).length then (c :: h).dropLast else c :: h

theorem numberToString_of_isZero (x : JSNumber) (h : isZero x = true) :
    numberToString x = "0" := by
  cases x with
  | nan => simp [isZero] at h
  | inf b => simp [isZero] at h
  | fin neg m e =>
    cases m with
    | zero => simp [numberToString]
    | succ k => simp [isZero] at h

theorem isNaN_of_isZero (x : JSNumber) (h : isZero x = true) : isNaN x = false := by
  cases x <;> simp_all [isZero, isNaN]

theorem calculate_div_zero (a b : JSNumber) (h : isZero b = true) :
    calculate a b "÷" = (zero, ["Cannot divide by zero!"]) := by
  simp [calculate, h]

/-- The state in which `calculateResult` ends when it gets past both of its
early returns. -/
theorem calculateResult_fires (s : State) (op : String)
    (hop : s.operator = some op) (hw : s.waitingForNewInput = false)
    (hp : isNaN (parseFloat s.previousInput) = false)
    (hc : isNaN (parseFloat s.currentInput) = false) :
    calculateResult s =
      { currentInput :=
          numberToString (calculate (parseFloat s.previousInput) (parseFloat s.currentInput) op).1,
        previousInput := "",
        operator := none,
        waitingForNewInput := true,
        calculationHistory :=
          pushed
            { expression := numberToString (parseFloat s.previousInput) ++ " " ++ op ++ " "
                ++ numberToString (parseFloat s.currentInput),
              result := (calculate (parseFloat s.previousInput) (parseFloat s.currentInput) op).1 }
            s.calculationHistory,
        storage := some (stringify (pushed
            { expression := numberToString (parseFloat s.previousInput) ++ " " ++ op ++ " "
                ++ numberToString (parseFloat s.currentInput),
              result := (calculate (parseFloat s.previousInput) (parseFloat s.currentInput) op).1 }
            s.calculationHistory)),
        alerts :=
          s.alerts ++ (calculate (parseFloat s.previousInput) (parseFloat s.currentInput) op).2 } := by
  simp [calculateResult, hop, hw, hp, hc, addToHistory, saveHistory, pushed]

/-- `calculateResult` returns at once when a parsed operand is `NaN`. -/
theorem calculateResult_nan (s : State)
    (h : isNaN (parseFloat s.previousInput) = true ∨ isNaN (parseFloat s.currentInput) = true) :
    calculateResult s = s := by
  unfold calculateResult
  cases hop : s.operator with
  | none => rfl
  | some op =>
    cases hw : s.waitingForNewInput with
    | true => simp
    | false => rcases h with h | h <;> simp [h]

/-- The computing branch of `inputOperator`. -/
theorem inputOperator_chain (s : State) (o op : String)
    (ho : s.operator = some o) (hne : o ≠ "") :
    inputOperator s op =
      { s with
        currentInput :=
          numberToString (calculate (parseFloat s.previousInput) (parseFloat s.currentInput) o).1,
        previousInput :=
          numberToString (calculate (parseFloat s.previousInput) (parseFloat s.currentInput) o).1,
        alerts :=
          s.alerts ++ (calculate (parseFloat s.previousInput) (parseFloat s.currentInput) o).2,
        waitingForNewInput := true,
        operator := some op } := by
  simp [inputOperator, ho, hne]

theorem pushed_head (c : Calculation) (h : List Calculation) :
    (pushed c h).head? = some c := by
  unfold pushed
  split
  · cases h with
    | nil => simp at *
    | cons d t => simp [List.dropLast]
  · rfl

theorem pushed_eq_take (c : Calculation) (h : List Calculation) (hl : h.length ≤ 10) :
    pushed c h = (c :: h).take 10 := by
  unfold pushed
  split
  · rename_i h11
    have hlen : (c :: h).length = 11 := by simp at h11 ⊢; omega
    rw [List.dropLast_eq_take, hlen]
  · rename_i h11
    have hlen : (c :: h).length ≤ 10 := by simp at h11 ⊢; omega
    exact (List.take_of_length_le hlen).symm

/-! ## Division by zero -/

/-- C1, as stated, fails: after `9`, `÷`, `0` the pending operator is `÷`, no
fresh input is awaited and the entry parses to zero, yet the equals handler
adds the record `9 ÷ 0` with result `0` to the empty ledger. -/
theorem equals_div_zero_appends_record :
    (run init [.digit "9", .operator "÷", .digit "0"]).operator = some "÷"
    ∧ (run init [.digit "9", .operator "÷", .digit "0"]).waitingForNewInput = false
    ∧ isZero (parseFloat (run init [.digit "9", .operator "÷", .digit "0"]).currentInput) = true
    ∧ (run init [.digit "9", .operator "÷", .digit "0"]).calculationHistory = []
    ∧ (calculateResult (run init [.digit "9", .operator "÷", .digit "0"])).calculationHistory
        = [{ expression := "9 ÷ 0", result := zero }]
    ∧ (calculateResult (run init [.digit "9", .operator "÷", .digit "0"])).calculationHistory
        ≠ (run init [.digit "9", .operator "÷", .digit "0"]).calculationHistory := by
  decide

/-- C1, amended: with pending operator `÷`, no fresh input awaited and an entry
that parses to zero, the equals handler substitutes `0` for the quotient.  When
the pending operand parses to a number it shows the warning and puts the record
`<operand> ÷ 0` with result `0` in front of the ledger, dropping the last
record if that makes more than ten; when the pending operand does not parse to
a number it changes nothing. -/
theorem equals_div_zero_history (s : State)
    (hop : s.operator = some "÷") (hw : s.waitingForNewInput = false)
    (hz : isZero (parseFloat s.currentInput) = true) :
    (isNaN (parseFloat s.previousInput) = false →
      (calculateResult s).calculationHistory
          = (if 10 < ((⟨numberToString (parseFloat s.previousInput) ++ " ÷ 0", zero⟩ : Calculation)
                        :: s.calculationHistory).length
             then ((⟨numberToString (parseFloat s.previousInput) ++ " ÷ 0", zero⟩ : Calculation)
                        :: s.calculationHistory).dropLast
             else (⟨numberToString (parseFloat s.previousInput) ++ " ÷ 0", zero⟩ : Calculation)
                        :: s.calculationHistory)
        ∧ (calculateResult s).calculationHistory.head?
            = some ⟨numberToString (parseFloat s.previousInput) ++ " ÷ 0", zero⟩
        ∧ (calculateResult s).alerts = s.alerts ++ ["Cannot divide by zero!"])
    ∧ (isNaN (parseFloat s.previousInput) = true → calculateResult s = s) := by
  refine ⟨fun hp => ?_, fun hp => calculateResult_nan s (Or.inl hp)⟩
  have hc := isNaN_of_isZero _ hz
  have hexpr : numberToString (parseFloat s.previousInput) ++ " " ++ "÷" ++ " "
      ++ numberToString (parseFloat s.currentInput)
      = numberToString (parseFloat s.previousInput) ++ " ÷ 0" := by
    rw [numberToString_of_isZero _ hz]
    simp [String.append_assoc]
  rw [calculateResult_fires s "÷" hop hw hp hc, calculate_div_zero _ _ hz, hexpr]
  refine ⟨rfl, ?_, rfl⟩
  exact pushed_head _ _

/-- The amended C1 at the state reached by `9`, `÷`, `0`. -/
theorem equals_div_zero_history_witness :
    (calculateResult (run init [.digit "9", .operator "÷", .digit "0"])).calculationHistory.head?
      = some ⟨"9 ÷ 0", zero⟩ :=
  ((equals_div_zero_history (run init [.digit "9", .operator "÷", .digit "0"])
      (by decide) (by decide) (by decide)).1 (by decide)).2.1

/-- C2, as stated, fails: after `9`, `÷`, `.`, `0` the entry is `.0`, which
parses to zero; the equals handler and a chained operator both replace it by
`0`, the text of the substituted result. -/
theorem div_zero_changes_entry :
    (run init [.digit "9", .operator "÷", .digit ".", .digit "0"]).currentInput = ".0"
    ∧ (run init [.digit "9", .operator "÷", .digit ".", .digit "0"]).operator = some "÷"
    ∧ isZero (parseFloat
        (run init [.digit "9", .operator "÷", .digit ".", .digit "0"]).currentInput) = true
    ∧ (calculateResult
        (run init [.digit "9", .operator "÷", .digit ".", .digit "0"])).currentInput = "0"
    ∧ (inputOperator
        (run init [.digit "9", .operator "÷", .digit ".", .digit "0"]) "+").currentInput = "0" := by
  decide

/-- C2, amended: with pending operator `÷` and an entry that parses to zero, a
chained operator sets the entry to `0`, the text of the substituted result, and
shows the warning; the equals handler does the same when it evaluates (no fresh
input awaited, pending operand a number).  The entry text is therefore
unchanged exactly when it already was `0`. -/
theorem div_zero_entry (s : State) (op : String)
    (hop : s.operator = some "÷") (hz : isZero (parseFloat s.currentInput) = true) :
    (inputOperator s op).currentInput = "0"
    ∧ (inputOperator s op).alerts = s.alerts ++ ["Cannot divide by zero!"]
    ∧ (s.waitingForNewInput = false → isNaN (parseFloat s.previousInput) = false →
        (calculateResult s).currentInput = "0"
        ∧ (calculateResult s).alerts = s.alerts ++ ["Cannot divide by zero!"]) := by
  have h0 : numberToString zero = "0" := by decide
  refine ⟨?_, ?_, fun hw hp => ?_⟩
  · rw [inputOperator_chain s "÷" op hop (by decide), calculate_div_zero _ _ hz]
    exact h0
  · rw [inputOperator_chain s "÷" op hop (by decide), calculate_div_zero _ _ hz]
  · rw [calculateResult_fires s "÷" hop hw hp (isNaN_of_isZero _ hz), calculate_div_zero _ _ hz]
    exact ⟨h0, rfl⟩

/-- The amended C2 at the state reached by `9`, `÷`, `.`, `0`, whose entry is `.0`. -/
theorem div_zero_entry_witness :
    (inputOperator (run init [.digit "9", .operator "÷", .digit ".", .digit "0"]) "+").currentInput
      = "0" :=
  (div_zero_entry (run init [.digit "9", .operator "÷", .digit ".", .digit "0"]) "+"
    (by decide) (by decide)).1

/-! ## The equals handler -/

/-- C3, as stated, fails: after `.`, `+`, `3` an operator is pending and no
fresh input is awaited, but the pending operand `.` parses to `NaN`, so the
equals handler returns early: nothing is recorded, the operator stays pending
and the flag stays false. -/
theorem equals_skips_nan_operand :
    (run init [.digit ".", .operator "+", .digit "3"]).operator = some "+"
    ∧ (run init [.digit ".", .operator "+", .digit "3"]).waitingForNewInput = false
    ∧ (calculateResult (run init [.digit ".", .operator "+", .digit "3"])).waitingForNewInput
        = false
    ∧ (calculateResult (run init [.digit ".", .operator "+", .digit "3"])).operator = some "+"
    ∧ (calculateResult (run init [.digit ".", .operator "+", .digit "3"])).previousInput = "."
    ∧ (calculateResult (run init [.digit ".", .operator "+", .digit "3"])).calculationHistory
        = [] := by
  decide

/-- C3, amended: with an operator pending and no fresh input awaited, when
both the pending operand and the entry parse to numbers the equals handler
computes `calculate(parseFloat(previousInput), parseFloat(currentInput), operator)`,
puts exactly one record carrying that result in front of the ledger (dropping
the last record if that makes more than ten), sets the entry to the text of the
result, empties the pending operand, clears the operator and sets the flag;
when either of the two texts parses to `NaN` it changes nothing. -/
theorem equals_evaluates (s : State) (op : String)
    (hop : s.operator = some op) (hw : s.waitingForNewInput = false) :
    (isNaN (parseFloat s.previousInput) = false → isNaN (parseFloat s.currentInput) = false →
      ∃ c : Calculation,
        c.result = (calculate (parseFloat s.previousInput) (parseFloat s.currentInput) op).1
        ∧ (calculateResult s).calculationHistory
            = (if 10 < (c :: s.calculationHistory).length
               then (c :: s.calculationHistory).dropLast else c :: s.calculationHistory)
        ∧ (calculateResult s).calculationHistory.head? = some c
        ∧ (calculateResult s).currentInput = numberToString c.result
        ∧ (calculateResult s).previousInput = ""
        ∧ (calculateResult s).operator = none
        ∧ (calculateResult s).waitingForNewInput = true)
    ∧ (isNaN (parseFloat s.previousInput) = true ∨ isNaN (parseFloat s.currentInput) = true →
        calculateResult s = s) := by
  refine ⟨fun hp hc => ?_, fun hn => calculateResult_nan s hn⟩
  rw [calculateResult_fires s op hop hw hp hc]
  exact ⟨_, rfl, rfl, pushed_head _ _, rfl, rfl, rfl, rfl⟩

/-- The amended C3 at the state reached by `5`, `+`, `3`, where the entry
becomes `8` and the newest record carries the result `8`, and at the state
reached by `5`, `+`, `.`, whose entry `.` parses to `NaN` and which the equals
handler leaves as it is. -/
theorem equals_evaluates_witness :
    (∃ c : Calculation,
      c.result = (calculate (parseFloat "5") (parseFloat "3") "+").1
      ∧ (calculateResult (run init [.digit "5", .operator "+", .digit "3"])).calculationHistory
          = (if 10 < (c :: (run init [.digit "5", .operator "+", .digit "3"]).calculationHistory).length
             then (c :: (run init [.digit "5", .operator "+", .digit "3"]).calculationHistory).dropLast
             else c :: (run init [.digit "5", .operator "+", .digit "3"]).calculationHistory)
      ∧ (calculateResult (run init [.digit "5", .operator "+", .digit "3"])).calculationHistory.head?
          = some c
      ∧ (calculateResult (run init [.digit "5", .operator "+", .digit "3"])).currentInput
          = numberToString c.result
      ∧ (calculateResult (run init [.digit "5", .operator "+", .digit "3"])).previousInput = ""
      ∧ (calculateResult (run init [.digit "5", .operator "+", .digit "3"])).operator = none
      ∧ (calculateResult (run init [.digit "5", .operator "+", .digit "3"])).waitingForNewInput
          = true)
    ∧ (run init [.digit "5", .operator "+", .digit "3", .equals]).currentInput = "8"
    ∧ (run init [.digit "5", .operator "+", .digit "3", .equals]).calculationHistory
        = [⟨"5 + 3", parseFloat "8"⟩]
    ∧ (run init [.digit "5", .operator "+", .digit "."]).currentInput = "."
    ∧ calculateResult (run init [.digit "5", .operator "+", .digit "."])
        = run init [.digit "5", .operator "+", .digit "."] :=
  ⟨(equals_evaluates (run init [.digit "5", .operator "+", .digit "3"]) "+"
      (by decide) (by decide)).1 (by decide) (by decide),
    by decide, by decide, by decide,
    (equals_evaluates (run init [.digit "5", .operator "+", .digit "."]) "+"
      (by decide) (by decide)).2 (Or.inr (by decide))⟩

/-- C4, as stated, fails: after `.`, `5`, `+`, `1`, `.`, `5`, `0` the operand
texts are `.5` and `1.50`, but the record's expression is built from the parsed
numbers and reads `0.5 + 1.5`. -/
theorem expression_not_as_typed :
    (run init [.digit ".", .digit "5", .operator "+",
        .digit "1", .digit ".", .digit "5", .digit "0"]).previousInput = ".5"
    ∧ (run init [.digit ".", .digit "5", .operator "+",
        .digit "1", .digit ".", .digit "5", .digit "0"]).currentInput = "1.50"
    ∧ (run init [.digit ".", .digit "5", .operator "+",
        .digit "1", .digit ".", .digit "5", .digit "0"]).waitingForNewInput = false
    ∧ ((calculateResult (run init [.digit ".", .digit "5", .operator "+",
        .digit "1", .digit ".", .digit "5", .digit "0"])).calculationHistory.map
          fun c => c.expression) = ["0.5 + 1.5"]
    ∧ ((calculateResult (run init [.digit ".", .digit "5", .operator "+",
        .digit "1", .digit ".", .digit "5", .digit "0"])).calculationHistory.map
          fun c => c.expression) ≠ [".5 + 1.50"] := by
  decide

/-- C4, amended: whenever the equals handler evaluates (operator pending, no
fresh input awaited, both texts parse to numbers), the expression of the record
handed to the ledger is the text of the parsed pending operand, a space, the
operator glyph, a space and the text of the parsed entry. -/
theorem expression_of_record (s : State) (op : String)
    (hop : s.operator = some op) (hw : s.waitingForNewInput = false)
    (hp : isNaN (parseFloat s.previousInput) = false)
    (hc : isNaN (parseFloat s.currentInput) = false) :
    (calculateResult s).calculationHistory.head?.map (fun c => c.expression)
      = some (numberToString (parseFloat s.previousInput) ++ " " ++ op ++ " "
          ++ numberToString (parseFloat s.currentInput)) := by
  rw [calculateResult_fires s op hop hw hp hc]
  simp [pushed_head]

/-- The amended C4 at the state reached by `.`, `5`, `+`, `1`, `.`, `5`, `0`. -/
theorem expression_of_record_witness :
    (calculateResult (run init [.digit ".", .digit "5", .operator "+",
        .digit "1", .digit ".", .digit "5", .digit "0"])).calculationHistory.head?.map
          (fun c => c.expression)
      = some (numberToString (parseFloat ".5") ++ " " ++ "+" ++ " "
          ++ numberToString (parseFloat "1.50")) :=
  expression_of_record (run init [.digit ".", .digit "5", .operator "+",
        .digit "1", .digit ".", .digit "5", .digit "0"]) "+"
    (by decide) (by decide) (by decide) (by decide)

/-- C5: the equals handler changes nothing, in any field of the state, when no
operator is pending or fresh input is awaited. -/
theorem equals_noop (s : State)
    (h : s.operator = none ∨ s.waitingForNewInput = true) :
    calculateResult s = s := by
  unfold calculateResult
  cases hop : s.operator with
  | none => rfl
  | some op =>
    rcases h with h | h
    · simp [hop] at h
    · simp [h]

/-- C5 at the state reached by `4`, `+`, where an operator is pending and fresh
input is awaited. -/
theorem equals_noop_witness :
    calculateResult (run init [.digit "4", .operator "+"]) = run init [.digit "4", .operator "+"] :=
  equals_noop (run init [.digit "4", .operator "+"]) (Or.inr (by decide))

/-! ## Operators -/

set_option maxRecDepth 8000 in
theorem run_two_plus_three_times_four :
    (run init [.digit "2", .operator "+", .digit "3", .operator "×", .digit "4",
        .equals]).currentInput = "20" := by
  decide

/-- C6: when an operator is pending (a non-empty operator string, so that the
test `else if (operator)` holds) and a second operand has been entered,
`inputOperator(op)` sets both the entry and the pending operand to the text of
`calculate(parseFloat(previousInput), parseFloat(currentInput), operator)`,
makes `op` the pending operator and sets the flag; in particular `2`, `+`, `3`,
`×`, `4`, `=` from the initial state ends with the entry `20`. -/
theorem operator_chains (s : State) (o op : String)
    (ho : s.operator = some o) (hne : o ≠ "") (_hw : s.waitingForNewInput = false) :
    ((inputOperator s op).currentInput
        = numberToString (calculate (parseFloat s.previousInput) (parseFloat s.currentInput) o).1
      ∧ (inputOperator s op).previousInput
        = numberToString (calculate (parseFloat s.previousInput) (parseFloat s.currentInput) o).1
      ∧ (inputOperator s op).operator = some op
      ∧ (inputOperator s op).waitingForNewInput = true)
    ∧ (run init [.digit "2", .operator "+", .digit "3", .operator "×", .digit "4",
          .equals]).currentInput = "20" := by
  rw [inputOperator_chain s o op ho hne]
  exact ⟨⟨rfl, rfl, rfl, rfl⟩, run_two_plus_three_times_four⟩

/-- C6 at the state reached by `2`, `+`, `3`, with `×` pressed next: the entry
and the pending operand both become `5`. -/
theorem operator_chains_witness :
    (inputOperator (run init [.digit "2", .operator "+", .digit "3"]) "×").currentInput = "5"
    ∧ (inputOperator (run init [.digit "2", .operator "+", .digit "3"]) "×").previousInput = "5"
    ∧ (inputOperator (run init [.digit "2", .operator "+", .digit "3"]) "×").operator = some "×"
    ∧ (inputOperator (run init [.digit "2", .operator "+", .digit "3"]) "×").waitingForNewInput
        = true :=
  (operator_chains (run init [.digit "2", .operator "+", .digit "3"]) "+" "×"
    (by decide) (by decide) (by decide)).1

/-- C7 fails on the code: after `4`, `+` the operator `+` is pending with
operand `4` and fresh input is awaited; a second `+` still runs the computing
branch of `inputOperator`, with the entry `4` as second operand, and sets both
the entry and the pending operand to `8`. -/
theorem operator_twice_computes :
    (run init [.digit "4", .operator "+"]).operator = some "+"
    ∧ (run init [.digit "4", .operator "+"]).waitingForNewInput = true
    ∧ (run init [.digit "4", .operator "+"]).previousInput = "4"
    ∧ (run init [.digit "4", .operator "+", .operator "+"]).previousInput = "8"
    ∧ (run init [.digit "4", .operator "+", .operator "+"]).currentInput = "8" := by
  decide

/-! ## Digits -/

/-- C8 fails on the code: `inputDigit` replaces the entry `0` by whatever is
pressed, the decimal point included, so `0`, `.` leaves the entry `.`, which
parses to `NaN`, while the pressed characters `0.` denote the number zero; the
same entry is left by `.` alone.  The claim's own witness `1`, `2`, `.`, `5`
does give `12.5`. -/
theorem zero_point_entry :
    (run init [.digit "0", .digit "."]).currentInput = "."
    ∧ (run init [.digit "."]).currentInput = "."
    ∧ parseFloat "." = JSNumber.nan
    ∧ parseFloat "0." = zero
    ∧ (run init [.digit "1", .digit "2", .digit ".", .digit "5"]).currentInput = "12.5" := by
  decide

/-- C9 fails on the code: pressing `.` in the initial state leaves the bare
entry `.`, and `0`, `-`, `5`, `=`, backspace leaves the bare entry `-`; neither
parses to a number. -/
theorem entry_not_a_number :
    (run init [.digit "."]).currentInput = "."
    ∧ isNaN (parseFloat (run init [.digit "."]).currentInput) = true
    ∧ (run init [.digit "0", .operator "-", .digit "5", .equals, .backspace]).currentInput = "-"
    ∧ isNaN (parseFloat
        (run init [.digit "0", .operator "-", .digit "5", .equals, .backspace]).currentInput)
        = true := by
  decide

/-! ## The bound of the ledger -/

theorem addToHistory_history (s : State) (c : Calculation) :
    (addToHistory s c).calculationHistory = pushed c s.calculationHistory := rfl

theorem take_append_take {α : Type} (n : Nat) (a b : List α) :
    (a ++ b.take n).take n = (a ++ b).take n := by
  rw [List.take_append_eq_append_take, List.take_append_eq_append_take, List.take_take]
  congr 2
  omega

theorem foldl_addToHistory (cs : List Calculation) (s : State)
    (hl : s.calculationHistory.length ≤ 10) :
    (cs.foldl addToHistory s).calculationHistory
      = (cs.reverse ++ s.calculationHistory).take 10 := by
  induction cs generalizing s with
  | nil => simpa using (List.take_of_length_le hl).symm
  | cons c cs ih =>
    have h1 : (addToHistory s c).calculationHistory = (c :: s.calculationHistory).take 10 := by
      rw [addToHistory_history, pushed_eq_take c _ hl]
    have h2 : (addToHistory s c).calculationHistory.length ≤ 10 := by
      rw [h1]; simp
    rw [List.foldl_cons, ih _ h2, h1, take_append_take]
    simp

/-- C10: on a ledger of at most ten records, `addToHistory(c)` leaves the
first ten elements of `c` prepended to the ledger, with `c` at index 0; and
eleven successive records from an empty ledger leave exactly ten entries, most
recent first, the first-recorded one gone. -/
theorem addToHistory_keeps_ten (s : State) (c : Calculation)
    (hl : s.calculationHistory.length ≤ 10) :
    (addToHistory s c).calculationHistory = (c :: s.calculationHistory).take 10
    ∧ (addToHistory s c).calculationHistory.head? = some c
    ∧ ∀ (t : State) (cs : List Calculation), t.calculationHistory = [] → cs.length = 11 →
        (cs.foldl addToHistory t).calculationHistory = cs.tail.reverse
        ∧ (cs.foldl addToHistory t).calculationHistory.length = 10 := by
  refine ⟨?_, ?_, ?_⟩
  · rw [addToHistory_history, pushed_eq_take c _ hl]
  · rw [addToHistory_history, pushed_head]
  · intro t cs ht hcs
    have key : (cs.foldl addToHistory t).calculationHistory = cs.tail.reverse := by
      rw [foldl_addToHistory cs t (by simp [ht]), ht]
      cases cs with
      | nil => simp at hcs
      | cons d ds =>
        have hd : ds.reverse.length = 10 := by simp at hcs ⊢; omega
        simp only [List.reverse_cons, List.append_nil, List.tail_cons]
        rw [List.take_append_eq_append_take, hd]
        simp [List.take_of_length_le (le_of_eq hd)]
    refine ⟨key, ?_⟩
    rw [key]
    cases cs with
    | nil => simp at hcs
    | cons d ds => simp at hcs ⊢; omega

/-- C10 on a ledger that already holds ten records: the new record comes
first and the last of the ten, the oldest, is dropped. -/
theorem addToHistory_keeps_ten_witness :
    (addToHistory
        { init with
          calculationHistory := List.replicate 9 ⟨"old", zero⟩ ++ [⟨"oldest", zero⟩] }
        ⟨"new", zero⟩).calculationHistory
      = ⟨"new", zero⟩ :: List.replicate 9 ⟨"old", zero⟩ :=
  (addToHistory_keeps_ten
      { init with
        calculationHistory := List.replicate 9 ⟨"old", zero⟩ ++ [⟨"oldest", zero⟩] }
      ⟨"new", zero⟩ (by decide)).1

/-! ## Loading, clearing -/

/-- C13, as stated, fails: with the text `oops` under the key, `JSON.parse`
raises a `SyntaxError` that `loadHistory` does not catch; with the text `null`
the value is assigned and `updateHistoryDisplay` raises a `TypeError`; with the
text `[1]` the call returns, but the ledger then holds the array `[1]`, which
is not empty. -/
theorem load_malformed_raises :
    loadHistory (fresh (some "oops")) = LoadOutcome.syntaxError
    ∧ (loadHistory (fresh (some "oops"))).raises = true
    ∧ loadHistory (fresh (some "null")) = LoadOutcome.typeError JSON.null
    ∧ loadHistory (fresh (some "[1]"))
        = LoadOutcome.returnedOther (JSON.arr [JSON.num (parseFloat "1")]) := by
  refine ⟨by rfl, by decide, by rfl, by rfl⟩

/-- C13, amended: `loadHistory` returns without raising and leaves the whole
state, the ledger included, as it was (empty in a fresh instance) when the key
is absent or holds the empty string; when the key holds any other text that is
not JSON, `JSON.parse` raises a `SyntaxError` out of `loadHistory` before
anything is assigned. -/
theorem load_absent (s : State) (h : s.storage = none ∨ s.storage = some "") :
    loadHistory s = LoadOutcome.returned s
    ∧ (loadHistory s).raises = false
    ∧ ∀ (t : State) (text : String), t.storage = some text → text ≠ "" →
        parseJSON text = Parsed.syntaxError →
        loadHistory t = LoadOutcome.syntaxError ∧ (loadHistory t).raises = true := by
  have h1 : loadHistory s = LoadOutcome.returned s := by
    rcases h with h | h <;> simp [loadHistory, h]
  refine ⟨h1, by rw [h1]; rfl, ?_⟩
  intro t text ht hne hp
  have h2 : loadHistory t = LoadOutcome.syntaxError := by
    simp [loadHistory, ht, hne, hp]
  exact ⟨h2, by rw [h2]; rfl⟩

/-- The amended C13 at the fresh instance with nothing stored: the ledger stays
empty. -/
theorem load_absent_witness :
    loadHistory (fresh none) = LoadOutcome.returned (fresh none)
    ∧ (fresh none).calculationHistory = [] :=
  ⟨(load_absent (fresh none) (Or.inl rfl)).1, rfl⟩

/-- C14: `clearHistory` empties the ledger and stores the text `[]`, the
serialization of the empty array, under the key; a later `loadHistory`, in the
same instance or in a fresh one over that storage, returns with the empty
ledger. -/
theorem clearHistory_empties (s : State) :
    (clearHistory s).calculationHistory = []
    ∧ (clearHistory s).storage = some (stringify [])
    ∧ stringify [] = "[]"
    ∧ loadHistory (clearHistory s) = LoadOutcome.returned (clearHistory s)
    ∧ loadHistory (fresh (clearHistory s).storage)
        = LoadOutcome.returned (fresh (clearHistory s).storage)
    ∧ (fresh (clearHistory s).storage).calculationHistory = [] := by
  refine ⟨rfl, rfl, by decide, ?_, by rfl, rfl⟩
  have hp : parseJSON "[]" = Parsed.ok (JSON.arr []) [] := by rfl
  have hs : stringify [] = "[]" := by decide
  simp [loadHistory, clearHistory, saveHistory, hs, hp, toLedger, toCalculations]

/-! ## Clear, backspace, first operator -/

/-- C15: `clearCalculator` sets the four evaluator variables to their initial
values whatever the state, is idempotent, and leaves the ledger and the storage
as they were. -/
theorem clear_resets (s : State) :
    (clearCalculator s).currentInput = "0"
    ∧ (clearCalculator s).previousInput = ""
    ∧ (clearCalculator s).operator = none
    ∧ (clearCalculator s).waitingForNewInput = false
    ∧ (clearCalculator s).currentInput = init.currentInput
    ∧ (clearCalculator s).previousInput = init.previousInput
    ∧ (clearCalculator s).operator = init.operator
    ∧ (clearCalculator s).waitingForNewInput = init.waitingForNewInput
    ∧ clearCalculator (clearCalculator s) = clearCalculator s
    ∧ (clearCalculator s).calculationHistory = s.calculationHistory
    ∧ (clearCalculator s).storage = s.storage :=
  ⟨rfl, rfl, rfl, rfl, rfl, rfl, rfl, rfl, rfl, rfl, rfl⟩

/-- The code units of a text of characters of the Basic Multilingual Plane are
the codes of its characters. -/
theorem utf16_of_isBMP (t : String) (h : isBMP t = true) :
    utf16 t = t.data.map Char.toNat := by
  unfold utf16
  unfold isBMP at h
  generalize t.data = l at h ⊢
  induction l with
  | nil => rfl
  | cons c r ih =>
    simp only [List.all_cons, Bool.and_eq_true, decide_eq_true_eq] at h
    simp only [List.flatMap_cons, List.map_cons, utf16Units, h.1, if_true, ih h.2,
      List.singleton_append]

/-- C16: on an entry whose characters are one UTF-16 code unit each,
`handleBackspace` does on the code units what the source does: with more than
one unit it drops the last, otherwise the entry becomes `0`.  So the entry is
itself without its last character, or `0` when that leaves nothing, and no other
part of the state changes; `7`, backspace, backspace from the initial state
gives the entry `0`. -/
theorem backspace_drops_last (s : State) (h : isBMP s.currentInput = true) :
    utf16 (handleBackspace s).currentInput
        = (if 1 < (utf16 s.currentInput).length then (utf16 s.currentInput).dropLast
           else utf16 "0")
    ∧ (handleBackspace s).currentInput
        = (if s.currentInput.data.dropLast = [] then "0"
           else String.mk s.currentInput.data.dropLast)
    ∧ isBMP (handleBackspace s).currentInput = true
    ∧ (handleBackspace s).previousInput = s.previousInput
    ∧ (handleBackspace s).operator = s.operator
    ∧ (handleBackspace s).waitingForNewInput = s.waitingForNewInput
    ∧ (handleBackspace s).calculationHistory = s.calculationHistory
    ∧ (handleBackspace s).storage = s.storage
    ∧ (run init [.digit "7", .backspace, .backspace]).currentInput = "0" := by
  have hrest : ∀ t : State, handleBackspace t = { t with currentInput := (handleBackspace t).currentInput } := by
    intro t
    unfold handleBackspace
    split <;> rfl
  have hchars : (handleBackspace s).currentInput
      = (if s.currentInput.data.dropLast = [] then "0"
         else String.mk s.currentInput.data.dropLast) := by
    unfold handleBackspace
    rcases hd : s.currentInput.data with _ | ⟨a, _ | ⟨b, t⟩⟩
    · simp [String.length, hd]
    · simp [String.length, hd]
    · simp [String.length, hd, List.dropLast]
  have hdrop : isBMP (String.mk s.currentInput.data.dropLast) = true := by
    unfold isBMP at h ⊢
    rw [List.all_eq_true] at h ⊢
    exact fun c hc => h c (List.mem_of_mem_dropLast hc)
  refine ⟨?_, hchars, ?_, ?_, ?_, ?_, ?_, ?_, by decide⟩
  · rw [hchars, utf16_of_isBMP s.currentInput h, List.length_map]
    rcases hd : s.currentInput.data with _ | ⟨a, _ | ⟨b, t⟩⟩
    · rfl
    · rfl
    · have hd2 : (a :: b :: t).dropLast ≠ [] := by simp [List.dropLast]
      have h2 := utf16_of_isBMP _ hdrop
      rw [hd] at h2
      simp only [hd2, if_false, List.length_cons]
      rw [h2]
      simp [List.dropLast]
  · rw [hchars]
    split
    · rfl
    · exact hdrop
  all_goals rw [hrest s]

/-- C16 at the entry `12` and at the entry `7`. -/
theorem backspace_drops_last_witness :
    (handleBackspace (run init [.digit "1", .digit "2"])).currentInput = "1"
    ∧ utf16 (handleBackspace (run init [.digit "7"])).currentInput = [48] :=
  ⟨(backspace_drops_last (run init [.digit "1", .digit "2"]) (by decide)).2.1,
    (backspace_drops_last (run init [.digit "7"]) (by decide)).1⟩

/-- C18: on the first operator press (no pending operand, no pending
operator) `inputOperator(op)` copies the entry to the pending operand, leaves
the entry as it is, makes `op` the pending operator and sets the flag; nothing
is computed: no other part of the state changes. -/
theorem first_operator (s : State) (op : String)
    (hp : s.previousInput = "") (ho : s.operator = none) :
    inputOperator s op
      = { s with previousInput := s.currentInput, waitingForNewInput := true,
                 operator := some op } := by
  simp [inputOperator, hp, ho]

/-- C18 at the initial state with `+` pressed. -/
theorem first_operator_witness :
    inputOperator init "+"
      = { init with previousInput := "0", waitingForNewInput := true, operator := some "+" } :=
  first_operator init "+" rfl rfl

/-- C19: digit, operator (the computing branch included), clear and backspace
events leave the ledger and the stored value as they were, in every state. -/
theorem events_keep_ledger (s : State) :
    (∀ d : String, (inputDigit s d).calculationHistory = s.calculationHistory
        ∧ (inputDigit s d).storage = s.storage)
    ∧ (∀ op : String, (inputOperator s op).calculationHistory = s.calculationHistory
        ∧ (inputOperator s op).storage = s.storage)
    ∧ ((clearCalculator s).calculationHistory = s.calculationHistory
        ∧ (clearCalculator s).storage = s.storage)
    ∧ ((handleBackspace s).calculationHistory = s.calculationHistory
        ∧ (handleBackspace s).storage = s.storage) := by
  refine ⟨fun d => ?_, fun op => ?_, ⟨rfl, rfl⟩, ?_⟩
  · unfold inputDigit
    split <;> exact ⟨rfl, rfl⟩
  · unfold inputOperator
    split
    · exact ⟨rfl, rfl⟩
    · split
      · exact ⟨rfl, rfl⟩
      · split <;> exact ⟨rfl, rfl⟩
  · unfold handleBackspace
    split <;> exact ⟨rfl, rfl⟩

/-! ## The text of a number -/

theorem digitChar_isDigit (k : Nat) (h : k < 10) : (Nat.digitChar k).isDigit = true := by
  interval_cases k <;> rfl

theorem toDigitsCore_isDigit (fuel : Nat) : ∀ (n : Nat) (ds : List Char),
    (∀ c ∈ ds, c.isDigit = true) → ∀ c ∈ Nat.toDigitsCore 10 fuel n ds, c.isDigit = true := by
  induction fuel with
  | zero => intro n ds hds c hc; exact hds c (by simpa [Nat.toDigitsCore] using hc)
  | succ f ih =>
    intro n ds hds c hc
    have hd : ∀ c ∈ Nat.digitChar (n % 10) :: ds, c.isDigit = true := by
      intro c hc
      rcases List.mem_cons.mp hc with h | h
      · rw [h]; exact digitChar_isDigit _ (Nat.mod_lt _ (by decide))
      · exact hds c h
    simp only [Nat.toDigitsCore] at hc
    split at hc
    · exact hd c hc
    · exact ih _ _ hd c hc

theorem toDigits_isDigit (n : Nat) : ∀ c ∈ Nat.toDigits 10 n, c.isDigit = true :=
  toDigitsCore_isDigit _ _ _ (by simp)

theorem toDigitsCore_ne_nil (fuel : Nat) : ∀ (n : Nat) (ds : List Char),
    ds ≠ [] → Nat.toDigitsCore 10 fuel n ds ≠ [] := by
  induction fuel with
  | zero => intro n ds hds; simpa [Nat.toDigitsCore] using hds
  | succ f ih =>
    intro n ds _
    simp only [Nat.toDigitsCore]
    split
    · simp
    · exact ih _ _ (by simp)

theorem toDigits_ne_nil (n : Nat) : Nat.toDigits 10 n ≠ [] := by
  unfold Nat.toDigits
  simp only [Nat.toDigitsCore]
  split
  · simp
  · exact toDigitsCore_ne_nil _ _ _ (by simp)

theorem not_mem_dot_of_isDigit (ds : List Char) (h : ∀ c ∈ ds, c.isDigit = true) :
    '.' ∉ ds := by
  intro hmem
  have := h _ hmem
  revert this
  decide

theorem layout_ne_nil (ds : List Char) (n : Int) (hds : ds ≠ []) : layout ds n ≠ [] := by
  unfold layout
  simp only
  split
  · simp [hds]
  · split
    · simp
    · split
      · simp
      · rcases ds with _ | ⟨d, _ | ⟨d2, t⟩⟩ <;> simp

theorem layout_count_dot (ds : List Char) (n : Int) (hds : ∀ c ∈ ds, c.isDigit = true) :
    (layout ds n).count '.' ≤ 1 := by
  have h0 : ds.count '.' = 0 := List.count_eq_zero.mpr (not_mem_dot_of_isDigit ds hds)
  have htake : (ds.take n.toNat).count '.' = 0 :=
    List.count_eq_zero.mpr fun hm => not_mem_dot_of_isDigit ds hds (List.mem_of_mem_take hm)
  have hdrop : (ds.drop n.toNat).count '.' = 0 :=
    List.count_eq_zero.mpr fun hm => not_mem_dot_of_isDigit ds hds (List.mem_of_mem_drop hm)
  have hex : ('e' :: (if n - 1 < 0 then '-' else '+')
      :: Nat.toDigits 10 (n - 1).natAbs).count '.' = 0 := by
    apply List.count_eq_zero.mpr
    intro hm
    rcases List.mem_cons.mp hm with h | hm
    · revert h; decide
    · rcases List.mem_cons.mp hm with h | hm
      · split at h <;> revert h <;> decide
      · exact not_mem_dot_of_isDigit _ (toDigits_isDigit _) hm
  unfold layout
  simp only
  split
  · simp [List.count_append, h0, List.count_replicate]
  · split
    · simp [List.count_append, List.count_cons, htake, hdrop]
    · split
      · simp [List.count_append, List.count_cons, h0, List.count_replicate]
      · rcases ds with _ | ⟨d, _ | ⟨d2, t⟩⟩
        · simp only [hex]; omega
        · have hd : d ≠ '.' := fun h => not_mem_dot_of_isDigit _ hds (by simp [h])
          simp only
          rw [List.count_cons_of_ne hd.symm, hex]; omega
        · have hd : d ≠ '.' := fun h => not_mem_dot_of_isDigit _ hds (by simp [h])
          have ht : (d2 :: t).count '.' = 0 :=
            List.count_eq_zero.mpr fun hm =>
              not_mem_dot_of_isDigit _ hds (List.mem_cons_of_mem _ hm)
          simp only
          rw [List.count_cons_of_ne hd.symm, List.count_cons_self, List.count_append, ht, hex]

theorem numberToString_length (x : JSNumber) : 1 ≤ (numberToString x).length := by
  cases x with
  | nan => decide
  | inf b => cases b <;> decide
  | fin neg m e =>
    simp only [numberToString]
    split
    · decide
    · have := layout_ne_nil _ (shortest m e).2 (toDigits_ne_nil (shortest m e).1)
      have hpos : 0 < (layout (Nat.toDigits 10 (shortest m e).1) (shortest m e).2).length :=
        List.length_pos.mpr this
      simp only [String.length, List.length_append]
      omega

theorem numberToString_count_dot (x : JSNumber) : (numberToString x).data.count '.' ≤ 1 := by
  cases x with
  | nan => decide
  | inf b => cases b <;> decide
  | fin neg m e =>
    simp only [numberToString]
    split
    · decide
    · have := layout_count_dot _ (shortest m e).2 (toDigits_isDigit (shortest m e).1)
      cases neg
      · simpa using this
      · simp only [if_true, List.singleton_append]
        rw [List.count_cons_of_ne (by decide)]
        exact this

/-- The entry after `inputOperator` is the entry before or the text of a number. -/
theorem inputOperator_entry (s : State) (op : String) :
    (inputOperator s op).currentInput = s.currentInput
    ∨ ∃ x, (inputOperator s op).currentInput = numberToString x := by
  unfold inputOperator
  simp only
  split
  · exact Or.inl rfl
  · split
    · exact Or.inl rfl
    · split
      · exact Or.inl rfl
      · exact Or.inr ⟨_, rfl⟩

/-- The entry after `calculateResult` is the entry before or the text of a number. -/
theorem calculateResult_entry (s : State) :
    (calculateResult s).currentInput = s.currentInput
    ∨ ∃ x, (calculateResult s).currentInput = numberToString x := by
  unfold calculateResult
  split
  · exact Or.inl rfl
  · split
    · exact Or.inl rfl
    · simp only
      split
      · exact Or.inl rfl
      · exact Or.inr ⟨_, rfl⟩

/-! ## Invariants of the entry -/

theorem length_pos_of_ne_empty (d : String) (h : d ≠ "") : 1 ≤ d.length := by
  rcases d with ⟨l⟩
  cases l with
  | nil => exact absurd rfl h
  | cons a t => simp [String.length]

theorem step_entry_length (s : State) (e : Event) (hs : 1 ≤ s.currentInput.length)
    (he : ∀ d, e = Event.digit d → d ≠ "") : 1 ≤ (step s e).currentInput.length := by
  cases e with
  | digit d =>
    have hd := length_pos_of_ne_empty d (he d rfl)
    simp only [step, inputDigit]
    split
    · exact hd
    · simp only
      split
      · exact hd
      · rw [String.length_append]; omega
  | operator op =>
    rcases inputOperator_entry s op with h | ⟨x, h⟩
    · simp only [step]; rw [h]; exact hs
    · simp only [step]; rw [h]; exact numberToString_length x
  | equals =>
    rcases calculateResult_entry s with h | ⟨x, h⟩
    · simp only [step]; rw [h]; exact hs
    · simp only [step]; rw [h]; exact numberToString_length x
  | clear => simp [step, clearCalculator, String.length]
  | backspace =>
    simp only [step, handleBackspace]
    split
    · rename_i hlen
      have hlen2 : 1 < s.currentInput.data.length := hlen
      show 1 ≤ s.currentInput.data.dropLast.length
      rw [List.length_dropLast]
      omega
    · simp [String.length]

theorem run_entry_length (evs : List Event) : ∀ s : State, 1 ≤ s.currentInput.length →
    (∀ d, Event.digit d ∈ evs → d ≠ "") → 1 ≤ (run s evs).currentInput.length := by
  induction evs with
  | nil => intro s hs _; exact hs
  | cons e es ih =>
    intro s hs h
    have h1 := step_entry_length s e hs (fun d hd => h d (by simp [hd]))
    simpa [run] using ih (step s e) h1 (fun d hd => h d (List.mem_cons_of_mem _ hd))

/-- C20: in every state reached from the initial state by digit events that
carry a non-empty text (a single character in particular) and by operator,
equals, clear and backspace events, the entry has length at least one. -/
theorem entry_never_empty (evs : List Event) (h : ∀ d, Event.digit d ∈ evs → d ≠ "") :
    1 ≤ (run init evs).currentInput.length :=
  run_entry_length evs init (by decide) h

/-- C20 on the run `7`, backspace, backspace, `-`, `=`. -/
theorem entry_never_empty_witness :
    1 ≤ (run init [.digit "7", .backspace, .backspace, .operator "-", .equals]).currentInput.length :=
  entry_never_empty [.digit "7", .backspace, .backspace, .operator "-", .equals]
    (by intro d hd; simp at hd; subst hd; decide)

theorem inputDigit_count_dot (s : State) (d : String)
    (hs : s.currentInput.data.count '.' ≤ 1) (hd : '.' ∉ d.data) :
    (inputDigit s d).currentInput.data.count '.' ≤ 1 := by
  have h0 : d.data.count '.' = 0 := List.count_eq_zero.mpr hd
  simp only [inputDigit]
  split
  · simp [h0]
  · simp only
    split
    · simp [h0]
    · simp [String.data_append, List.count_append, h0, hs]

theorem inputPoint_count_dot (s : State) (hs : '.' ∉ s.currentInput.data) :
    (inputDigit s ".").currentInput.data.count '.' ≤ 1 := by
  have h0 : s.currentInput.data.count '.' = 0 := List.count_eq_zero.mpr hs
  have h1 : ".".data.count '.' ≤ 1 := by decide
  simp only [inputDigit]
  split
  · exact h1
  · simp only
    split
    · exact h1
    · simp [String.data_append, List.count_append, h0]

theorem inputOperator_count_dot (s : State) (op : String)
    (hs : s.currentInput.data.count '.' ≤ 1) :
    (inputOperator s op).currentInput.data.count '.' ≤ 1 := by
  rcases inputOperator_entry s op with h | ⟨x, h⟩
  · rw [h]; exact hs
  · rw [h]; exact numberToString_count_dot x

theorem calculateResult_count_dot (s : State) (hs : s.currentInput.data.count '.' ≤ 1) :
    (calculateResult s).currentInput.data.count '.' ≤ 1 := by
  rcases calculateResult_entry s with h | ⟨x, h⟩
  · rw [h]; exact hs
  · rw [h]; exact numberToString_count_dot x

theorem handleBackspace_count_dot (s : State) (hs : s.currentInput.data.count '.' ≤ 1) :
    (handleBackspace s).currentInput.data.count '.' ≤ 1 := by
  have h1 : "0".data.count '.' ≤ 1 := by decide
  simp only [handleBackspace]
  split
  · exact le_trans (List.Sublist.count_le (List.dropLast_sublist _) _) hs
  · exact h1

theorem handleKeyboardInput_count_dot (s : State) (key : String)
    (hs : s.currentInput.data.count '.' ≤ 1) (hk : key = "." ∨ '.' ∉ key.data) :
    (handleKeyboardInput s key).currentInput.data.count '.' ≤ 1 := by
  unfold handleKeyboardInput
  split
  · rename_i hdig
    rcases hk with hk | hk
    · subst hk
      exact absurd hdig (by decide)
    · exact inputDigit_count_dot s key hs hk
  · split
    · split
      · exact hs
      · rename_i hno
        exact inputPoint_count_dot s hno
    · split
      · exact inputOperator_count_dot s _ hs
      · split
        · exact calculateResult_count_dot s hs
        · split
          · simp [clearCalculator]
          · split
            · exact handleBackspace_count_dot s hs
            · exact hs

theorem keyStep_count_dot (s : State) (e : Event) (hs : s.currentInput.data.count '.' ≤ 1)
    (he : ∀ d, e = Event.digit d → d = "." ∨ '.' ∉ d.data) :
    (keyStep s e).currentInput.data.count '.' ≤ 1 := by
  cases e with
  | digit d => exact handleKeyboardInput_count_dot s d hs (he d rfl)
  | operator op => exact inputOperator_count_dot s op hs
  | equals => exact calculateResult_count_dot s hs
  | clear => simp [keyStep, step, clearCalculator]
  | backspace => exact handleBackspace_count_dot s hs

theorem foldl_keyStep_count_dot (evs : List Event) : ∀ s : State,
    s.currentInput.data.count '.' ≤ 1 →
    (∀ d, Event.digit d ∈ evs → d = "." ∨ '.' ∉ d.data) →
    (evs.foldl keyStep s).currentInput.data.count '.' ≤ 1 := by
  induction evs with
  | nil => intro s hs _; exact hs
  | cons e es ih =>
    intro s hs h
    have h1 := keyStep_count_dot s e hs (fun d hd => h d (by simp [hd]))
    simpa using ih (keyStep s e) h1 (fun d hd => h d (List.mem_cons_of_mem _ hd))

/-- C17: when every digit event goes through `handleKeyboardInput` and carries
a key that is the decimal point or a text without one (a digit in particular),
the entry holds at most one `.` in every state reached from the initial state
by these and by operator, equals, clear and backspace events. -/
theorem at_most_one_point (evs : List Event)
    (h : ∀ d, Event.digit d ∈ evs → d = "." ∨ '.' ∉ d.data) :
    ((evs.foldl keyStep init).currentInput.data.count '.') ≤ 1 :=
  foldl_keyStep_count_dot evs init (by decide) h

/-- C17 on the keys `1`, `.`, `.`, `5`: the second point is dropped and the
entry is `1.5`. -/
theorem at_most_one_point_witness :
    ((([.digit "1", .digit ".", .digit ".", .digit "5"] : List Event).foldl keyStep
        init).currentInput.data.count '.') ≤ 1
    ∧ (([.digit "1", .digit ".", .digit ".", .digit "5"] : List Event).foldl keyStep
        init).currentInput = "1.5" :=
  ⟨at_most_one_point [.digit "1", .digit ".", .digit ".", .digit "5"]
      (by intro d hd; simp at hd; rcases hd with rfl | rfl | rfl <;> decide),
    by decide⟩

/-! ## Reading back a saved ledger -/

theorem hex4_hex2 (n : Nat) (h : n < 32) :
    hex4 '0' '0' (Nat.digitChar (n / 16 % 16)) (Nat.digitChar (n % 16)) = some n := by
  interval_cases n <;> rfl

theorem char_eq_of_toNat (c : Char) (n : Nat) (h : c.toNat = n) : c = Char.ofNat n := by
  rw [← h, Char.ofNat_toNat]

theorem parseStringChars_close (fuel : Nat) (rest : List Char) :
    parseStringChars (fuel + 1) ('"' :: rest) = Parsed.ok [] rest := by
  simp [parseStringChars]

theorem parseStringChars_plain (fuel : Nat) (c : Char) (rest : List Char)
    (h1 : c ≠ '"') (h2 : c ≠ '\\') (h3 : ¬ c.toNat < 32) :
    parseStringChars (fuel + 1) (c :: rest) = (parseStringChars fuel rest).cons c := by
  simp [parseStringChars, h1, h2, h3]

theorem parseStringChars_escape (fuel : Nat) (e ch : Char) (rest : List Char)
    (he : e ≠ 'u') (hs : simpleEscape e = some ch) :
    parseStringChars (fuel + 1) ('\\' :: e :: rest) = (parseStringChars fuel rest).cons ch := by
  simp [parseStringChars, parseEscape, he, hs]

theorem parseStringChars_unicode (fuel : Nat) (a b c d : Char) (rest : List Char) (u : Nat)
    (h : hex4 a b c d = some u) (hu : u < 55296) :
    parseStringChars (fuel + 1) ('\\' :: 'u' :: a :: b :: c :: d :: rest)
      = (parseStringChars fuel rest).cons (Char.ofNat u) := by
  have h1 : ¬ (55296 ≤ u ∧ u < 56320) := by omega
  have h2 : ¬ (56320 ≤ u ∧ u < 57344) := by omega
  simp [parseStringChars, parseEscape, h, h1, h2]

theorem quoteJSONChar_length (c : Char) : 1 ≤ (quoteJSONChar c).length := by
  unfold quoteJSONChar
  repeat' split
  all_goals simp

/-- Reading back what `QuoteJSONString` wrote between the quotes. -/
theorem parseStringChars_quote (s : List Char) (rest : List Char) :
    ∀ fuel, (s.flatMap quoteJSONChar).length < fuel →
      parseStringChars fuel (s.flatMap quoteJSONChar ++ '"' :: rest) = Parsed.ok s rest := by
  induction s with
  | nil =>
    intro fuel hf
    obtain ⟨f, rfl⟩ : ∃ f, fuel = f + 1 := ⟨fuel - 1, by omega⟩
    exact parseStringChars_close f rest
  | cons c t ih =>
    intro fuel hf
    obtain ⟨f, rfl⟩ : ∃ f, fuel = f + 1 := ⟨fuel - 1, by omega⟩
    simp only [List.flatMap_cons, List.append_assoc, List.length_append] at hf ⊢
    have hq := quoteJSONChar_length c
    have ih1 := ih f (by omega)
    generalize t.flatMap quoteJSONChar ++ '"' :: rest = tail at ih1 ⊢
    clear hf hq ih
    unfold quoteJSONChar
    split
    · rename_i h; subst h
      simp only [List.cons_append, List.nil_append]
      rw [parseStringChars_escape f '"' '"' _ (by decide) (by rfl), ih1]; rfl
    · split
      · rename_i h; subst h
        simp only [List.cons_append, List.nil_append]
        rw [parseStringChars_escape f '\\' '\\' _ (by decide) (by rfl), ih1]; rfl
      · split
        · rename_i h
          rw [char_eq_of_toNat c 8 h]
          simp only [List.cons_append, List.nil_append]
          rw [parseStringChars_escape f 'b' (Char.ofNat 8) _ (by decide) (by rfl), ih1]; rfl
        · split
          · rename_i h
            rw [char_eq_of_toNat c 9 h]
            simp only [List.cons_append, List.nil_append]
            rw [parseStringChars_escape f 't' (Char.ofNat 9) _ (by decide) (by rfl), ih1]; rfl
          · split
            · rename_i h
              rw [char_eq_of_toNat c 10 h]
              simp only [List.cons_append, List.nil_append]
              rw [parseStringChars_escape f 'n' (Char.ofNat 10) _ (by decide) (by rfl), ih1]; rfl
            · split
              · rename_i h
                rw [char_eq_of_toNat c 12 h]
                simp only [List.cons_append, List.nil_append]
                rw [parseStringChars_escape f 'f' (Char.ofNat 12) _ (by decide) (by rfl), ih1]; rfl
              · split
                · rename_i h
                  rw [char_eq_of_toNat c 13 h]
                  simp only [List.cons_append, List.nil_append]
                  rw [parseStringChars_escape f 'r' (Char.ofNat 13) _ (by decide) (by rfl), ih1]; rfl
                · split
                  · rename_i h
                    simp only [hex2, List.cons_append, List.nil_append]
                    rw [parseStringChars_unicode f '0' '0' _ _ _ c.toNat (hex4_hex2 _ h) (by omega),
                      ih1, Char.ofNat_toNat]; rfl
                  · rename_i h1 h2 _ _ _ _ _ h3
                    simp only [List.cons_append, List.nil_append]
                    rw [parseStringChars_plain f c _ h1 h2 h3, ih1]; rfl

theorem takeWhile_append_of_all {p : Char → Bool} (l : List Char) (d : Char) (r : List Char)
    (hl : l.all p = true) (hd : p d = false) : (l ++ d :: r).takeWhile p = l := by
  induction l with
  | nil => simp [List.takeWhile, hd]
  | cons a t ih =>
    simp only [List.all_cons, Bool.and_eq_true] at hl
    simp [List.takeWhile, hl.1, ih hl.2]

theorem dropWhile_append_of_all {p : Char → Bool} (l : List Char) (d : Char) (r : List Char)
    (hl : l.all p = true) (hd : p d = false) : (l ++ d :: r).dropWhile p = d :: r := by
  induction l with
  | nil => simp [List.dropWhile, hd]
  | cons a t ih =>
    simp only [List.all_cons, Bool.and_eq_true] at hl
    simp [List.dropWhile, hl.1, ih hl.2]

theorem dropWhile_ws_cons (c : Char) (r : List Char) (h : isJSONWhiteSpace c = false) :
    (c :: r).dropWhile isJSONWhiteSpace = c :: r := by
  simp [List.dropWhile, h]

theorem value_object (f : Nat) (d : Char) (r : List Char)
    (hd : isJSONWhiteSpace d = false) (hd2 : d ≠ '\x7d') :
    parseAux (f + 1) Mode.value ('\x7b' :: d :: r) = parseAux f (Mode.members []) (d :: r) := by
  have h1 : isJSONWhiteSpace '\x7b' = false := by decide
  have h2 : ¬ ('\x7b' = '[') := by decide
  simp only [parseAux, dropWhile_ws_cons _ _ h1, dropWhile_ws_cons _ _ hd, h2, hd2, if_false,
    if_true]

theorem value_string (f : Nat) (r : List Char) (s : List Char) (r1 : List Char)
    (h : parseStringChars (r.length + 1) r = Parsed.ok s r1) :
    parseAux (f + 1) Mode.value ('"' :: r) = Parsed.ok (JSON.str (String.mk s)) r1 := by
  have h1 : isJSONWhiteSpace '"' = false := by decide
  have h2 : ¬ ('"' = '[') := by decide
  have h3 : ¬ ('"' = '\x7b') := by decide
  simp only [parseAux, dropWhile_ws_cons _ _ h1, h2, h3, h, if_false, if_true]

theorem members_step (f : Nat) (acc : List (String × JSON)) (r0 : List Char) (k : List Char)
    (r2 : List Char) (v : JSON) (d : Char) (r4 : List Char)
    (hk : parseStringChars (r0.length + 1) r0 = Parsed.ok k (':' :: r2))
    (hv : parseAux f Mode.value r2 = Parsed.ok v (d :: r4))
    (hd : isJSONWhiteSpace d = false) :
    parseAux (f + 1) (Mode.members acc) ('"' :: r0)
      = if d = ',' then parseAux f (Mode.members (acc ++ [(String.mk k, v)])) r4
        else if d = '\x7d' then Parsed.ok (JSON.obj (acc ++ [(String.mk k, v)])) r4
        else Parsed.syntaxError := by
  have h1 : isJSONWhiteSpace '"' = false := by decide
  have h2 : isJSONWhiteSpace ':' = false := by decide
  simp only [parseAux, dropWhile_ws_cons _ _ h1, dropWhile_ws_cons _ _ h2,
    dropWhile_ws_cons _ _ hd, hk, hv, if_true]

theorem elements_step (f : Nat) (acc : List JSON) (cs : List Char)
    (v : JSON) (d : Char) (r2 : List Char)
    (hv : parseAux f Mode.value cs = Parsed.ok v (d :: r2))
    (hd : isJSONWhiteSpace d = false) :
    parseAux (f + 1) (Mode.elements acc) cs
      = if d = ',' then parseAux f (Mode.elements (acc ++ [v])) r2
        else if d = ']' then Parsed.ok (JSON.arr (acc ++ [v])) r2
        else Parsed.syntaxError := by
  simp only [parseAux, dropWhile_ws_cons _ _ hd, hv]

theorem numberChar_facts (c : Char) (h : isNumberChar c = true) :
    isJSONWhiteSpace c = false ∧ c ≠ '[' ∧ c ≠ '\x7b' ∧ c ≠ '"' ∧ c ≠ 'n' ∧ c ≠ 't'
      ∧ c ≠ 'f' := by
  refine ⟨?_, ?_, ?_, ?_, ?_, ?_, ?_⟩
  · cases hw : isJSONWhiteSpace c with
    | false => rfl
    | true =>
      exfalso
      simp only [isJSONWhiteSpace, Bool.or_eq_true, decide_eq_true_eq] at hw
      rcases hw with ((hw | hw) | hw) | hw
      · rw [char_eq_of_toNat c _ hw] at h; revert h; decide
      · rw [char_eq_of_toNat c _ hw] at h; revert h; decide
      · rw [char_eq_of_toNat c _ hw] at h; revert h; decide
      · rw [char_eq_of_toNat c _ hw] at h; revert h; decide
  all_goals
    intro hc
    rw [hc] at h
    revert h
    decide

theorem value_number (f : Nat) (c : Char) (t : List Char) (d : Char) (r : List Char)
    (x : JSNumber) (hall : (c :: t).all isNumberChar = true) (hd : isNumberChar d = false)
    (hx : jsonNumber? (c :: t) = some x) :
    parseAux (f + 1) Mode.value (c :: t ++ d :: r) = Parsed.ok (JSON.num x) (d :: r) := by
  have hc : isNumberChar c = true := by
    simp only [List.all_cons, Bool.and_eq_true] at hall
    exact hall.1
  obtain ⟨h1, h2, h3, h4, h5, h6, h7⟩ := numberChar_facts c hc
  have hn : "null".data = ['n', 'u', 'l', 'l'] := rfl
  have ht : "true".data = ['t', 'r', 'u', 'e'] := rfl
  have hf : "false".data = ['f', 'a', 'l', 's', 'e'] := rfl
  have htake := takeWhile_append_of_all (c :: t) d r hall hd
  have hdrop := dropWhile_append_of_all (c :: t) d r hall hd
  simp only [List.cons_append] at htake hdrop
  have b5 : ('n' == c) = false := beq_eq_false_iff_ne.mpr h5.symm
  have b6 : ('t' == c) = false := beq_eq_false_iff_ne.mpr h6.symm
  have b7 : ('f' == c) = false := beq_eq_false_iff_ne.mpr h7.symm
  simp only [parseAux, List.cons_append, dropWhile_ws_cons _ _ h1, h2, h3, h4, if_false, hn, ht,
    hf, List.isPrefixOf, b5, b6, b7, Bool.false_and, htake, hdrop, hx, Bool.false_eq_true]

/-- The characters of the text that `JSON.stringify` writes for an entry. -/
theorem stringifyCalculation_data (c : Calculation) :
    (stringifyCalculation c).data
      = '\x7b' :: '"' :: 'e' :: 'x' :: 'p' :: 'r' :: 'e' :: 's' :: 's' :: 'i' :: 'o' :: 'n'
          :: '"' :: ':' :: '"'
          :: (c.expression.data.flatMap quoteJSONChar ++ '"' :: ',' :: '"'
          :: 'r' :: 'e' :: 's' :: 'u' :: 'l' :: 't' :: '"' :: ':'
          :: ((stringifyNumber c.result).data ++ ['\x7d'])) := by
  simp [stringifyCalculation, quoteJSONString, String.data_append]

theorem parse_key_expression (rest : List Char) (fuel : Nat) (hf : 10 < fuel) :
    parseStringChars fuel
        ('e' :: 'x' :: 'p' :: 'r' :: 'e' :: 's' :: 's' :: 'i' :: 'o' :: 'n' :: '"' :: rest)
      = Parsed.ok "expression".data rest :=
  parseStringChars_quote "expression".data rest fuel hf

theorem parse_key_result (rest : List Char) (fuel : Nat) (hf : 6 < fuel) :
    parseStringChars fuel ('r' :: 'e' :: 's' :: 'u' :: 'l' :: 't' :: '"' :: rest)
      = Parsed.ok "result".data rest :=
  parseStringChars_quote "result".data rest fuel hf

theorem value_array (f : Nat) (d : Char) (r : List Char)
    (hd : isJSONWhiteSpace d = false) (hd2 : d ≠ ']') :
    parseAux (f + 1) Mode.value ('[' :: d :: r) = parseAux f (Mode.elements []) (d :: r) := by
  have h1 : isJSONWhiteSpace '[' = false := by decide
  simp only [parseAux, dropWhile_ws_cons _ _ h1, dropWhile_ws_cons _ _ hd, hd2, if_false,
    if_true]

theorem intercalate_go_data (sep : String) (as : List String) : ∀ acc : String,
    (String.intercalate.go acc sep as).data
      = acc.data ++ as.flatMap (fun a => sep.data ++ a.data) := by
  induction as with
  | nil => intro acc; simp [String.intercalate.go]
  | cons a t ih => intro acc; simp [String.intercalate.go, ih, String.data_append]

/-- The characters of the text that `JSON.stringify` writes for a ledger that
is not empty. -/
theorem stringify_cons_data (c : Calculation) (cs : List Calculation) :
    (stringify (c :: cs)).data
      = '[' :: ((stringifyCalculation c).data
          ++ (cs.flatMap (fun x => ',' :: (stringifyCalculation x).data) ++ [']'])) := by
  have hc : ",".data = [','] := rfl
  have hl : "[".data = ['['] := rfl
  have hr : "]".data = [']'] := rfl
  simp only [stringify, String.data_append, List.map_cons, String.intercalate,
    intercalate_go_data, hc, hl, hr, List.flatMap_map]
  simp

theorem flatMap_length_ge (cs : List Calculation) :
    cs.length ≤ (cs.flatMap (fun x => ',' :: (stringifyCalculation x).data)).length := by
  induction cs with
  | nil => simp
  | cons c t ih => simp only [List.flatMap_cons, List.length_append, List.length_cons]; omega

theorem stringify_ne_empty (h : List Calculation) : stringify h ≠ "" := by
  cases h with
  | nil => decide
  | cons c cs =>
    intro heq
    have hd := stringify_cons_data c cs
    rw [heq] at hd
    exact absurd hd (by simp)

/-! ## The bound of the ledger under all handlers -/

theorem pushed_length (c : Calculation) (h : List Calculation) (hl : h.length ≤ 10) :
    (pushed c h).length ≤ 10 := by
  rw [pushed_eq_take c h hl]
  simp

theorem calculateResult_history (s : State) :
    (calculateResult s).calculationHistory = s.calculationHistory
    ∨ ∃ c, (calculateResult s).calculationHistory = pushed c s.calculationHistory := by
  unfold calculateResult
  split
  · exact Or.inl rfl
  · split
    · exact Or.inl rfl
    · simp only
      split
      · exact Or.inl rfl
      · exact Or.inr ⟨_, rfl⟩

theorem step_history_length (s : State) (e : Event) (hl : s.calculationHistory.length ≤ 10) :
    (step s e).calculationHistory.length ≤ 10 := by
  cases e with
  | digit d =>
    simp only [step, inputDigit]
    split <;> exact hl
  | operator op =>
    simp only [step, inputOperator]
    split
    · exact hl
    · split
      · exact hl
      · split <;> exact hl
  | equals =>
    rcases calculateResult_history s with h | ⟨c, h⟩
    · simp only [step]; rw [h]; exact hl
    · simp only [step]; rw [h]; exact pushed_length c _ hl
  | clear => exact hl
  | backspace =>
    simp only [step, handleBackspace]
    split <;> exact hl

theorem run_history_length (evs : List Event) : ∀ s : State,
    s.calculationHistory.length ≤ 10 → (run s evs).calculationHistory.length ≤ 10 := by
  induction evs with
  | nil => intro s hl; exact hl
  | cons e es ih =>
    intro s hl
    simpa [run] using ih (step s e) (step_history_length s e hl)

theorem toCalculations_length (items : List JSON) : ∀ h : List Calculation,
    toCalculations items = some h → h.length = items.length := by
  induction items with
  | nil => intro h hh; simp [toCalculations] at hh; simp [← hh]
  | cons v vs ih =>
    intro h hh
    simp only [toCalculations] at hh
    split at hh
    · rename_i c cs _ hcs
      simp only [Option.some.injEq] at hh
      rw [← hh, List.length_cons, List.length_cons, ih cs hcs]
    · exact absurd hh (by simp)

/-- What `loadHistory` did when it returned with a ledger of entries. -/
theorem loadHistory_returned (s t : State) (h : loadHistory s = LoadOutcome.returned t) :
    t = s ∨ ∃ (text : String) (items : List JSON) (rest : List Char),
      s.storage = some text ∧ parseJSON text = Parsed.ok (JSON.arr items) rest
        ∧ t.calculationHistory.length = items.length := by
  unfold loadHistory at h
  split at h
  · exact Or.inl (by injection h with h; exact h.symm)
  · rename_i text hst
    split at h
    · exact Or.inl (by injection h with h; exact h.symm)
    · split at h
      · exact absurd h (by simp)
      · exact absurd h (by simp)
      · rename_i v rest hp
        split at h
        · rename_i l hl
          cases v with
          | arr items =>
            simp only [toLedger] at hl
            injection h with h
            exact Or.inr ⟨text, items, rest, hst, hp, by
              rw [← h]; exact toCalculations_length items l hl⟩
          | null => simp [toLedger] at hl
          | bool b => simp [toLedger] at hl
          | num x => simp [toLedger] at hl
          | str x => simp [toLedger] at hl
          | obj ms => simp [toLedger] at hl
        · split at h <;> exact absurd h (by simp)

set_option maxRecDepth 100000 in
theorem load_eleven :
    loadHistory (fresh (some (stringify (List.replicate 11 ⟨"1 + 1", parseFloat "2"⟩))))
      = LoadOutcome.returned
          { fresh (some (stringify (List.replicate 11 ⟨"1 + 1", parseFloat "2"⟩))) with
            calculationHistory := List.replicate 11 ⟨"1 + 1", parseFloat "2"⟩ } := by
  rfl

/-- C11, as stated, fails: `loadHistory` does not truncate.  With the
serialization of eleven entries `1 + 1 = 2` under the key, it returns with a
ledger of eleven records. -/
theorem load_eleven_records :
    stringify [⟨"1 + 1", parseFloat "2"⟩] = "[\x7b\"expression\":\"1 + 1\",\"result\":2\x7d]"
    ∧ loadHistory (fresh (some (stringify (List.replicate 11 ⟨"1 + 1", parseFloat "2"⟩))))
      = LoadOutcome.returned
          { fresh (some (stringify (List.replicate 11 ⟨"1 + 1", parseFloat "2"⟩))) with
            calculationHistory := List.replicate 11 ⟨"1 + 1", parseFloat "2"⟩ }
    ∧ (List.replicate 11 (⟨"1 + 1", parseFloat "2"⟩ : Calculation)).length = 11 :=
  ⟨by decide, load_eleven, by decide⟩

/-- C11, amended: from a ledger of at most ten records, `addToHistory`,
`clearHistory` and every run of digit, operator, equals, clear and backspace
events leave a ledger of at most ten records.  `loadHistory` does not establish
the bound: when it returns with a ledger it has either changed nothing (key
absent or empty) or installed one record for each element of the stored array,
however many there are. -/
theorem ledger_bound (s : State) (h : s.calculationHistory.length ≤ 10) :
    (∀ c, (addToHistory s c).calculationHistory.length ≤ 10)
    ∧ (clearHistory s).calculationHistory.length ≤ 10
    ∧ (∀ evs, (run s evs).calculationHistory.length ≤ 10)
    ∧ (∀ t, loadHistory s = LoadOutcome.returned t →
        t = s ∨ ∃ (text : String) (items : List JSON) (rest : List Char),
          s.storage = some text ∧ parseJSON text = Parsed.ok (JSON.arr items) rest
            ∧ t.calculationHistory.length = items.length) := by
  refine ⟨fun c => ?_, ?_, fun evs => run_history_length evs s h,
    fun t ht => loadHistory_returned s t ht⟩
  · rw [addToHistory_history]
    exact pushed_length c _ h
  · simp [clearHistory, saveHistory]

/-- The amended C11 at the initial state, on a run that records two results. -/
theorem ledger_bound_witness :
    (run init [.digit "5", .operator "+", .digit "3", .equals, .operator "×", .digit "2",
        .equals]).calculationHistory.length ≤ 10 :=
  (ledger_bound init (by decide)).2.2.1 _

set_option maxRecDepth 100000 in
set_option exponentiation.threshold 2000 in
theorem run_to_infinity :
    run init (List.replicate 309 (Event.digit "9")
        ++ [Event.operator "×", Event.digit "2", Event.equals])
      = { currentInput := "Infinity", previousInput := "", operator := none,
          waitingForNewInput := true,
          calculationHistory := [⟨"Infinity × 2", JSNumber.inf false⟩],
          storage := some "[\x7b\"expression\":\"Infinity × 2\",\"result\":null\x7d]",
          alerts := [] } := by
  decide

theorem load_null_result :
    loadHistory (fresh (some "[\x7b\"expression\":\"Infinity × 2\",\"result\":null\x7d]"))
      = LoadOutcome.returnedOther (JSON.arr [JSON.obj
          [("expression", JSON.str "Infinity × 2"), ("result", JSON.null)]]) := by
  rfl

/-! ## Rounding: the exponent -/

theorem bitLenAux_spec (fuel : Nat) : ∀ n : Nat, n ≤ fuel → 0 < n →
    2 ^ (bitLenAux fuel n - 1) ≤ n ∧ n < 2 ^ bitLenAux fuel n ∧ 0 < bitLenAux fuel n := by
  induction fuel with
  | zero => intro n h1 h2; omega
  | succ f ih =>
    intro n hn hpos
    simp only [bitLenAux, Nat.pos_iff_ne_zero.mp hpos, if_false]
    rcases Nat.eq_zero_or_pos (n / 2) with h0 | hp
    · have h1 : n = 1 := by omega
      subst h1
      cases f with
      | zero => simp [bitLenAux]
      | succ g => simp [bitLenAux]
    · obtain ⟨h1, h2, h3⟩ := ih (n / 2) (by omega) hp
      refine ⟨?_, ?_, by omega⟩
      · have : bitLenAux f (n / 2) + 1 - 1 = (bitLenAux f (n / 2) - 1) + 1 := by omega
        rw [this, pow_succ]
        omega
      · rw [pow_succ]
        omega

theorem bitLen_spec (n : Nat) (h : 0 < n) :
    2 ^ (bitLen n - 1) ≤ n ∧ n < 2 ^ bitLen n ∧ 0 < bitLen n :=
  bitLenAux_spec n n (le_refl n) h

theorem scale2_pos (N D : Nat) (E : Int) (hD : 0 < D) : 0 < (scale2 N D E).2 := by
  unfold scale2
  split
  · exact Nat.mul_pos hD (by positivity)
  · exact hD

theorem scale2_ratio (N D : Nat) (E : Int) (hD : 0 < D) :
    ((scale2 N D E).1 : ℚ) / ((scale2 N D E).2 : ℚ) = ((N : ℚ) / D) / (2 : ℚ) ^ E := by
  have hD' : (D : ℚ) ≠ 0 := by exact_mod_cast hD.ne'
  unfold scale2
  split
  · rename_i h
    have : (2 : ℚ) ^ E = (2 : ℚ) ^ E.toNat := by
      conv_lhs => rw [← Int.toNat_of_nonneg h]
      exact zpow_natCast _ _
    rw [this]
    push_cast
    field_simp
  · rename_i h
    have : (2 : ℚ) ^ E = ((2 : ℚ) ^ (-E).toNat)⁻¹ := by
      have h2 : E = -((-E).toNat : ℤ) := by rw [Int.toNat_of_nonneg (by omega)]; ring
      conv_lhs => rw [h2]
      rw [zpow_neg, zpow_natCast]
    rw [this]
    push_cast
    field_simp

theorem roundRat_eq (neg : Bool) (num den : Nat) (h1 : num ≠ 0) (h2 : den ≠ 0) :
    roundRat neg num den
      = roundAt neg num den (if binadeExp num den < -1074 then -1074 else binadeExp num den) := by
  simp only [roundRat, roundAt, binadeExp, h1, h2, or_self, if_false]

theorem div_cast_bounds (a b : Nat) (hb : 0 < b) :
    ((a / b : Nat) : ℚ) ≤ (a : ℚ) / b ∧ (a : ℚ) / b < ((a / b : Nat) : ℚ) + 1 := by
  have hb' : (0 : ℚ) < b := by exact_mod_cast hb
  constructor
  · exact Nat.cast_div_le
  · rw [div_lt_iff₀ hb']
    have := Nat.lt_div_mul_add hb (a := a)
    have h2 : (a : ℚ) < ((a / b : Nat) : ℚ) * b + b := by exact_mod_cast this
    linarith

theorem div_lt_cast_iff (a b t : Nat) (hb : 0 < b) :
    a / b < t ↔ (a : ℚ) / b < t := by
  have hb' : (0 : ℚ) < b := by exact_mod_cast hb
  rw [Nat.div_lt_iff_lt_mul hb, div_lt_iff₀ hb']
  exact_mod_cast Iff.rfl

theorem two_zpow_pos (E : Int) : (0 : ℚ) < (2 : ℚ) ^ E := by positivity

/-- The exponent found by `roundRat` puts the scaled value in `[2^52, 2^53)`. -/
theorem binadeExp_spec (N D : Nat) (hN : 0 < N) (hD : 0 < D) :
    (2 : ℚ) ^ (52 : ℕ) ≤ ((N : ℚ) / D) / (2 : ℚ) ^ (binadeExp N D)
    ∧ ((N : ℚ) / D) / (2 : ℚ) ^ (binadeExp N D) < (2 : ℚ) ^ (53 : ℕ) := by
  obtain ⟨ha1, ha2, ha3⟩ := bitLen_spec N hN
  obtain ⟨hb1, hb2, hb3⟩ := bitLen_spec D hD
  have hD' : (0 : ℚ) < D := by exact_mod_cast hD
  have hN' : (0 : ℚ) < N := by exact_mod_cast hN
  set a := bitLen N with ha
  set b := bitLen D with hb
  set Y : ℚ := (N : ℚ) / D with hY
  -- bounds on Y
  have hNlt : (N : ℚ) < (2 : ℚ) ^ (a : ℤ) := by
    rw [zpow_natCast]; exact_mod_cast ha2
  have hNge : (2 : ℚ) ^ ((a : ℤ) - 1) ≤ N := by
    have : ((a : ℤ) - 1) = ((a - 1 : ℕ) : ℤ) := by omega
    rw [this, zpow_natCast]; exact_mod_cast ha1
  have hDlt : (D : ℚ) < (2 : ℚ) ^ (b : ℤ) := by
    rw [zpow_natCast]; exact_mod_cast hb2
  have hDge : (2 : ℚ) ^ ((b : ℤ) - 1) ≤ D := by
    have : ((b : ℤ) - 1) = ((b - 1 : ℕ) : ℤ) := by omega
    rw [this, zpow_natCast]; exact_mod_cast hb1
  have hYlt : Y < (2 : ℚ) ^ ((a : ℤ) - (b : ℤ) + 1) := by
    rw [hY, div_lt_iff₀ hD']
    calc (N : ℚ) < (2 : ℚ) ^ (a : ℤ) := hNlt
      _ = (2 : ℚ) ^ ((a : ℤ) - (b : ℤ) + 1) * (2 : ℚ) ^ ((b : ℤ) - 1) := by
          rw [← zpow_add₀ (by norm_num : (2 : ℚ) ≠ 0)]; congr 1; ring
      _ ≤ (2 : ℚ) ^ ((a : ℤ) - (b : ℤ) + 1) * D :=
          mul_le_mul_of_nonneg_left hDge (two_zpow_pos _).le
  have hYgt : (2 : ℚ) ^ ((a : ℤ) - (b : ℤ) - 1) < Y := by
    rw [hY, lt_div_iff₀ hD']
    calc (2 : ℚ) ^ ((a : ℤ) - (b : ℤ) - 1) * D
        < (2 : ℚ) ^ ((a : ℤ) - (b : ℤ) - 1) * (2 : ℚ) ^ (b : ℤ) :=
          mul_lt_mul_of_pos_left hDlt (two_zpow_pos _)
      _ = (2 : ℚ) ^ ((a : ℤ) - 1) := by
          rw [← zpow_add₀ (by norm_num : (2 : ℚ) ≠ 0)]; congr 1; ring
      _ ≤ N := hNge
  set e1 : ℤ := (a : ℤ) - (b : ℤ) - 52 with he1
  have hZlt : Y / (2 : ℚ) ^ e1 < (2 : ℚ) ^ (53 : ℕ) := by
    rw [div_lt_iff₀ (two_zpow_pos _)]
    calc Y < (2 : ℚ) ^ ((a : ℤ) - (b : ℤ) + 1) := hYlt
      _ = (2 : ℚ) ^ (53 : ℕ) * (2 : ℚ) ^ e1 := by
          rw [← zpow_natCast, ← zpow_add₀ (by norm_num : (2 : ℚ) ≠ 0)]; congr 1
          simp only [he1]; push_cast; ring
  have hZgt : (2 : ℚ) ^ (51 : ℕ) < Y / (2 : ℚ) ^ e1 := by
    rw [lt_div_iff₀ (two_zpow_pos _)]
    calc (2 : ℚ) ^ (51 : ℕ) * (2 : ℚ) ^ e1 = (2 : ℚ) ^ ((a : ℤ) - (b : ℤ) - 1) := by
          rw [← zpow_natCast, ← zpow_add₀ (by norm_num : (2 : ℚ) ≠ 0)]; congr 1
          simp only [he1]; push_cast; ring
      _ < Y := hYgt
  have hratio := scale2_ratio N D e1 hD
  have hpos := scale2_pos N D e1 hD
  have hq := div_lt_cast_iff (scale2 N D e1).1 (scale2 N D e1).2 (2 ^ 52) hpos
  rw [hratio] at hq
  simp only [binadeExp]
  rw [← ha, ← hb, ← he1]
  split
  · rename_i hlt
    have hZ52 : Y / (2 : ℚ) ^ e1 < (2 : ℚ) ^ (52 : ℕ) := by
      have := hq.mp hlt
      simpa using this
    have hstep : Y / (2 : ℚ) ^ (e1 - 1) = 2 * (Y / (2 : ℚ) ^ e1) := by
      rw [zpow_sub₀ (by norm_num : (2 : ℚ) ≠ 0), zpow_one]
      field_simp
      ring
    rw [hstep]
    constructor
    · have : (2 : ℚ) ^ (52 : ℕ) = 2 * (2 : ℚ) ^ (51 : ℕ) := by norm_num
      rw [this]; linarith
    · have : (2 : ℚ) ^ (53 : ℕ) = 2 * (2 : ℚ) ^ (52 : ℕ) := by norm_num
      rw [this]; linarith
  · rename_i hge
    refine ⟨?_, hZlt⟩
    by_contra hcon
    push_neg at hcon
    apply hge
    apply hq.mpr
    simpa using hcon

/-- Of two exponents, the one that leaves the larger scaled value is the smaller. -/
theorem binade_le (Y : ℚ) (hY : 0 < Y) (E E' : Int)
    (h1 : Y / (2 : ℚ) ^ E < (2 : ℚ) ^ (53 : ℕ)) (h2 : (2 : ℚ) ^ (52 : ℕ) ≤ Y / (2 : ℚ) ^ E') :
    E' ≤ E := by
  by_contra hcon
  push_neg at hcon
  obtain ⟨k, hk⟩ : ∃ k : ℕ, E' = E + 1 + k := ⟨(E' - E - 1).toNat, by omega⟩
  have hpow : (2 : ℚ) ^ E' = (2 : ℚ) ^ E * 2 * (2 : ℚ) ^ k := by
    rw [hk, zpow_add₀ (by norm_num : (2 : ℚ) ≠ 0), zpow_add₀ (by norm_num : (2 : ℚ) ≠ 0),
      zpow_one, zpow_natCast]
  have hk1 : (1 : ℚ) ≤ (2 : ℚ) ^ k := one_le_pow₀ (by norm_num)
  have hE : (0 : ℚ) < (2 : ℚ) ^ E := two_zpow_pos E
  have hE' : (0 : ℚ) < (2 : ℚ) ^ E' := two_zpow_pos E'
  rw [div_lt_iff₀ hE] at h1
  rw [le_div_iff₀ hE'] at h2
  have h3 : (2 : ℚ) ^ (53 : ℕ) = 2 * (2 : ℚ) ^ (52 : ℕ) := by norm_num
  have h4 : (2 : ℚ) ^ (52 : ℕ) * ((2 : ℚ) ^ E * 2) ≤ (2 : ℚ) ^ (52 : ℕ) * (2 : ℚ) ^ E' := by
    rw [hpow]
    have : (0 : ℚ) ≤ (2 : ℚ) ^ (52 : ℕ) * ((2 : ℚ) ^ E * 2) := by positivity
    nlinarith
  nlinarith

theorem div_mod_of_bounds (a b k : Nat) (h1 : k * b ≤ a) (h2 : a < k * b + b) :
    a / b = k ∧ a % b = a - k * b := by
  have hb : 0 < b := by omega
  have hq : a / b = k := by
    apply Nat.div_eq_of_lt_le
    · exact h1
    · rw [Nat.succ_mul]; exact h2
  refine ⟨hq, ?_⟩
  have := Nat.div_add_mod a b
  rw [hq, Nat.mul_comm] at this
  omega

/-- Rounding at `E` a value that lies strictly within half a unit of `m`. -/
theorem roundAt_mid (neg : Bool) (N D : Nat) (E : Int) (m : Nat) (hD : 0 < D)
    (hm0 : 0 < m) (hm : m < 2 ^ 53) (hE : E ≤ 971)
    (h1 : (m : ℚ) - 1 / 2 < ((N : ℚ) / D) / (2 : ℚ) ^ E)
    (h2 : ((N : ℚ) / D) / (2 : ℚ) ^ E < (m : ℚ) + 1 / 2) :
    roundAt neg N D E = JSNumber.fin neg m E := by
  have hpos := scale2_pos N D E hD
  have hratio := scale2_ratio N D E hD
  rw [← hratio] at h1 h2
  unfold roundAt
  simp only
  generalize (scale2 N D E).1 = a at h1 h2 ⊢
  generalize (scale2 N D E).2 = b at hpos h1 h2 ⊢
  have hb' : (0 : ℚ) < b := by exact_mod_cast hpos
  rw [lt_div_iff₀ hb'] at h1
  rw [div_lt_iff₀ hb'] at h2
  have n1 : 2 * (m * b) < 2 * a + b := by
    have : (2 : ℚ) * (m * b) < 2 * a + b := by linarith
    exact_mod_cast this
  have n2 : 2 * a < 2 * (m * b) + b := by
    have : (2 : ℚ) * a < 2 * (m * b) + b := by linarith
    exact_mod_cast this
  have hm53 : m ≠ 2 ^ 53 := by omega
  have hm0' : m ≠ 0 := by omega
  have hE' : ¬ (971 < E) := by omega
  rcases Nat.lt_or_ge a (m * b) with hlt | hge
  · -- the quotient is `m - 1` and the remainder is above half
    obtain ⟨k, rfl⟩ : ∃ k, m = k + 1 := ⟨m - 1, by omega⟩
    have hkb : (k + 1) * b = k * b + b := by ring
    rw [hkb] at n1 n2 hlt
    obtain ⟨hq, hr⟩ := div_mod_of_bounds a b k (by omega) (by omega)
    have hup : b < 2 * (a % b) := by rw [hr]; omega
    simp only [hq, hup, decide_True, Bool.true_or, if_true, hm53, if_false, hm0', hE']
  · obtain ⟨hq, hr⟩ := div_mod_of_bounds a b m hge (by omega)
    have hup1 : ¬ (b < 2 * (a % b)) := by rw [hr]; omega
    have hup2 : ¬ (2 * (a % b) = b) := by rw [hr]; omega
    simp only [hq, hup1, hup2, decide_False, Bool.false_and, Bool.or_self, Bool.false_eq_true,
      if_false, hm53, hm0', hE']

/-- Rounding at `E` a value in the upper half of the last unit below `2^53`. -/
theorem roundAt_top (neg : Bool) (N D : Nat) (E : Int) (hD : 0 < D) (hE : E + 1 ≤ 971)
    (h1 : (2 : ℚ) ^ (53 : ℕ) - 1 / 2 ≤ ((N : ℚ) / D) / (2 : ℚ) ^ E)
    (h2 : ((N : ℚ) / D) / (2 : ℚ) ^ E < (2 : ℚ) ^ (53 : ℕ)) :
    roundAt neg N D E = JSNumber.fin neg (2 ^ 52) (E + 1) := by
  have hpos := scale2_pos N D E hD
  have hratio := scale2_ratio N D E hD
  rw [← hratio] at h1 h2
  unfold roundAt
  simp only
  generalize (scale2 N D E).1 = a at h1 h2 ⊢
  generalize (scale2 N D E).2 = b at hpos h1 h2 ⊢
  have hb' : (0 : ℚ) < b := by exact_mod_cast hpos
  rw [le_div_iff₀ hb'] at h1
  rw [div_lt_iff₀ hb'] at h2
  have n1 : 2 * ((2 ^ 53 - 1) * b) + b ≤ 2 * a := by
    have : (2 : ℚ) * (((2 : ℚ) ^ (53 : ℕ) - 1) * b) + b ≤ 2 * a := by linarith
    have h53 : ((2 ^ 53 - 1 : ℕ) : ℚ) = (2 : ℚ) ^ (53 : ℕ) - 1 := by norm_num
    rw [← h53] at this
    exact_mod_cast this
  have n2 : a < (2 ^ 53 - 1) * b + b := by
    have : (a : ℚ) < ((2 : ℚ) ^ (53 : ℕ) - 1) * b + b := by linarith
    have h53 : ((2 ^ 53 - 1 : ℕ) : ℚ) = (2 : ℚ) ^ (53 : ℕ) - 1 := by norm_num
    rw [← h53] at this
    exact_mod_cast this
  obtain ⟨hq, hr⟩ := div_mod_of_bounds a b (2 ^ 53 - 1) (by omega) n2
  have hE' : ¬ (971 < E + 1) := by omega
  have hodd : (2 ^ 53 - 1) % 2 = 1 := by norm_num
  have h0 : (2 : ℕ) ^ 52 ≠ 0 := by norm_num
  have hq1 : 2 ^ 53 - 1 + 1 = 2 ^ 53 := by norm_num
  rcases Nat.lt_or_ge b (2 * (a % b)) with hup | hnup
  · simp only [hq, hup, decide_True, Bool.true_or, if_true, hq1, h0, if_false, hE']
  · have heq : 2 * (a % b) = b := by rw [hr] at hnup ⊢; omega
    have hnup' : ¬ (b < 2 * (a % b)) := by omega
    simp only [hq, hnup', heq, hodd, decide_True, decide_False, Bool.false_or, Bool.and_self,
      Bool.or_true, lt_self_iff_false, if_true, hq1, h0, if_false, hE']

/-- A positive rational whose scaled value `(A / B) / 2^e` is within
`m / (2 * 10^16)` of the significand `m` of a canonical Number rounds to it. -/
theorem roundRat_near (neg : Bool) (A B m : Nat) (e : Int) (hA : 0 < A) (hB : 0 < B)
    (hc : isCanonical m e)
    (hnear : |((A : ℚ) / B) / (2 : ℚ) ^ e - m| ≤ (m : ℚ) / (2 * 10 ^ 16)) :
    roundRat neg A B = JSNumber.fin neg m e := by
  have hY : (0 : ℚ) < (A : ℚ) / B := by
    have h1 : (0 : ℚ) < A := by exact_mod_cast hA
    have h2 : (0 : ℚ) < B := by exact_mod_cast hB
    positivity
  obtain ⟨hb1, hb2⟩ := binadeExp_spec A B hA hB
  have hm53 : m < 2 ^ 53 := by
    rcases hc with h | h
    · exact h.2.1
    · have := h.2.1; omega
  have hm0 : 0 < m := by
    rcases hc with h | h
    · have := h.1; have : 0 < 2 ^ 52 := by norm_num
      omega
    · exact h.1
  have he971 : e ≤ 971 := by
    rcases hc with h | h
    · exact h.2.2.2
    · rw [h.2.2]; norm_num
  have he1074 : -1074 ≤ e := by
    rcases hc with h | h
    · exact h.2.2.1
    · rw [h.2.2]
  have hmq : (m : ℚ) < (2 : ℚ) ^ (53 : ℕ) := by exact_mod_cast hm53
  have hmq1 : (m : ℚ) ≤ (2 : ℚ) ^ (53 : ℕ) - 1 := by
    have : m ≤ 2 ^ 53 - 1 := by omega
    have h2 : ((2 ^ 53 - 1 : ℕ) : ℚ) = (2 : ℚ) ^ (53 : ℕ) - 1 := by norm_num
    rw [← h2]; exact_mod_cast this
  have hmq0 : (0 : ℚ) < m := by exact_mod_cast hm0
  rw [abs_le] at hnear
  obtain ⟨hn1, hn2⟩ := hnear
  set Z : ℚ := ((A : ℚ) / B) / (2 : ℚ) ^ e with hZ
  have hdelta : (m : ℚ) / (2 * 10 ^ 16) < 1 / 2 := by
    rw [div_lt_iff₀ (by norm_num)]
    have : (2 : ℚ) ^ (53 : ℕ) ≤ 1 / 2 * (2 * 10 ^ 16) := by norm_num
    linarith
  have hZ1 : (m : ℚ) - 1 / 2 < Z := by linarith
  have hZ2 : Z < (m : ℚ) + 1 / 2 := by linarith
  have hZ53 : Z < (2 : ℚ) ^ (53 : ℕ) := by linarith
  rw [roundRat_eq neg A B (by omega) (by omega)]
  by_cases he : e = -1074
  · have hle : binadeExp A B ≤ e := binade_le _ hY e _ hZ53 hb1
    have hclamp : (if binadeExp A B < -1074 then -1074 else binadeExp A B) = e := by
      split
      · exact he.symm
      · omega
    rw [hclamp]
    exact roundAt_mid neg A B e m hB hm0 hm53 he971 hZ1 hZ2
  · have hnorm : 2 ^ 52 ≤ m := by
      rcases hc with h | h
      · exact h.1
      · exact absurd h.2.2 he
    have hnq : (2 : ℚ) ^ (52 : ℕ) ≤ m := by exact_mod_cast hnorm
    by_cases hz : (2 : ℚ) ^ (52 : ℕ) ≤ Z
    · have hle : binadeExp A B ≤ e := binade_le _ hY e _ hZ53 hb1
      have hge : e ≤ binadeExp A B := binade_le _ hY _ e hb2 hz
      have hbe : binadeExp A B = e := le_antisymm hle hge
      have hclamp : (if binadeExp A B < -1074 then -1074 else binadeExp A B) = e := by
        rw [hbe]; split
        · omega
        · rfl
      rw [hclamp]
      exact roundAt_mid neg A B e m hB hm0 hm53 he971 hZ1 hZ2
    · push_neg at hz
      have hm52 : m = 2 ^ 52 := by
        have h1 : (m : ℚ) < (2 : ℚ) ^ (52 : ℕ) + 1 / 2 := by linarith
        have h2 : (m : ℚ) < ((2 ^ 52 + 1 : ℕ) : ℚ) := by
          have : ((2 ^ 52 + 1 : ℕ) : ℚ) = (2 : ℚ) ^ (52 : ℕ) + 1 := by norm_num
          rw [this]; linarith
        have h3 : m < 2 ^ 52 + 1 := by exact_mod_cast h2
        omega
      have hmq52 : (m : ℚ) = (2 : ℚ) ^ (52 : ℕ) := by rw [hm52]; norm_num
      have hquarter : (m : ℚ) / (2 * 10 ^ 16) ≤ 1 / 4 := by
        rw [hmq52]; norm_num
      have hstep : ((A : ℚ) / B) / (2 : ℚ) ^ (e - 1) = 2 * Z := by
        rw [hZ, zpow_sub₀ (by norm_num : (2 : ℚ) ≠ 0), zpow_one]
        field_simp
        ring
      have h53 : (2 : ℚ) ^ (53 : ℕ) = 2 * (2 : ℚ) ^ (52 : ℕ) := by norm_num
      have ht1 : (2 : ℚ) ^ (53 : ℕ) - 1 / 2 ≤ ((A : ℚ) / B) / (2 : ℚ) ^ (e - 1) := by
        rw [hstep]; linarith
      have ht2 : ((A : ℚ) / B) / (2 : ℚ) ^ (e - 1) < (2 : ℚ) ^ (53 : ℕ) := by
        rw [hstep]; linarith
      have ht0 : (2 : ℚ) ^ (52 : ℕ) ≤ ((A : ℚ) / B) / (2 : ℚ) ^ (e - 1) := by
        have : (2 : ℚ) ^ (52 : ℕ) ≤ (2 : ℚ) ^ (53 : ℕ) - 1 / 2 := by norm_num
        linarith
      have hle : binadeExp A B ≤ e - 1 := binade_le _ hY (e - 1) _ ht2 hb1
      have hge : e - 1 ≤ binadeExp A B := binade_le _ hY _ (e - 1) hb2 ht0
      have hbe : binadeExp A B = e - 1 := le_antisymm hle hge
      have hclamp : (if binadeExp A B < -1074 then -1074 else binadeExp A B) = e - 1 := by
        rw [hbe]; split
        · omega
        · rfl
      rw [hclamp, roundAt_top neg A B (e - 1) hB (by omega) ht1 ht2, hm52]
      congr 1
      ring

theorem binadeExp_unique (N D : Nat) (hN : 0 < N) (hD : 0 < D) (E : Int)
    (h1 : (2 : ℚ) ^ (52 : ℕ) ≤ ((N : ℚ) / D) / (2 : ℚ) ^ E)
    (h2 : ((N : ℚ) / D) / (2 : ℚ) ^ E < (2 : ℚ) ^ (53 : ℕ)) :
    binadeExp N D = E := by
  have hY : (0 : ℚ) < (N : ℚ) / D := by
    have h1 : (0 : ℚ) < N := by exact_mod_cast hN
    have h2 : (0 : ℚ) < D := by exact_mod_cast hD
    positivity
  obtain ⟨hb1, hb2⟩ := binadeExp_spec N D hN hD
  exact le_antisymm (binade_le _ hY E _ h2 hb1) (binade_le _ hY _ E hb2 h1)

theorem scale2_mul (c N D : Nat) (E : Int) :
    scale2 (c * N) (c * D) E = (c * (scale2 N D E).1, c * (scale2 N D E).2) := by
  unfold scale2
  split <;> simp [Nat.mul_assoc]

/-- `roundRat` depends on the fraction only, not on the numerator and
denominator that present it. -/
theorem roundRat_mul (neg : Bool) (c N D : Nat) (hc : 0 < c) (hD : 0 < D) :
    roundRat neg (c * N) (c * D) = roundRat neg N D := by
  rcases Nat.eq_zero_or_pos N with h0 | hN
  · subst h0
    simp [roundRat]
  have hcN : 0 < c * N := Nat.mul_pos hc hN
  have hcD : 0 < c * D := Nat.mul_pos hc hD
  have hratio : ((c * N : ℕ) : ℚ) / ((c * D : ℕ) : ℚ) = (N : ℚ) / D := by
    have h1 : (c : ℚ) ≠ 0 := by exact_mod_cast hc.ne'
    have h2 : (D : ℚ) ≠ 0 := by exact_mod_cast hD.ne'
    push_cast
    field_simp
    ring
  obtain ⟨hb1, hb2⟩ := binadeExp_spec N D hN hD
  have hbe : binadeExp (c * N) (c * D) = binadeExp N D :=
    binadeExp_unique (c * N) (c * D) hcN hcD _ (by rw [hratio]; exact hb1)
      (by rw [hratio]; exact hb2)
  rw [roundRat_eq neg _ _ (by omega) (by omega), roundRat_eq neg _ _ (by omega) (by omega), hbe]
  generalize (if binadeExp N D < -1074 then -1074 else binadeExp N D) = E
  unfold roundAt
  simp only [scale2_mul]
  have hpos := scale2_pos N D E hD
  generalize (scale2 N D E).1 = a
  generalize (scale2 N D E).2 = b at hpos
  rw [Nat.mul_div_mul_left _ _ hc, Nat.mul_mod_mul_left]
  have e1 : (c * b < 2 * (c * (a % b))) ↔ (b < 2 * (a % b)) := by
    rw [show 2 * (c * (a % b)) = c * (2 * (a % b)) by ring]
    exact Nat.mul_lt_mul_left hc
  have e2 : (2 * (c * (a % b)) = c * b) ↔ (2 * (a % b) = b) := by
    rw [show 2 * (c * (a % b)) = c * (2 * (a % b)) by ring]
    exact Nat.mul_right_inj hc.ne'
  simp only [e1, e2]

theorem roundDec_mul_ten (neg : Bool) (s : Nat) (p : Int) :
    roundDec neg (10 * s) p = roundDec neg s (p + 1) := by
  unfold roundDec
  by_cases hp : 0 ≤ p
  · have hp1 : 0 ≤ p + 1 := by omega
    simp only [hp, hp1, if_true]
    have : (p + 1).toNat = p.toNat + 1 := by omega
    rw [this, pow_succ]
    congr 1
    ring
  · have hneg : p < 0 := by omega
    by_cases hp1 : 0 ≤ p + 1
    · have hp0 : p = -1 := by omega
      subst hp0
      simp only [hp, hp1, if_true, if_false]
      have h := roundRat_mul neg 10 s 1 (by norm_num) (by norm_num)
      simpa using h
    · simp only [hp, hp1, if_false]
      have : (-p).toNat = (-(p + 1)).toNat + 1 := by omega
      rw [this, pow_succ, Nat.mul_comm _ 10]
      exact roundRat_mul neg 10 s _ (by norm_num) (by positivity)

/-! ## Decimal digits -/

theorem digitChar_toNat (d : Nat) (h : d < 10) : (Nat.digitChar d).toNat - 48 = d := by
  interval_cases d <;> rfl

theorem toDigitsCore_eq_digits (fuel : Nat) : ∀ (n : Nat) (ds : List Char), n < fuel → 0 < n →
    Nat.toDigitsCore 10 fuel n ds = ((Nat.digits 10 n).reverse.map Nat.digitChar) ++ ds := by
  induction fuel with
  | zero => intro n ds h; omega
  | succ f ih =>
    intro n ds hn hpos
    simp only [Nat.toDigitsCore]
    rw [Nat.digits_def' (by norm_num) hpos]
    split
    · rename_i h0
      have : Nat.digits 10 (n / 10) = [] := by rw [h0]; exact Nat.digits_zero 10
      simp [this]
    · rename_i h0
      rw [ih (n / 10) _ (by omega) (by omega)]
      simp

theorem toDigits_eq_digits (n : Nat) (h : 0 < n) :
    Nat.toDigits 10 n = (Nat.digits 10 n).reverse.map Nat.digitChar := by
  unfold Nat.toDigits
  rw [toDigitsCore_eq_digits (n + 1) n [] (by omega) h]
  simp

theorem toDigits_length (n : Nat) (h : 0 < n) :
    10 ^ ((Nat.toDigits 10 n).length - 1) ≤ n ∧ n < 10 ^ (Nat.toDigits 10 n).length
      ∧ 0 < (Nat.toDigits 10 n).length := by
  rw [toDigits_eq_digits n h]
  simp only [List.length_map, List.length_reverse]
  have h1 := Nat.base_pow_length_digits_le 10 n (by norm_num) (by omega)
  have h2 := @Nat.lt_base_pow_length_digits 10 n (by norm_num)
  have h3 : 0 < (Nat.digits 10 n).length := by
    apply List.length_pos.mpr
    exact Nat.digits_ne_nil_iff_ne_zero.mpr (by omega)
  refine ⟨?_, h2, h3⟩
  obtain ⟨k, hk⟩ : ∃ k, (Nat.digits 10 n).length = k + 1 := ⟨_, (Nat.succ_pred_eq_of_pos h3).symm⟩
  rw [hk] at h1 ⊢
  simp only [Nat.add_sub_cancel]
  rw [pow_succ] at h1
  omega

theorem toDigits_length_eq (n k : Nat) (h1 : 10 ^ k ≤ n) (h2 : n < 10 ^ (k + 1)) :
    (Nat.toDigits 10 n).length = k + 1 := by
  have hn : 0 < n := lt_of_lt_of_le (by positivity) h1
  obtain ⟨a, b, c⟩ := toDigits_length n hn
  set L := (Nat.toDigits 10 n).length
  by_contra hne
  rcases Nat.lt_or_gt_of_ne hne with hlt | hgt
  · have : 10 ^ L ≤ 10 ^ k := Nat.pow_le_pow_right (by norm_num) (by omega)
    omega
  · have : 10 ^ (k + 1) ≤ 10 ^ (L - 1) := Nat.pow_le_pow_right (by norm_num) (by omega)
    omega

theorem decimalValue_append_singleton (l : List Char) (c : Char) :
    decimalValue (l ++ [c]) = 10 * decimalValue l + (c.toNat - 48) := by
  simp [decimalValue, List.foldl_append]

theorem decimalValue_digits (L : List Nat) (hL : ∀ d ∈ L, d < 10) :
    decimalValue (L.reverse.map Nat.digitChar) = Nat.ofDigits 10 L := by
  induction L with
  | nil => rfl
  | cons d t ih =>
    simp only [List.reverse_cons, List.map_append, List.map_cons, List.map_nil]
    rw [decimalValue_append_singleton, ih (fun x hx => hL x (List.mem_cons_of_mem _ hx)),
      digitChar_toNat d (hL d (by simp)), Nat.ofDigits_cons]
    ring

theorem decimalValue_toDigits (n : Nat) : decimalValue (Nat.toDigits 10 n) = n := by
  rcases Nat.eq_zero_or_pos n with h | h
  · subst h; rfl
  · rw [toDigits_eq_digits n h, decimalValue_digits _ (fun d hd => Nat.digits_lt_base (by norm_num) hd),
      Nat.ofDigits_digits]

theorem toDigits_head (n : Nat) (h : 0 < n) :
    ∃ d t, Nat.toDigits 10 n = d :: t ∧ d ≠ '0' := by
  rw [toDigits_eq_digits n h]
  have hne : Nat.digits 10 n ≠ [] := Nat.digits_ne_nil_iff_ne_zero.mpr (by omega)
  have hlast := Nat.getLast_digit_ne_zero 10 (m := n) (by omega)
  have hlt : (Nat.digits 10 n).getLast hne < 10 :=
    Nat.digits_lt_base (by norm_num) (List.getLast_mem hne)
  obtain ⟨init, hinit⟩ : ∃ i, Nat.digits 10 n = i ++ [(Nat.digits 10 n).getLast hne] :=
    ⟨_, (List.dropLast_append_getLast hne).symm⟩
  generalize (Nat.digits 10 n).getLast hne = x at hlast hlt hinit
  rw [hinit]
  simp only [List.reverse_append, List.reverse_cons, List.reverse_nil, List.nil_append,
    List.singleton_append, List.map_cons]
  refine ⟨_, _, rfl, ?_⟩
  interval_cases x <;> first | exact absurd rfl hlast | decide

/-! ## The decimal exponent -/

theorem leadingZeros_spec (fuel : Nat) : ∀ num den : Nat, 0 < num → num < den →
    den ≤ 10 ^ fuel * num →
    den ≤ 10 ^ (leadingZeros fuel num den + 1) * num
      ∧ 10 ^ (leadingZeros fuel num den) * num < den := by
  induction fuel with
  | zero => intro num den h1 h2 h3; simp at h3; omega
  | succ f ih =>
    intro num den h1 h2 h3
    simp only [leadingZeros]
    split
    · rename_i h
      simp only [zero_add, pow_one, pow_zero, one_mul]
      exact ⟨h, h2⟩
    · rename_i h
      have h4 : den ≤ 10 ^ f * (10 * num) := by
        rw [pow_succ] at h3
        calc den ≤ 10 ^ f * 10 * num := h3
          _ = 10 ^ f * (10 * num) := by ring
      obtain ⟨a, b⟩ := ih (10 * num) den (by omega) (by omega) h4
      constructor
      · calc den ≤ 10 ^ (leadingZeros f (10 * num) den + 1) * (10 * num) := a
          _ = 10 ^ (leadingZeros f (10 * num) den + 1 + 1) * num := by ring
      · calc 10 ^ (leadingZeros f (10 * num) den + 1) * num
            = 10 ^ (leadingZeros f (10 * num) den) * (10 * num) := by ring
          _ < den := b

/-- The decimal exponent: `10^(n-1) ≤ num / den < 10^n` for `n = decExp num den`. -/
theorem decExp_spec (num den : Nat) (hn : 0 < num) (hd : 0 < den)
    (hf : den ≤ 10 ^ 400 * num) :
    (10 : ℚ) ^ (decExp num den - 1) ≤ (num : ℚ) / den
      ∧ (num : ℚ) / den < (10 : ℚ) ^ (decExp num den) := by
  have hd' : (0 : ℚ) < den := by exact_mod_cast hd
  unfold decExp
  split
  · rename_i hle
    have hq : 0 < num / den := Nat.div_pos hle hd
    obtain ⟨a, b, c⟩ := toDigits_length (num / den) hq
    obtain ⟨b1, b2⟩ := div_cast_bounds num den hd
    set L := (Nat.toDigits 10 (num / den)).length
    constructor
    · have : ((L : ℤ) - 1) = ((L - 1 : ℕ) : ℤ) := by omega
      rw [this, zpow_natCast]
      have a' : ((10 ^ (L - 1) : ℕ) : ℚ) ≤ ((num / den : ℕ) : ℚ) := by exact_mod_cast a
      push_cast at a'
      linarith
    · rw [zpow_natCast]
      have b' : ((num / den : ℕ) : ℚ) + 1 ≤ ((10 ^ L : ℕ) : ℚ) := by exact_mod_cast b
      push_cast at b'
      linarith
  · rename_i hlt
    obtain ⟨a, b⟩ := leadingZeros_spec 400 num den hn (by omega) hf
    set j := leadingZeros 400 num den
    constructor
    · have : (-(j : ℤ) - 1) = -((j + 1 : ℕ) : ℤ) := by push_cast; ring
      rw [this, zpow_neg, zpow_natCast, le_div_iff₀ hd', inv_mul_le_iff₀ (by positivity)]
      exact_mod_cast a
    · rw [zpow_neg, zpow_natCast, div_lt_iff₀ hd', inv_mul_eq_div, lt_div_iff₀ (by positivity)]
      have b' : ((10 ^ j * num : ℕ) : ℚ) < (den : ℚ) := by exact_mod_cast b
      push_cast at b'
      linarith

/-! ## The shortest digits -/

theorem scale10_pos (N D : Nat) (p : Int) (hD : 0 < D) : 0 < (scale10 N D p).2 := by
  unfold scale10
  split
  · exact Nat.mul_pos hD (by positivity)
  · exact hD

theorem scale10_ratio (N D : Nat) (p : Int) (hD : 0 < D) :
    ((scale10 N D p).1 : ℚ) / ((scale10 N D p).2 : ℚ) = ((N : ℚ) / D) / (10 : ℚ) ^ p := by
  have hD' : (D : ℚ) ≠ 0 := by exact_mod_cast hD.ne'
  unfold scale10
  split
  · rename_i h
    have : (10 : ℚ) ^ p = (10 : ℚ) ^ p.toNat := by
      conv_lhs => rw [← Int.toNat_of_nonneg h]
      exact zpow_natCast _ _
    rw [this]
    push_cast
    field_simp
  · rename_i h
    have : (10 : ℚ) ^ p = ((10 : ℚ) ^ (-p).toNat)⁻¹ := by
      have h2 : p = -((-p).toNat : ℤ) := by rw [Int.toNat_of_nonneg (by omega)]; ring
      conv_lhs => rw [h2]
      rw [zpow_neg, zpow_natCast]
    rw [this]
    push_cast
    field_simp

/-- A decimal `s * 10^p` whose value, in units of `2^e`, is within
`m / (2 * 10^16)` of `m` rounds to the canonical Number `m * 2^e`. -/
theorem roundDec_near (neg : Bool) (s : Nat) (p : Int) (m : Nat) (e : Int) (hs : 0 < s)
    (hc : isCanonical m e)
    (hnear : |((s : ℚ) * (10 : ℚ) ^ p) / (2 : ℚ) ^ e - m| ≤ (m : ℚ) / (2 * 10 ^ 16)) :
    roundDec neg s p = JSNumber.fin neg m e := by
  unfold roundDec
  split
  · rename_i h
    apply roundRat_near neg _ 1 m e (Nat.mul_pos hs (by positivity)) (by norm_num) hc
    have : (10 : ℚ) ^ p = (10 : ℚ) ^ p.toNat := by
      conv_lhs => rw [← Int.toNat_of_nonneg h]
      exact zpow_natCast _ _
    rw [this] at hnear
    push_cast
    simpa using hnear
  · rename_i h
    apply roundRat_near neg _ _ m e hs (by positivity) hc
    have : (10 : ℚ) ^ p = ((10 : ℚ) ^ (-p).toNat)⁻¹ := by
      have h2 : p = -((-p).toNat : ℤ) := by rw [Int.toNat_of_nonneg (by omega)]; ring
      conv_lhs => rw [h2]
      rw [zpow_neg, zpow_natCast]
    rw [this] at hnear
    push_cast
    simpa [div_eq_mul_inv] using hnear

theorem scale2_value (m : Nat) (e : Int) :
    ((scale2 m 1 (-e)).1 : ℚ) / ((scale2 m 1 (-e)).2 : ℚ) = (m : ℚ) * (2 : ℚ) ^ e := by
  rw [scale2_ratio m 1 (-e) (by norm_num), zpow_neg]
  simp [div_eq_mul_inv]

theorem two_pow_le_ten_pow (k n : Nat) (h : k ≤ 3 * n) : 2 ^ k ≤ 10 ^ n :=
  calc 2 ^ k ≤ 2 ^ (3 * n) := Nat.pow_le_pow_right (by norm_num) h
    _ = (2 ^ 3) ^ n := pow_mul 2 3 n
    _ ≤ 10 ^ n := Nat.pow_le_pow_left (by norm_num) n

theorem scale2_fuel (m : Nat) (e : Int) (hc : isCanonical m e) :
    0 < (scale2 m 1 (-e)).1 ∧ 0 < (scale2 m 1 (-e)).2
      ∧ (scale2 m 1 (-e)).2 ≤ 10 ^ 400 * (scale2 m 1 (-e)).1 := by
  have hm : 0 < m := by
    rcases hc with h | h
    · have := h.1; have : 0 < 2 ^ 52 := by norm_num
      omega
    · exact h.1
  have he : -1074 ≤ e := by
    rcases hc with h | h
    · exact h.2.2.1
    · rw [h.2.2]
  unfold scale2
  split
  · rename_i h
    simp only [one_mul]
    refine ⟨hm, by positivity, ?_⟩
    have h3 : 2 ^ (-e).toNat ≤ 10 ^ 400 := two_pow_le_ten_pow _ 400 (by omega)
    calc 2 ^ (-e).toNat ≤ 10 ^ 400 := h3
      _ = 10 ^ 400 * 1 := by ring
      _ ≤ 10 ^ 400 * m := Nat.mul_le_mul_left _ hm
  · refine ⟨Nat.mul_pos hm (by positivity), by norm_num, ?_⟩
    have : 0 < m * 2 ^ (- -e).toNat := Nat.mul_pos hm (by positivity)
    have h4 : 0 < 10 ^ 400 := by positivity
    exact Nat.succ_le_of_lt (Nat.mul_pos h4 this)

/-- What a successful `digitsAt` returns: `k` digits that round to `x`. -/
theorem digitsAt_some (m : Nat) (e : Int) (num den : Nat) (n0 : Int) (k : Nat)
    (s : Nat) (n : Int) (hd : 0 < den) (hk : 1 ≤ k)
    (h1 : (10 : ℚ) ^ (n0 - 1) ≤ (num : ℚ) / den) (h2 : (num : ℚ) / den < (10 : ℚ) ^ n0)
    (h : digitsAt (JSNumber.fin false m e) num den n0 k = some (s, n)) :
    (Nat.toDigits 10 s).length = k ∧ 1 ≤ s
      ∧ roundDec false s (n - (k : ℤ)) = JSNumber.fin false m e := by
  have hpos := scale10_pos num den (n0 - (k : ℤ)) hd
  have hratio := scale10_ratio num den (n0 - (k : ℤ)) hd
  obtain ⟨b1, b2⟩ := div_cast_bounds (scale10 num den (n0 - (k : ℤ))).1
    (scale10 num den (n0 - (k : ℤ))).2 hpos
  rw [hratio] at b1 b2
  -- the scaled value lies in `[10^(k-1), 10^k)`
  have hp10 : (0 : ℚ) < (10 : ℚ) ^ (n0 - (k : ℤ)) := by positivity
  have w1 : (10 : ℚ) ^ (k - 1 : ℕ) ≤ ((num : ℚ) / den) / (10 : ℚ) ^ (n0 - (k : ℤ)) := by
    rw [le_div_iff₀ hp10, ← zpow_natCast, ← zpow_add₀ (by norm_num : (10 : ℚ) ≠ 0)]
    have : ((k - 1 : ℕ) : ℤ) + (n0 - (k : ℤ)) = n0 - 1 := by omega
    rw [this]; exact h1
  have w2 : ((num : ℚ) / den) / (10 : ℚ) ^ (n0 - (k : ℤ)) < (10 : ℚ) ^ (k : ℕ) := by
    rw [div_lt_iff₀ hp10, ← zpow_natCast, ← zpow_add₀ (by norm_num : (10 : ℚ) ≠ 0)]
    have : ((k : ℕ) : ℤ) + (n0 - (k : ℤ)) = n0 := by omega
    rw [this]; exact h2
  set lo := (scale10 num den (n0 - (k : ℤ))).1 / (scale10 num den (n0 - (k : ℤ))).2 with hlo
  have l1 : 10 ^ (k - 1) ≤ lo := by
    have : ((10 ^ (k - 1) : ℕ) : ℚ) < (lo : ℚ) + 1 := by push_cast; linarith
    have : 10 ^ (k - 1) < lo + 1 := by exact_mod_cast this
    omega
  have l2 : lo < 10 ^ k := by
    have : (lo : ℚ) < ((10 ^ k : ℕ) : ℚ) := by push_cast; linarith
    exact_mod_cast this
  have hk1 : 10 ^ k = 10 * 10 ^ (k - 1) := by
    obtain ⟨j, rfl⟩ : ∃ j, k = j + 1 := ⟨k - 1, by omega⟩
    simp [pow_succ, Nat.mul_comm]
  have hpow0 : 0 < 10 ^ (k - 1) := by positivity
  -- the digits picked
  obtain ⟨s0, hs0, hok, hres⟩ : ∃ s0, (s0 = lo ∨ s0 = lo + 1)
      ∧ roundDec false s0 (n0 - (k : ℤ)) = JSNumber.fin false m e
      ∧ (s, n) = (if s0 = 10 ^ k then (10 ^ (k - 1), n0 + 1) else (s0, n0)) := by
    unfold digitsAt at h
    simp only [← hlo] at h
    split_ifs at h with c1 c2 c3 c4 c5 c6
    · simp only [Bool.and_eq_true, decide_eq_true_eq] at c1
      simp only [Option.map_some', Option.some.injEq] at h
      exact ⟨lo, Or.inl rfl, c1.1, h.symm⟩
    · simp only [Bool.and_eq_true, decide_eq_true_eq] at c1
      simp only [Option.map_some', Option.some.injEq] at h
      exact ⟨lo + 1, Or.inr rfl, c1.2, h.symm⟩
    · simp only [Bool.and_eq_true, decide_eq_true_eq] at c1
      simp only [Option.map_some', Option.some.injEq] at h
      exact ⟨lo, Or.inl rfl, c1.1, h.symm⟩
    · simp only [Bool.and_eq_true, decide_eq_true_eq] at c1
      simp only [Option.map_some', Option.some.injEq] at h
      exact ⟨lo + 1, Or.inr rfl, c1.2, h.symm⟩
    · simp only [Option.map_some', Option.some.injEq] at h
      exact ⟨lo, Or.inl rfl, of_decide_eq_true c5, h.symm⟩
    · simp only [Option.map_some', Option.some.injEq] at h
      exact ⟨lo + 1, Or.inr rfl, of_decide_eq_true c6, h.symm⟩
    · simp at h
  by_cases hten : s0 = 10 ^ k
  · rw [if_pos hten] at hres
    injection hres with hs hn
    subst hs hn
    refine ⟨?_, hpow0, ?_⟩
    · have := toDigits_length_eq (10 ^ (k - 1)) (k - 1) (le_refl _)
        (Nat.pow_lt_pow_right (by norm_num) (by omega))
      omega
    · rw [hten, hk1, roundDec_mul_ten] at hok
      have : n0 + 1 - (k : ℤ) = n0 - (k : ℤ) + 1 := by ring
      rw [this]; exact hok
  · rw [if_neg hten] at hres
    injection hres with hs hn
    subst hs hn
    have hs1 : 10 ^ (k - 1) ≤ s := by rcases hs0 with h | h <;> omega
    have hs2 : s < 10 ^ k := by rcases hs0 with h | h <;> omega
    refine ⟨?_, by omega, hok⟩
    have := toDigits_length_eq s (k - 1) hs1 (by
      have : k - 1 + 1 = k := by omega
      rw [this]; exact hs2)
    omega

/-- Seventeen digits always identify a canonical Number: the search of
`digitsAt` succeeds at `k = 17`. -/
theorem digitsAt_seventeen (m : Nat) (e : Int) (num den : Nat) (n0 : Int)
    (hc : isCanonical m e) (hd : 0 < den)
    (hy : (num : ℚ) / den = (m : ℚ) * (2 : ℚ) ^ e)
    (h1 : (10 : ℚ) ^ (n0 - 1) ≤ (num : ℚ) / den) :
    digitsAt (JSNumber.fin false m e) num den n0 17 ≠ none := by
  have hpos := scale10_pos num den (n0 - ((17 : ℕ) : ℤ)) hd
  have hratio := scale10_ratio num den (n0 - ((17 : ℕ) : ℤ)) hd
  obtain ⟨b1, b2⟩ := div_cast_bounds (scale10 num den (n0 - ((17 : ℕ) : ℤ))).1
    (scale10 num den (n0 - ((17 : ℕ) : ℤ))).2 hpos
  have hdm := Nat.div_add_mod (scale10 num den (n0 - ((17 : ℕ) : ℤ))).1
    (scale10 num den (n0 - ((17 : ℕ) : ℤ))).2
  have hmod := Nat.mod_lt (scale10 num den (n0 - ((17 : ℕ) : ℤ))).1 hpos
  set p : ℤ := n0 - ((17 : ℕ) : ℤ) with hp
  set a := (scale10 num den p).1 with ha
  set b := (scale10 num den p).2 with hb
  set lo := a / b with hlo
  set r := a % b with hr
  set T : ℚ := (10 : ℚ) ^ p with hT
  set U : ℚ := (2 : ℚ) ^ e with hU
  have hTpos : 0 < T := by positivity
  have hUpos : 0 < U := by positivity
  have hbq : (0 : ℚ) < b := by exact_mod_cast hpos
  have hmq : (0 : ℚ) ≤ m := by positivity
  rw [hy] at hratio h1
  -- the unit of the last digit is at most `y / 10^16`
  have hunit : T * 10 ^ 16 ≤ (m : ℚ) * U := by
    have : T * 10 ^ 16 = (10 : ℚ) ^ (n0 - 1) := by
      rw [hT, ← zpow_natCast (10 : ℚ) 16, ← zpow_add₀ (by norm_num : (10 : ℚ) ≠ 0)]
      congr 1
      rw [hp]; push_cast; ring
    rw [this]; exact h1
  have hTU : T / U ≤ (m : ℚ) / 10 ^ 16 := by
    rw [div_le_div_iff₀ hUpos (by positivity)]
    linarith
  have hTU0 : 0 ≤ T / U := by positivity
  have hdm' : (a : ℚ) = b * lo + r := by exact_mod_cast hdm.symm
  have hW : (a : ℚ) / b = (m : ℚ) * U / T := hratio
  have hlo_eq : (lo : ℚ) = (m : ℚ) * U / T - r / b := by
    rw [← hW, hdm']
    field_simp
  have hrq : (0 : ℚ) ≤ (r : ℚ) / b := by positivity
  have hrq1 : (r : ℚ) / b < 1 := by
    rw [div_lt_one hbq]; exact_mod_cast hmod
  have hlopos : 0 < lo + 1 := Nat.succ_pos lo
  have e1 : (lo : ℚ) * T / U - m = -((r : ℚ) / b * (T / U)) := by
    rw [hlo_eq]; field_simp; ring
  have e2 : ((lo + 1 : ℕ) : ℚ) * T / U - m = (1 - (r : ℚ) / b) * (T / U) := by
    push_cast
    rw [hlo_eq]; field_simp; ring
  have hokLo : 2 * r ≤ b → roundDec false lo p = JSNumber.fin false m e := by
    intro h2r
    have hhalf : (r : ℚ) / b ≤ 1 / 2 := by
      rw [div_le_iff₀ hbq]
      have : ((2 * r : ℕ) : ℚ) ≤ (b : ℚ) := by exact_mod_cast h2r
      push_cast at this; linarith
    have hlo0 : 0 < lo := by
      rcases Nat.eq_zero_or_pos lo with h0 | h0
      · exfalso
        have hz : (lo : ℚ) = 0 := by exact_mod_cast h0
        rw [hW, hz, zero_add, div_lt_one hTpos] at b2
        have : T * 1 ≤ T * 10 ^ 16 := by
          apply mul_le_mul_of_nonneg_left _ hTpos.le; norm_num
        linarith
      · exact h0
    apply roundDec_near false lo p m e hlo0 hc
    rw [← hT, ← hU, e1, abs_neg, abs_of_nonneg (by positivity)]
    calc (r : ℚ) / b * (T / U) ≤ 1 / 2 * ((m : ℚ) / 10 ^ 16) :=
          mul_le_mul hhalf hTU hTU0 (by norm_num)
      _ = (m : ℚ) / (2 * 10 ^ 16) := by ring
  have hokHi : b ≤ 2 * r → roundDec false (lo + 1) p = JSNumber.fin false m e := by
    intro h2r
    have hhalf : 1 - (r : ℚ) / b ≤ 1 / 2 := by
      have : (b : ℚ) ≤ ((2 * r : ℕ) : ℚ) := by exact_mod_cast h2r
      push_cast at this
      have h3 : (1 : ℚ) / 2 ≤ (r : ℚ) / b := by
        rw [le_div_iff₀ hbq]; linarith
      linarith
    apply roundDec_near false (lo + 1) p m e hlopos hc
    rw [← hT, ← hU, e2, abs_of_nonneg (mul_nonneg (by linarith) hTU0)]
    calc (1 - (r : ℚ) / b) * (T / U) ≤ 1 / 2 * ((m : ℚ) / 10 ^ 16) :=
          mul_le_mul hhalf hTU hTU0 (by norm_num)
      _ = (m : ℚ) / (2 * 10 ^ 16) := by ring
  unfold digitsAt
  simp only [← hp, ← ha, ← hb, ← hlo, ← hr]
  rcases Nat.le_total (2 * r) b with h | h
  · have := hokLo h
    simp [this]
    split_ifs <;> simp
  · have := hokHi h
    simp [this]
    split_ifs <;> simp

theorem shortestAux_spec (P : Nat × Int → Prop) (x : JSNumber) (num den : Nat) (n0 : Int) :
    ∀ (fuel k : Nat), 0 < fuel →
      (∀ k' r, k ≤ k' → digitsAt x num den n0 k' = some r → P r) →
      digitsAt x num den n0 (k + fuel - 1) ≠ none →
      P (shortestAux x num den n0 fuel k) := by
  intro fuel
  induction fuel with
  | zero => intro k h; omega
  | succ f ih =>
    intro k _ hP hlast
    simp only [shortestAux]
    split
    · rename_i r hr
      exact hP k r (le_refl k) hr
    · rename_i hnone
      rcases Nat.eq_zero_or_pos f with h0 | hf
      · subst h0
        simp only [Nat.add_sub_cancel] at hlast
        exact absurd hnone hlast
      · apply ih (k + 1) hf (fun k' r hk hr => hP k' r (by omega) hr)
        have : k + 1 + f - 1 = k + (f + 1) - 1 := by omega
        rw [this]; exact hlast

/-- The digits that `Number::toString` writes for a canonical Number round back
to it. -/
theorem shortest_spec (m : Nat) (e : Int) (hc : isCanonical m e) :
    1 ≤ (shortest m e).1
      ∧ roundDec false (shortest m e).1
          ((shortest m e).2 - ((Nat.toDigits 10 (shortest m e).1).length : ℤ))
        = JSNumber.fin false m e := by
  obtain ⟨hn, hd, hf⟩ := scale2_fuel m e hc
  have hy := scale2_value m e
  obtain ⟨d1, d2⟩ := decExp_spec _ _ hn hd hf
  unfold shortest
  simp only
  apply shortestAux_spec
    (fun r => 1 ≤ r.1 ∧ roundDec false r.1 (r.2 - ((Nat.toDigits 10 r.1).length : ℤ))
      = JSNumber.fin false m e)
  · norm_num
  · intro k' r hk hr
    obtain ⟨s, n⟩ := r
    obtain ⟨a, b, c⟩ := digitsAt_some m e _ _ _ k' s n hd hk d1 d2 hr
    exact ⟨b, by rw [a]; exact c⟩
  · exact digitsAt_seventeen m e _ _ _ hc hd hy d1

/-! ## Reading the text of a number back -/

theorem roundAt_sign (neg : Bool) (N D m : Nat) (E e : Int)
    (h : roundAt false N D E = JSNumber.fin false m e) :
    roundAt neg N D E = JSNumber.fin neg m e := by
  unfold roundAt at h ⊢
  simp only at h ⊢
  generalize (if (if (decide ((scale2 N D E).2 < 2 * ((scale2 N D E).1 % (scale2 N D E).2))
      || decide (2 * ((scale2 N D E).1 % (scale2 N D E).2) = (scale2 N D E).2)
        && decide ((scale2 N D E).1 / (scale2 N D E).2 % 2 = 1)) = true
      then (scale2 N D E).1 / (scale2 N D E).2 + 1 else (scale2 N D E).1 / (scale2 N D E).2)
      = 2 ^ 53 then ((2 : ℕ) ^ 52, E + 1)
    else (if (decide ((scale2 N D E).2 < 2 * ((scale2 N D E).1 % (scale2 N D E).2))
      || decide (2 * ((scale2 N D E).1 % (scale2 N D E).2) = (scale2 N D E).2)
        && decide ((scale2 N D E).1 / (scale2 N D E).2 % 2 = 1)) = true
      then (scale2 N D E).1 / (scale2 N D E).2 + 1 else (scale2 N D E).1 / (scale2 N D E).2,
      E)) = me at h ⊢
  split_ifs at h ⊢ with c1 c2
  · injection h with h1 h2 h3
    rw [h2, h3]
  · injection h with h1 h2 h3
    rw [h2, h3]

theorem roundRat_sign (neg : Bool) (N D m : Nat) (e : Int)
    (h : roundRat false N D = JSNumber.fin false m e) :
    roundRat neg N D = JSNumber.fin neg m e := by
  by_cases h0 : N = 0 ∨ D = 0
  · simp only [roundRat, h0, if_true] at h ⊢
    injection h with h1 h2 h3
    rw [h2, h3]
  · push_neg at h0
    rw [roundRat_eq _ N D h0.1 h0.2] at h ⊢
    exact roundAt_sign neg N D m _ e h

theorem roundDec_sign (neg : Bool) (s : Nat) (p : Int) (m : Nat) (e : Int)
    (h : roundDec false s p = JSNumber.fin false m e) :
    roundDec neg s p = JSNumber.fin neg m e := by
  unfold roundDec at h ⊢
  split_ifs at h ⊢ with hp
  · exact roundRat_sign neg _ _ m e h
  · exact roundRat_sign neg _ _ m e h

theorem decimalValue_foldl (l : List Char) : ∀ acc : Nat,
    l.foldl (fun n c => 10 * n + (c.toNat - 48)) acc = acc * 10 ^ l.length + decimalValue l := by
  induction l with
  | nil => intro acc; simp [decimalValue]
  | cons c t ih =>
    intro acc
    simp only [List.foldl_cons, List.length_cons, decimalValue]
    rw [ih, ih (10 * 0 + (c.toNat - 48))]
    ring

theorem decimalValue_append (a b : List Char) :
    decimalValue (a ++ b) = decimalValue a * 10 ^ b.length + decimalValue b := by
  unfold decimalValue
  rw [List.foldl_append, decimalValue_foldl]
  rfl

theorem decimalValue_zeros (j : Nat) : decimalValue (List.replicate j '0') = 0 := by
  induction j with
  | zero => rfl
  | succ j ih =>
    rw [List.replicate_succ, ← List.singleton_append, decimalValue_append, ih]
    have : decimalValue ['0'] = 0 := by decide
    rw [this]; simp

theorem takeWhile_all {p : Char → Bool} (l : List Char) (h : ∀ c ∈ l, p c = true) :
    l.takeWhile p = l := List.takeWhile_eq_self_iff.mpr h

theorem dropWhile_all {p : Char → Bool} (l : List Char) (h : ∀ c ∈ l, p c = true) :
    l.dropWhile p = [] := List.dropWhile_eq_nil_iff.mpr h

theorem takeWhile_append_stop {p : Char → Bool} (l : List Char) (d : Char) (r : List Char)
    (hl : ∀ c ∈ l, p c = true) (hd : p d = false) : (l ++ d :: r).takeWhile p = l := by
  induction l with
  | nil => simp [List.takeWhile, hd]
  | cons a t ih =>
    simp [List.takeWhile, hl a (by simp), ih (fun c hc => hl c (List.mem_cons_of_mem _ hc))]

theorem dropWhile_append_stop {p : Char → Bool} (l : List Char) (d : Char) (r : List Char)
    (hl : ∀ c ∈ l, p c = true) (hd : p d = false) : (l ++ d :: r).dropWhile p = d :: r := by
  induction l with
  | nil => simp [List.dropWhile, hd]
  | cons a t ih =>
    simp [List.dropWhile, hl a (by simp), ih (fun c hc => hl c (List.mem_cons_of_mem _ hc))]

/-- The exponent part that `layout` writes reads back as `n - 1`. -/
theorem jsonExponent_layout (n : Int) :
    jsonExponent? ('e' :: (if n - 1 < 0 then '-' else '+') :: Nat.toDigits 10 (n - 1).natAbs)
      = some (n - 1) := by
  have hd := toDigits_isDigit (n - 1).natAbs
  have hne := toDigits_ne_nil (n - 1).natAbs
  have hall : (Nat.toDigits 10 (n - 1).natAbs).all Char.isDigit = true :=
    List.all_eq_true.mpr hd
  have hval := decimalValue_toDigits (n - 1).natAbs
  by_cases hs : n - 1 < 0
  · simp only [jsonExponent?, hs, if_true, true_or, hne, hall, hval, ne_eq, not_false_eq_true,
      and_self]
    have h1 : ¬ ('-' = '+') := by decide
    simp only [h1, if_false, if_true]
    congr 1
    omega
  · simp only [jsonExponent?, hs, if_false, if_true, true_or, hne, hall, hval, ne_eq,
      not_false_eq_true, and_self]
    congr 1
    omega

theorem jsonUnsigned_int (neg : Bool) (ip : List Char) (hd : ∀ c ∈ ip, c.isDigit = true)
    (hne : ip ≠ []) (hz : ¬ (1 < ip.length ∧ ip.head? = some '0')) :
    jsonUnsigned? neg ip = some (roundDec neg (decimalValue ip) 0) := by
  simp only [jsonUnsigned?, takeWhile_all ip hd, dropWhile_all ip hd, hne, hz, or_self, if_false]

theorem jsonUnsigned_frac (neg : Bool) (ip fp : List Char)
    (hd : ∀ c ∈ ip, c.isDigit = true) (hne : ip ≠ [])
    (hz : ¬ (1 < ip.length ∧ ip.head? = some '0'))
    (hf : ∀ c ∈ fp, c.isDigit = true) (hfne : fp ≠ []) :
    jsonUnsigned? neg (ip ++ '.' :: fp)
      = some (roundDec neg (decimalValue (ip ++ fp)) (0 - (fp.length : ℤ))) := by
  have h1 := takeWhile_append_stop ip '.' fp hd (by decide)
  have h2 := dropWhile_append_stop ip '.' fp hd (by decide)
  simp only [jsonUnsigned?, h1, h2, hne, hz, or_self, if_false, if_true, takeWhile_all fp hf,
    dropWhile_all fp hf, hfne, jsonExponent?]

theorem jsonUnsigned_frac_exp (neg : Bool) (ip fp rest : List Char) (x : Int)
    (hd : ∀ c ∈ ip, c.isDigit = true) (hne : ip ≠ [])
    (hz : ¬ (1 < ip.length ∧ ip.head? = some '0'))
    (hf : ∀ c ∈ fp, c.isDigit = true) (hfne : fp ≠ [])
    (hx : jsonExponent? ('e' :: rest) = some x) :
    jsonUnsigned? neg (ip ++ '.' :: (fp ++ 'e' :: rest))
      = some (roundDec neg (decimalValue (ip ++ fp)) (x - (fp.length : ℤ))) := by
  have h1 := takeWhile_append_stop ip '.' (fp ++ 'e' :: rest) hd (by decide)
  have h2 := dropWhile_append_stop ip '.' (fp ++ 'e' :: rest) hd (by decide)
  have h3 := takeWhile_append_stop fp 'e' rest hf (by decide)
  have h4 := dropWhile_append_stop fp 'e' rest hf (by decide)
  simp only [jsonUnsigned?, h1, h2, h3, h4, hne, hz, or_self, if_false, if_true, hfne, hx]

theorem jsonUnsigned_int_exp (neg : Bool) (ip rest : List Char) (x : Int)
    (hd : ∀ c ∈ ip, c.isDigit = true) (hne : ip ≠ [])
    (hz : ¬ (1 < ip.length ∧ ip.head? = some '0'))
    (hx : jsonExponent? ('e' :: rest) = some x) :
    jsonUnsigned? neg (ip ++ 'e' :: rest) = some (roundDec neg (decimalValue ip) x) := by
  have h1 := takeWhile_append_stop ip 'e' rest hd (by decide)
  have h2 := dropWhile_append_stop ip 'e' rest hd (by decide)
  have h3 : ¬ ('e' = '.') := by decide
  simp only [jsonUnsigned?, h1, h2, hne, hz, or_self, if_false, h3, hx]

/-- The text `layout` writes for the digits of `s` and the decimal exponent `n`
reads back, by the JSON number grammar, as `s * 10 ^ (n - k)` rounded. -/
theorem jsonUnsigned_layout (neg : Bool) (s : Nat) (hs : 1 ≤ s) (n : Int) :
    jsonUnsigned? neg (layout (Nat.toDigits 10 s) n)
      = some (roundDec neg s (n - ((Nat.toDigits 10 s).length : ℤ))) := by
  have hdig := toDigits_isDigit s
  obtain ⟨d, t, hdt, hd0⟩ := toDigits_head s (by omega)
  have hval := decimalValue_toDigits s
  generalize Nat.toDigits 10 s = ds at hdig hdt hval ⊢
  have hdd : d.isDigit = true := hdig d (by rw [hdt]; simp)
  have hone : ∀ c ∈ [d], c.isDigit = true := by
    intro c hc; simp at hc; rw [hc]; exact hdd
  have hhead : ∀ l : List Char, ¬ (1 < (d :: l).length ∧ (d :: l).head? = some '0') := by
    intro l h
    simp only [List.head?_cons, Option.some.injEq] at h
    exact hd0 h.2
  have hx := jsonExponent_layout n
  unfold layout
  simp only
  generalize (if n - 1 < 0 then '-' else '+') = sg at hx ⊢
  split_ifs with c1 c2 c3
  · -- digits followed by zeros
    have hall : ∀ c ∈ ds ++ List.replicate (n - (ds.length : ℤ)).toNat '0', c.isDigit = true := by
      intro c hc
      rcases List.mem_append.mp hc with h | h
      · exact hdig c h
      · rw [List.eq_of_mem_replicate h]; decide
    have hne : ds ++ List.replicate (n - (ds.length : ℤ)).toNat '0' ≠ [] := by
      rw [hdt]; simp
    have hz : ¬ (1 < (ds ++ List.replicate (n - (ds.length : ℤ)).toNat '0').length
        ∧ (ds ++ List.replicate (n - (ds.length : ℤ)).toNat '0').head? = some '0') := by
      rw [hdt, List.cons_append]; exact hhead _
    rw [jsonUnsigned_int neg _ hall hne hz, decimalValue_append, decimalValue_zeros, hval]
    have hp : (0 : ℤ) ≤ n - (ds.length : ℤ) := by omega
    simp only [roundDec, hp, if_true, le_refl, List.length_replicate, add_zero, Int.toNat_zero,
      pow_zero, mul_one]
  · -- a point inside the digits
    have hlt : n < (ds.length : ℤ) := by
      by_contra hcon
      exact c1 ⟨by omega, c2.2⟩
    have htake : ∀ c ∈ ds.take n.toNat, c.isDigit = true :=
      fun c hc => hdig c (List.mem_of_mem_take hc)
    have hdrop : ∀ c ∈ ds.drop n.toNat, c.isDigit = true :=
      fun c hc => hdig c (List.mem_of_mem_drop hc)
    have hn1 : n.toNat = (n.toNat - 1) + 1 := by omega
    have htk : ds.take n.toNat = d :: t.take (n.toNat - 1) := by
      rw [hdt, hn1, List.take_succ_cons]; simp
    have hne : ds.take n.toNat ≠ [] := by rw [htk]; simp
    have hz : ¬ (1 < (ds.take n.toNat).length ∧ (ds.take n.toNat).head? = some '0') := by
      rw [htk]; exact hhead _
    have hdne : ds.drop n.toNat ≠ [] := by
      intro h
      have := List.drop_eq_nil_iff.mp h
      omega
    rw [jsonUnsigned_frac neg _ _ htake hne hz hdrop hdne, List.take_append_drop, hval,
      List.length_drop]
    congr 2
    omega
  · -- a leading "0."
    have hzero : ∀ c ∈ ['0'], c.isDigit = true := by
      intro c hc; simp at hc; rw [hc]; decide
    have hfp : ∀ c ∈ List.replicate (-n).toNat '0' ++ ds, c.isDigit = true := by
      intro c hc
      rcases List.mem_append.mp hc with h | h
      · rw [List.eq_of_mem_replicate h]; decide
      · exact hdig c h
    have hfne : List.replicate (-n).toNat '0' ++ ds ≠ [] := by
      rw [hdt]; simp
    have hz : ¬ (1 < ['0'].length ∧ ['0'].head? = some '0') := by simp
    have := jsonUnsigned_frac neg ['0'] _ hzero (by simp) hz hfp hfne
    rw [List.singleton_append] at this
    rw [this, decimalValue_append, decimalValue_append, decimalValue_zeros, hval]
    have h0 : decimalValue ['0'] = 0 := by decide
    rw [h0]
    simp only [zero_mul, zero_add, List.length_append, List.length_replicate]
    congr 2
    push_cast
    omega
  · -- exponent form
    rw [hdt]
    cases t with
    | nil =>
      have := jsonUnsigned_int_exp neg [d] _ (n - 1) hone (by simp) (hhead []) hx
      rw [List.singleton_append] at this
      simp only
      rw [this, ← hdt, hval, hdt]
      simp
    | cons d2 t2 =>
      have hfp : ∀ c ∈ d2 :: t2, c.isDigit = true := by
        intro c hc
        apply hdig c
        rw [hdt]
        exact List.mem_cons_of_mem _ hc
      have := jsonUnsigned_frac_exp neg [d] (d2 :: t2) _ (n - 1) hone (by simp) (hhead [])
        hfp (by simp) hx
      rw [List.singleton_append] at this
      simp only
      rw [this, List.singleton_append, ← hdt, hval, hdt]
      congr 2
      simp only [List.length_cons]
      push_cast
      omega

theorem isNumberChar_of_isDigit (c : Char) (h : c.isDigit = true) : isNumberChar c = true := by
  simp [isNumberChar, h]

theorem layout_isNumberChar (ds : List Char) (n : Int) (h : ∀ c ∈ ds, c.isDigit = true) :
    ∀ c ∈ layout ds n, isNumberChar c = true := by
  have hE := toDigits_isDigit (n - 1).natAbs
  have hsg : isNumberChar (if n - 1 < 0 then '-' else '+') = true := by
    split <;> decide
  have hex : ∀ c ∈ 'e' :: (if n - 1 < 0 then '-' else '+') :: Nat.toDigits 10 (n - 1).natAbs,
      isNumberChar c = true := by
    intro c hc
    rcases List.mem_cons.mp hc with rfl | hc
    · decide
    rcases List.mem_cons.mp hc with rfl | hc
    · exact hsg
    · exact isNumberChar_of_isDigit c (hE c hc)
  unfold layout
  simp only
  generalize ('e' :: (if n - 1 < 0 then '-' else '+') :: Nat.toDigits 10 (n - 1).natAbs) = ex
    at hex ⊢
  intro c hc
  split_ifs at hc with c1 c2 c3
  · rcases List.mem_append.mp hc with hc | hc
    · exact isNumberChar_of_isDigit c (h c hc)
    · rw [List.eq_of_mem_replicate hc]; decide
  · rcases List.mem_append.mp hc with hc | hc
    · exact isNumberChar_of_isDigit c (h c (List.mem_of_mem_take hc))
    rcases List.mem_cons.mp hc with rfl | hc
    · decide
    · exact isNumberChar_of_isDigit c (h c (List.mem_of_mem_drop hc))
  · rcases List.mem_cons.mp hc with rfl | hc
    · decide
    rcases List.mem_cons.mp hc with rfl | hc
    · decide
    rcases List.mem_append.mp hc with hc | hc
    · rw [List.eq_of_mem_replicate hc]; decide
    · exact isNumberChar_of_isDigit c (h c hc)
  · match ds, h, hc with
    | [], _, hc => exact hex c hc
    | [d], h, hc =>
      rcases List.mem_cons.mp hc with rfl | hc
      · exact isNumberChar_of_isDigit _ (h _ (by simp))
      · exact hex c hc
    | d :: d2 :: rest, h, hc =>
      rcases List.mem_cons.mp hc with rfl | hc
      · exact isNumberChar_of_isDigit _ (h _ (by simp))
      rcases List.mem_cons.mp hc with rfl | hc
      · decide
      rcases List.mem_append.mp hc with hc | hc
      · exact isNumberChar_of_isDigit c (h c (List.mem_cons_of_mem _ hc))
      · exact hex c hc

theorem jsonNumber_of_unsigned (l : List Char) (x : JSNumber)
    (h : jsonUnsigned? false l = some x) : jsonNumber? l = some x := by
  cases l with
  | nil => simp [jsonUnsigned?] at h
  | cons c r =>
    by_cases hc : c = '-'
    · subst hc
      simp [jsonUnsigned?, List.takeWhile] at h
    · simp only [jsonNumber?, hc, if_false]
      exact h

/-- The text of a finite non-zero Number in canonical form is a JSON number that
reads back as the same Number. -/
theorem readsBack_fin (neg : Bool) (m : Nat) (e : Int) (hc : isCanonical m e) :
    readsBack (JSNumber.fin neg m e) = true := by
  have hm : m ≠ 0 := by
    rcases hc with ⟨h, _⟩ | ⟨h, _⟩ <;> omega
  obtain ⟨hs, hr⟩ := shortest_spec m e hc
  have hdig := toDigits_isDigit (shortest m e).1
  have hlay := layout_isNumberChar _ (shortest m e).2 hdig
  have hu := jsonUnsigned_layout neg (shortest m e).1 hs (shortest m e).2
  rw [roundDec_sign neg _ _ m e hr] at hu
  simp only [readsBack, numberToString, hm, if_false, Bool.and_eq_true, decide_eq_true_eq,
    List.all_eq_true]
  cases neg with
  | false =>
    refine ⟨?_, ?_⟩
    · intro c hc
      exact hlay c (by simpa using hc)
    · simp only [Bool.false_eq_true, if_false, List.nil_append]
      exact jsonNumber_of_unsigned _ _ hu
  | true =>
    refine ⟨?_, ?_⟩
    · intro c hc
      simp only [if_true, List.singleton_append, List.mem_cons] at hc
      rcases hc with rfl | hc
      · decide
      · exact hlay c hc
    · simp only [if_true, List.singleton_append, jsonNumber?]
      exact hu

/-! ## Reading back what `saveHistory` stored -/

theorem value_null (f : Nat) (d : Char) (r : List Char) :
    parseAux (f + 1) Mode.value ('n' :: 'u' :: 'l' :: 'l' :: d :: r)
      = Parsed.ok JSON.null (d :: r) := by
  have h1 : isJSONWhiteSpace 'n' = false := by decide
  have hn : "null".data = ['n', 'u', 'l', 'l'] := rfl
  simp [parseAux, dropWhile_ws_cons _ _ h1, hn, List.isPrefixOf]

/-- Reading back the text that `JSON.stringify` writes for a Number. -/
theorem value_result (f : Nat) (x : JSNumber) (rest : List Char)
    (hx : isNumberValue x = true) :
    parseAux (f + 1) Mode.value ((stringifyNumber x).data ++ '\x7d' :: rest)
      = Parsed.ok (reparsed x) ('\x7d' :: rest) := by
  cases x with
  | nan => exact value_null f '\x7d' rest
  | inf b => exact value_null f '\x7d' rest
  | fin neg m e =>
    by_cases hm : m = 0
    · subst hm
      have hs : (stringifyNumber (JSNumber.fin neg 0 e)).data = ['0'] := by
        simp [stringifyNumber, numberToString]
      rw [hs]
      simp only [reparsed, if_true]
      exact value_number f '0' [] '\x7d' rest zero (by decide) (by decide) (by decide)
    · simp only [isNumberValue, hm, if_false, decide_eq_true_eq] at hx
      have hrb := readsBack_fin neg m e hx
      simp only [readsBack, Bool.and_eq_true, decide_eq_true_eq] at hrb
      obtain ⟨hall, hv⟩ := hrb
      have hs : stringifyNumber (JSNumber.fin neg m e) = numberToString (JSNumber.fin neg m e) :=
        rfl
      obtain ⟨c0, t, hnt⟩ : ∃ c0 t, (numberToString (JSNumber.fin neg m e)).data = c0 :: t := by
        rcases hd : (numberToString (JSNumber.fin neg m e)).data with _ | ⟨c0, t⟩
        · rw [hd] at hv; simp [jsonNumber?] at hv
        · exact ⟨c0, t, rfl⟩
      rw [hs, hnt]
      rw [hnt] at hall hv
      simp only [reparsed, hm, if_false]
      exact value_number f c0 t '\x7d' rest _ hall (by decide) hv

/-- Reading back the text of one entry. -/
theorem value_record (f : Nat) (c : Calculation) (rest : List Char)
    (hx : isNumberValue c.result = true) :
    parseAux (f + 4) Mode.value ((stringifyCalculation c).data ++ rest)
      = Parsed.ok c.toJSON rest := by
  have hnum := value_result f c.result rest hx
  obtain ⟨num, hnumeq⟩ : ∃ num, (stringifyNumber c.result).data = num := ⟨_, rfl⟩
  rw [hnumeq] at hnum
  have hm2 : ∀ acc, parseAux (f + 2) (Mode.members acc)
      ('"' :: 'r' :: 'e' :: 's' :: 'u' :: 'l' :: 't' :: '"' :: ':'
        :: (num ++ '\x7d' :: rest))
      = Parsed.ok (JSON.obj (acc ++ [("result", reparsed c.result)])) rest := by
    intro acc
    rw [members_step (f + 1) acc _ "result".data _ _ '\x7d' rest
      (parse_key_result _ _ (by simp)) hnum (by decide)]
    simp
  have hstr : parseAux (f + 2) Mode.value
      ('"' :: (c.expression.data.flatMap quoteJSONChar ++ '"' :: ',' :: '"'
        :: 'r' :: 'e' :: 's' :: 'u' :: 'l' :: 't' :: '"' :: ':'
        :: (num ++ '\x7d' :: rest)))
      = Parsed.ok (JSON.str c.expression) (',' :: '"'
        :: 'r' :: 'e' :: 's' :: 'u' :: 'l' :: 't' :: '"' :: ':'
        :: (num ++ '\x7d' :: rest)) :=
    value_string (f + 1) _ c.expression.data _
      (parseStringChars_quote _ _ _ (by simp; omega))
  have hm1 : parseAux (f + 3) (Mode.members [])
      ('"' :: 'e' :: 'x' :: 'p' :: 'r' :: 'e' :: 's' :: 's' :: 'i' :: 'o' :: 'n' :: '"' :: ':'
        :: '"' :: (c.expression.data.flatMap quoteJSONChar ++ '"' :: ',' :: '"'
        :: 'r' :: 'e' :: 's' :: 'u' :: 'l' :: 't' :: '"' :: ':'
        :: (num ++ '\x7d' :: rest)))
      = Parsed.ok c.toJSON rest := by
    rw [members_step (f + 2) [] _ "expression".data _ _ ',' _
      (parse_key_expression _ _ (by simp)) hstr (by decide)]
    simp only [if_true, List.nil_append]
    rw [hm2]
    rfl
  rw [stringifyCalculation_data, hnumeq]
  simp only [List.cons_append, List.append_assoc, List.nil_append]
  rw [value_object (f + 3) '"' _ (by decide) (by decide)]
  simpa only [List.cons_append, List.append_assoc, List.nil_append] using hm1

/-- Reading back the texts of the entries of an array, after its opening bracket. -/
theorem elements_records (cs : List Calculation) : ∀ (c : Calculation) (acc : List JSON)
    (rest : List Char) (f : Nat), cs.length ≤ f →
    (∀ x ∈ c :: cs, isNumberValue x.result = true) →
    parseAux (f + 5) (Mode.elements acc)
        ((stringifyCalculation c).data
          ++ (cs.flatMap (fun x => ',' :: (stringifyCalculation x).data) ++ ']' :: rest))
      = Parsed.ok (JSON.arr (acc ++ (c :: cs).map Calculation.toJSON)) rest := by
  induction cs with
  | nil =>
    intro c acc rest f _ hall
    have hv := value_record f c (']' :: rest) (hall c (by simp))
    simp only [List.flatMap_nil, List.nil_append]
    rw [elements_step (f + 4) acc _ _ ']' rest hv (by decide)]
    simp
  | cons c1 cs ih =>
    intro c acc rest f hf hall
    obtain ⟨g, rfl⟩ : ∃ g, f = g + 1 := ⟨f - 1, by simp at hf; omega⟩
    have hv := value_record (g + 1) c
      (',' :: ((stringifyCalculation c1).data
        ++ (cs.flatMap (fun x => ',' :: (stringifyCalculation x).data) ++ ']' :: rest)))
      (hall c (by simp))
    simp only [List.flatMap_cons, List.cons_append, List.append_assoc]
    rw [elements_step (g + 1 + 4) acc _ _ ',' _ hv (by decide)]
    simp only [if_true]
    rw [ih c1 (acc ++ [c.toJSON]) rest g (by simp at hf; omega)
      (fun x hx => hall x (List.mem_cons_of_mem _ hx))]
    simp

/-- `JSON.parse` of the text that `JSON.stringify` writes for a ledger. -/
theorem parseJSON_stringify (h : List Calculation)
    (hall : ∀ x ∈ h, isNumberValue x.result = true) :
    parseJSON (stringify h) = Parsed.ok (JSON.arr (h.map Calculation.toJSON)) [] := by
  cases h with
  | nil => rfl
  | cons c cs =>
    have hdata := stringify_cons_data c cs
    have hfirst : ∃ r, (stringifyCalculation c).data = '\x7b' :: r :=
      ⟨_, stringifyCalculation_data c⟩
    obtain ⟨r, hr⟩ := hfirst
    have hlen : cs.length + 3 ≤ (stringify (c :: cs)).length := by
      have := flatMap_length_ge cs
      simp only [String.length, hdata, hr, List.length_cons, List.length_append]
      omega
    obtain ⟨g, hg⟩ : ∃ g, 2 * (stringify (c :: cs)).length + 2 = g + 5 + 1 ∧ cs.length ≤ g :=
      ⟨2 * (stringify (c :: cs)).length + 2 - 6, by omega, by omega⟩
    have hel := elements_records cs c [] [] g hg.2 hall
    unfold parseJSON
    rw [hg.1, hdata, hr, List.cons_append,
      value_array (g + 5) '\x7b' _ (by decide) (by decide), ← List.cons_append, ← hr]
    simp only [List.append_assoc] at hel ⊢
    rw [hel]
    simp

theorem toCalculation_finite (c : Calculation) (h : isFinite c.result = true) :
    toCalculation c.toJSON
      = some ⟨c.expression, if isZero c.result = true then zero else c.result⟩ := by
  obtain ⟨ex, x⟩ := c
  cases x with
  | nan => exact absurd h (by simp [isFinite])
  | inf b => exact absurd h (by simp [isFinite])
  | fin neg m e =>
    by_cases hm : m = 0
    · subst hm
      have hk : ([("expression", JSON.str ex), ("result", JSON.num zero)].map
          Prod.fst).eraseDups = ["expression", "result"] := by rfl
      simp only [toCalculation, Calculation.toJSON, reparsed, if_true, hk, lookup]
      simp [isZero]
    · have hk : ([("expression", JSON.str ex), ("result", JSON.num (JSNumber.fin neg m e))].map
          Prod.fst).eraseDups = ["expression", "result"] := by rfl
      have hz : isZero (JSNumber.fin neg m e) = false := by
        cases m with
        | zero => exact absurd rfl hm
        | succ k => rfl
      simp only [toCalculation, Calculation.toJSON, reparsed, hm, if_false, hk, if_true, lookup, hz]
      simp

theorem toCalculation_null (c : Calculation) (h : isFinite c.result = false) :
    c.toJSON = JSON.obj [("expression", JSON.str c.expression), ("result", JSON.null)]
    ∧ toCalculation c.toJSON = none := by
  obtain ⟨ex, x⟩ := c
  have hk : ([("expression", JSON.str ex), ("result", JSON.null)].map
      Prod.fst).eraseDups = ["expression", "result"] := by rfl
  cases x with
  | nan =>
    refine ⟨rfl, ?_⟩
    simp only [toCalculation, Calculation.toJSON, reparsed, hk, if_true, lookup]
    simp
  | inf b =>
    refine ⟨rfl, ?_⟩
    simp only [toCalculation, Calculation.toJSON, reparsed, hk, if_true, lookup]
    simp
  | fin neg m e => exact absurd h (by simp [isFinite])

theorem toCalculations_finite (h : List Calculation)
    (hall : ∀ c ∈ h, isFinite c.result = true) :
    toCalculations (h.map Calculation.toJSON)
      = some (h.map fun c => ⟨c.expression, if isZero c.result = true then zero else c.result⟩) := by
  induction h with
  | nil => rfl
  | cons c t ih =>
    simp only [List.map_cons, toCalculations, toCalculation_finite c (hall c (by simp)),
      ih (fun x hx => hall x (List.mem_cons_of_mem _ hx))]

theorem toCalculations_null (h : List Calculation)
    (hex : ∃ c ∈ h, isFinite c.result = false) :
    toCalculations (h.map Calculation.toJSON) = none := by
  induction h with
  | nil =>
    obtain ⟨c, hc, _⟩ := hex
    exact absurd hc (by simp)
  | cons c t ih =>
    cases hf : isFinite c.result with
    | false =>
      simp only [List.map_cons, toCalculations, (toCalculation_null c hf).2]
    | true =>
      have hex2 : ∃ x ∈ t, isFinite x.result = false := by
        obtain ⟨x, hx, hxf⟩ := hex
        rcases List.mem_cons.mp hx with rfl | hx
        · rw [hf] at hxf; exact absurd hxf (by decide)
        · exact ⟨x, hx, hxf⟩
      simp only [List.map_cons, toCalculations, ih hex2]
      split <;> simp_all

theorem itemThrows_toJSON (c : Calculation) : itemThrows c.toJSON = false := by
  obtain ⟨ex, x⟩ := c
  cases x with
  | nan => simp [itemThrows, Calculation.toJSON, reparsed, lookup, toStringThrows]
  | inf b => simp [itemThrows, Calculation.toJSON, reparsed, lookup, toStringThrows]
  | fin neg m e =>
    by_cases hm : m = 0
    · simp [itemThrows, Calculation.toJSON, reparsed, lookup, toStringThrows, hm]
    · simp [itemThrows, Calculation.toJSON, reparsed, lookup, toStringThrows, hm]

theorem any_itemThrows_toJSON (h : List Calculation) :
    (h.map Calculation.toJSON).any itemThrows = false := by
  induction h with
  | nil => rfl
  | cons c t ih => simp only [List.map_cons, List.any_cons, itemThrows_toJSON, ih, Bool.or_self]

/-- Loading, in a fresh instance, what `saveHistory` stored for a ledger whose
results are all finite: a zero comes back as `+0`, every other result as it
is. -/
theorem loadHistory_stringify (h : List Calculation)
    (hall : ∀ x ∈ h, isNumberValue x.result = true)
    (hfin : ∀ x ∈ h, isFinite x.result = true) :
    loadHistory (fresh (some (stringify h)))
      = LoadOutcome.returned
          { fresh (some (stringify h)) with
            calculationHistory :=
              h.map fun c => ⟨c.expression, if isZero c.result = true then zero else c.result⟩ } := by
  simp [loadHistory, fresh, init, stringify_ne_empty, parseJSON_stringify h hall, toLedger,
    toCalculations_finite h hfin]

/-- Loading, in a fresh instance, what `saveHistory` stored for a ledger with a
result that is not finite: the array that is read has `null` for that result,
and it is not a ledger of entries. -/
theorem loadHistory_stringify_null (h : List Calculation)
    (hall : ∀ x ∈ h, isNumberValue x.result = true)
    (hex : ∃ x ∈ h, isFinite x.result = false) :
    loadHistory (fresh (some (stringify h)))
      = LoadOutcome.returnedOther (JSON.arr (h.map Calculation.toJSON)) := by
  simp [loadHistory, fresh, init, stringify_ne_empty, parseJSON_stringify h hall, toLedger,
    toCalculations_null h hex, updateHistoryDisplayThrows, any_itemThrows_toJSON]

/-- A result that is not `-0` comes back from the store as it is. -/
theorem reload_id (h : List Calculation)
    (hall : ∀ x ∈ h, isNumberValue x.result = true)
    (hnz : ∀ x ∈ h, x.result ≠ JSNumber.fin true 0 0) :
    (h.map fun c => (⟨c.expression, if isZero c.result = true then zero else c.result⟩ : Calculation))
      = h := by
  induction h with
  | nil => rfl
  | cons c t ih =>
    rw [List.map_cons, ih (fun x hx => hall x (List.mem_cons_of_mem _ hx))
      (fun x hx => hnz x (List.mem_cons_of_mem _ hx))]
    congr 1
    obtain ⟨ex, x⟩ := c
    have h1 := hall ⟨ex, x⟩ (by simp)
    have h2 := hnz ⟨ex, x⟩ (by simp)
    cases x with
    | nan => rfl
    | inf b => rfl
    | fin neg m e =>
      cases m with
      | zero =>
        simp only [isNumberValue, if_true, decide_eq_true_eq] at h1
        subst h1
        cases neg with
        | false => rfl
        | true => exact absurd rfl h2
      | succ k => rfl

/-- A finite result and what it comes back as are equal for `===` and have the
same text. -/
theorem reload_strictEquals (x : JSNumber) (hf : isFinite x = true) :
    strictEquals x (if isZero x = true then zero else x) = true
    ∧ numberToString (if isZero x = true then zero else x) = numberToString x := by
  cases x with
  | nan => exact absurd hf (by simp [isFinite])
  | inf b => exact absurd hf (by simp [isFinite])
  | fin neg m e =>
    cases m with
    | zero => exact ⟨by simp [strictEquals, isZero, isNaN, zero], by simp [isZero, numberToString, zero]⟩
    | succ k => exact ⟨by simp [strictEquals, isZero, isNaN], by simp [isZero]⟩

/-! ## The form of every computed Number -/

theorem roundAt_isNumberValue (neg : Bool) (N D : Nat) (E : Int) (hE : -1074 ≤ E)
    (h : (2 ^ 52 ≤ (scale2 N D E).1 / (scale2 N D E).2
            ∧ (scale2 N D E).1 / (scale2 N D E).2 < 2 ^ 53)
          ∨ (E = -1074 ∧ (scale2 N D E).1 / (scale2 N D E).2 < 2 ^ 52)) :
    isNumberValue (roundAt neg N D E) = true := by
  unfold roundAt
  simp only
  generalize (scale2 N D E).1 / (scale2 N D E).2 = q at h ⊢
  generalize (decide ((scale2 N D E).2 < 2 * ((scale2 N D E).1 % (scale2 N D E).2))
      || decide (2 * ((scale2 N D E).1 % (scale2 N D E).2) = (scale2 N D E).2)
        && decide (q % 2 = 1)) = up
  have key : ∀ m : Nat, (m = q ∨ m = q + 1) →
      isNumberValue (if (if m = 2 ^ 53 then ((2 : ℕ) ^ 52, E + 1) else (m, E)).1 = 0
        then JSNumber.fin neg 0 0
        else if 971 < (if m = 2 ^ 53 then ((2 : ℕ) ^ 52, E + 1) else (m, E)).2
          then JSNumber.inf neg
          else JSNumber.fin neg (if m = 2 ^ 53 then ((2 : ℕ) ^ 52, E + 1) else (m, E)).1
            (if m = 2 ^ 53 then ((2 : ℕ) ^ 52, E + 1) else (m, E)).2) = true := by
    intro m hm
    by_cases h53 : m = 2 ^ 53
    · simp only [h53, if_true]
      have h0 : ¬ ((2 : ℕ) ^ 52 = 0) := by norm_num
      simp only [h0, if_false]
      split
      · rfl
      · rename_i hbig
        simp only [isNumberValue, h0, if_false, decide_eq_true_eq, isCanonical]
        left
        refine ⟨le_refl _, by norm_num, by omega, by omega⟩
    · simp only [h53, if_false]
      split
      · rfl
      · rename_i hm0
        split
        · rfl
        · rename_i hbig
          simp only [isNumberValue, hm0, if_false, decide_eq_true_eq, isCanonical]
          rcases h with ⟨h1, h2⟩ | ⟨h1, h2⟩
          · left
            refine ⟨by omega, by omega, hE, by omega⟩
          · by_cases hlt : m < 2 ^ 52
            · right
              exact ⟨by omega, hlt, h1⟩
            · left
              refine ⟨by omega, by omega, hE, by omega⟩
  cases up with
  | false => exact key q (Or.inl rfl)
  | true => exact key (q + 1) (Or.inr rfl)

theorem roundRat_isNumberValue (neg : Bool) (N D : Nat) :
    isNumberValue (roundRat neg N D) = true := by
  by_cases h0 : N = 0 ∨ D = 0
  · simp only [roundRat, h0, if_true]
    rfl
  · push_neg at h0
    have hN : 0 < N := Nat.pos_of_ne_zero h0.1
    have hD : 0 < D := Nat.pos_of_ne_zero h0.2
    rw [roundRat_eq neg N D h0.1 h0.2]
    obtain ⟨hb1, hb2⟩ := binadeExp_spec N D hN hD
    have hfloor : ∀ (E : Int) (t : Nat), (scale2 N D E).1 / (scale2 N D E).2 < t
        ↔ ((N : ℚ) / D) / (2 : ℚ) ^ E < (t : ℚ) := by
      intro E t
      have := div_lt_cast_iff (scale2 N D E).1 (scale2 N D E).2 t (scale2_pos N D E hD)
      rw [scale2_ratio N D E hD] at this
      exact this
    by_cases hsub : binadeExp N D < -1074
    · simp only [hsub, if_true]
      apply roundAt_isNumberValue neg N D (-1074) (le_refl _)
      right
      refine ⟨rfl, ?_⟩
      rw [hfloor (-1074) (2 ^ 52)]
      have hE : (0 : ℚ) < (2 : ℚ) ^ (-1074 : ℤ) := two_zpow_pos _
      have hB : (0 : ℚ) < (2 : ℚ) ^ (binadeExp N D) := two_zpow_pos _
      rw [div_lt_iff₀ hB] at hb2
      rw [div_lt_iff₀ hE]
      have hmono : (2 : ℚ) ^ (binadeExp N D) ≤ (2 : ℚ) ^ ((-1074 : ℤ) - 1) :=
        zpow_le_zpow_right₀ (by norm_num) (by omega)
      have hhalf : (2 : ℚ) ^ ((-1074 : ℤ) - 1) = (2 : ℚ) ^ (-1074 : ℤ) / 2 := by
        rw [zpow_sub₀ (by norm_num : (2 : ℚ) ≠ 0), zpow_one]
      rw [hhalf] at hmono
      have h53 : (2 : ℚ) ^ (53 : ℕ) = 2 * (2 : ℚ) ^ (52 : ℕ) := by norm_num
      have hc : ((2 ^ 52 : ℕ) : ℚ) = (2 : ℚ) ^ (52 : ℕ) := by norm_num
      rw [hc]
      rw [h53] at hb2
      have h52 : (0 : ℚ) < (2 : ℚ) ^ (52 : ℕ) := by positivity
      nlinarith
    · simp only [hsub, if_false]
      apply roundAt_isNumberValue neg N D _ (by omega)
      left
      constructor
      · by_contra hcon
        push_neg at hcon
        have := (hfloor (binadeExp N D) (2 ^ 52)).mp hcon
        have hc : ((2 ^ 52 : ℕ) : ℚ) = (2 : ℚ) ^ (52 : ℕ) := by norm_num
        rw [hc] at this
        linarith
      · rw [hfloor (binadeExp N D) (2 ^ 53)]
        have hc : ((2 ^ 53 : ℕ) : ℚ) = (2 : ℚ) ^ (53 : ℕ) := by norm_num
        rw [hc]
        exact hb2

theorem roundInt_isNumberValue (neg : Bool) (n : Nat) (e : Int) :
    isNumberValue (roundInt neg n e) = true := by
  unfold roundInt
  split <;> exact roundRat_isNumberValue _ _ _

theorem roundDec_isNumberValue (neg : Bool) (s : Nat) (p : Int) :
    isNumberValue (roundDec neg s p) = true := by
  unfold roundDec
  split <;> exact roundRat_isNumberValue _ _ _

theorem add_isNumberValue (a b : JSNumber) : isNumberValue (add a b) = true := by
  cases a <;> cases b <;> simp only [add] <;>
    first
    | rfl
    | (split <;> first | rfl | exact roundInt_isNumberValue _ _ _ |
        (split <;> first | rfl | exact roundInt_isNumberValue _ _ _ |
          (split <;> first | rfl | exact roundInt_isNumberValue _ _ _)))

theorem sub_isNumberValue (a b : JSNumber) : isNumberValue (sub a b) = true :=
  add_isNumberValue a (negate b)

theorem mul_isNumberValue (a b : JSNumber) : isNumberValue (mul a b) = true := by
  cases a <;> cases b <;> simp only [mul] <;>
    first
    | rfl
    | exact roundInt_isNumberValue _ _ _
    | (split <;> rfl)

theorem div_isNumberValue (a b : JSNumber) : isNumberValue (div a b) = true := by
  cases a <;> cases b <;> simp only [div] <;>
    first
    | rfl
    | (split <;> first | rfl | exact roundRat_isNumberValue _ _ _ | (split <;> rfl))

theorem strUnsignedDecimalLiteral_isNumberValue (neg : Bool) (cs : List Char) :
    isNumberValue (strUnsignedDecimalLiteral neg cs) = true := by
  unfold strUnsignedDecimalLiteral
  simp only
  split
  · rfl
  · split
    · split
      · rfl
      · exact roundDec_isNumberValue _ _ _
    · split
      · split
        · rfl
        · exact roundDec_isNumberValue _ _ _
      · split
        · rfl
        · exact roundDec_isNumberValue _ _ _

/-- Every Number that `parseFloat` returns has the form of a Number. -/
theorem parseFloat_isNumberValue (s : String) : isNumberValue (parseFloat s) = true := by
  unfold parseFloat
  split
  · rfl
  · split
    · exact strUnsignedDecimalLiteral_isNumberValue _ _
    · split <;> exact strUnsignedDecimalLiteral_isNumberValue _ _

/-- Every Number that `calculate` returns has the form of a Number, when its
second operand has. -/
theorem calculate_isNumberValue (a b : JSNumber) (op : String)
    (hb : isNumberValue b = true) : isNumberValue (calculate a b op).1 = true := by
  unfold calculate
  split
  · exact add_isNumberValue a b
  · split
    · exact sub_isNumberValue a b
    · split
      · exact mul_isNumberValue a b
      · split
        · split
          · rfl
          · exact div_isNumberValue a b
        · exact hb

theorem mem_pushed (c x : Calculation) (h : List Calculation) (hx : x ∈ pushed c h) :
    x = c ∨ x ∈ h := by
  unfold pushed at hx
  split at hx
  · exact List.mem_cons.mp (List.mem_of_mem_dropLast hx)
  · exact List.mem_cons.mp hx

theorem calculateResult_isNumberValue (s : State)
    (h : ∀ c ∈ s.calculationHistory, isNumberValue c.result = true) :
    ∀ c ∈ (calculateResult s).calculationHistory, isNumberValue c.result = true := by
  cases hop : s.operator with
  | none =>
    have : calculateResult s = s := by simp [calculateResult, hop]
    rw [this]; exact h
  | some op =>
    cases hw : s.waitingForNewInput with
    | true =>
      have : calculateResult s = s := by simp [calculateResult, hop, hw]
      rw [this]; exact h
    | false =>
      cases hp : isNaN (parseFloat s.previousInput) with
      | true => rw [calculateResult_nan s (Or.inl hp)]; exact h
      | false =>
        cases hc : isNaN (parseFloat s.currentInput) with
        | true => rw [calculateResult_nan s (Or.inr hc)]; exact h
        | false =>
          rw [calculateResult_fires s op hop hw hp hc]
          intro c hmem
          rcases mem_pushed _ _ _ hmem with rfl | hmem
          · exact calculate_isNumberValue _ _ _ (parseFloat_isNumberValue _)
          · exact h c hmem

theorem step_isNumberValue (s : State) (e : Event)
    (h : ∀ c ∈ s.calculationHistory, isNumberValue c.result = true) :
    ∀ c ∈ (step s e).calculationHistory, isNumberValue c.result = true := by
  cases e with
  | digit d =>
    simp only [step, inputDigit]
    split <;> exact h
  | operator op =>
    simp only [step, inputOperator]
    split
    · exact h
    · split
      · exact h
      · split <;> exact h
  | equals => exact calculateResult_isNumberValue s h
  | clear => exact h
  | backspace =>
    simp only [step, handleBackspace]
    split <;> exact h

/-- Every result in a ledger that a run of events builds, from a ledger of
Numbers, has the form of a Number. -/
theorem run_isNumberValue (evs : List Event) : ∀ s : State,
    (∀ c ∈ s.calculationHistory, isNumberValue c.result = true) →
    ∀ c ∈ (run s evs).calculationHistory, isNumberValue c.result = true := by
  induction evs with
  | nil => intro s h; exact h
  | cons e es ih =>
    intro s h
    simpa [run] using ih (step s e) (step_isNumberValue s e h)

/-- C12, as stated, fails: pressing `9` 309 times, then `×`, `2`, `=` records
the entry `Infinity × 2` with result `Infinity`; it is stored with the result
`null`, and loading that text in a fresh instance gives an array whose only
item has the result `null`, not a ledger with the record that was saved. -/
theorem round_trip_loses_infinity :
    (run init (List.replicate 309 (Event.digit "9")
        ++ [Event.operator "×", Event.digit "2", Event.equals])).calculationHistory
      = [⟨"Infinity × 2", JSNumber.inf false⟩]
    ∧ (run init (List.replicate 309 (Event.digit "9")
        ++ [Event.operator "×", Event.digit "2", Event.equals])).storage
      = some "[\x7b\"expression\":\"Infinity × 2\",\"result\":null\x7d]"
    ∧ loadHistory (fresh (run init (List.replicate 309 (Event.digit "9")
        ++ [Event.operator "×", Event.digit "2", Event.equals])).storage)
      = LoadOutcome.returnedOther (JSON.arr [JSON.obj
          [("expression", JSON.str "Infinity × 2"), ("result", JSON.null)]])
    ∧ (loadHistory (fresh (run init (List.replicate 309 (Event.digit "9")
        ++ [Event.operator "×", Event.digit "2", Event.equals])).storage)).state? = none := by
  rw [run_to_infinity]
  refine ⟨rfl, rfl, load_null_result, ?_⟩
  show (loadHistory (fresh (some "[\x7b\"expression\":\"Infinity × 2\",\"result\":null\x7d]"))).state?
    = none
  rw [load_null_result]
  rfl

/-- C12, amended: for a ledger of Numbers, the empty one included, `saveHistory`
followed by `loadHistory` in a fresh instance over the same storage gives the
following.  When every result is finite it returns with the same records in the
same order: each expression as it was, each result as it was except that a
zero comes back as `+0`, which is `===` to the zero that was saved and has the
same text; with no `-0` among the results the ledger is the one that was
saved.  When some result is `NaN` or an infinity, the stored text has `null`
in its place, and what is loaded is an array with `null` for that result and
not the ledger that was saved.  The results of every ledger that a run of
events builds from the initial state are Numbers, as the hypothesis asks. -/
theorem save_load_round_trip (s : State)
    (h : ∀ c ∈ s.calculationHistory, isNumberValue c.result = true) :
    ((∀ c ∈ s.calculationHistory, isFinite c.result = true) →
      loadHistory (fresh (saveHistory s).storage)
        = LoadOutcome.returned
            { fresh (saveHistory s).storage with
              calculationHistory :=
                s.calculationHistory.map
                  fun c => ⟨c.expression, if isZero c.result then zero else c.result⟩ }
      ∧ (∀ c ∈ s.calculationHistory,
          strictEquals c.result (if isZero c.result then zero else c.result) = true
          ∧ numberToString (if isZero c.result then zero else c.result)
              = numberToString c.result)
      ∧ ((∀ c ∈ s.calculationHistory, c.result ≠ JSNumber.fin true 0 0) →
          loadHistory (fresh (saveHistory s).storage)
            = LoadOutcome.returned
                { fresh (saveHistory s).storage with
                  calculationHistory := s.calculationHistory }))
    ∧ ((∃ c ∈ s.calculationHistory, isFinite c.result = false) →
      loadHistory (fresh (saveHistory s).storage)
        = LoadOutcome.returnedOther (JSON.arr (s.calculationHistory.map Calculation.toJSON))
      ∧ (loadHistory (fresh (saveHistory s).storage)).state? = none
      ∧ ∀ c ∈ s.calculationHistory, isFinite c.result = false →
          c.toJSON = JSON.obj [("expression", JSON.str c.expression), ("result", JSON.null)])
    ∧ (∀ evs : List Event, ∀ c ∈ (run init evs).calculationHistory,
        isNumberValue c.result = true) := by
  refine ⟨fun hfin => ⟨loadHistory_stringify _ h hfin,
      fun c hc => reload_strictEquals c.result (hfin c hc), fun hnz => ?_⟩,
    fun hex => ⟨loadHistory_stringify_null _ h hex, ?_,
      fun c _ hc => (toCalculation_null c hc).1⟩,
    fun evs => run_isNumberValue evs init (fun c hc => absurd hc (List.not_mem_nil c))⟩
  · have := loadHistory_stringify _ h hfin
    rw [reload_id _ h hnz] at this
    exact this
  · show (loadHistory (fresh (some (stringify s.calculationHistory)))).state? = none
    rw [loadHistory_stringify_null _ h hex]
    rfl

/-- The amended C12 on a ledger with the results `8`, `0.3333333333333333`,
`-1.5e-7` and `-0`, which comes back with `0` for the latter, and on the
ledger with the one result `Infinity`, which does not come back. -/
theorem save_load_round_trip_witness :
    loadHistory (fresh (saveHistory
        { init with calculationHistory :=
            [⟨"5 + 3", parseFloat "8"⟩, ⟨"1 ÷ 3", div (parseFloat "1") (parseFloat "3")⟩,
             ⟨"0 - 1.5e-7", parseFloat "-1.5e-7"⟩,
             ⟨"-5 × 0", mul (parseFloat "-5") (parseFloat "0")⟩] }).storage)
      = LoadOutcome.returned
          { fresh (saveHistory
              { init with calculationHistory :=
                  [⟨"5 + 3", parseFloat "8"⟩, ⟨"1 ÷ 3", div (parseFloat "1") (parseFloat "3")⟩,
                   ⟨"0 - 1.5e-7", parseFloat "-1.5e-7"⟩,
                   ⟨"-5 × 0", mul (parseFloat "-5") (parseFloat "0")⟩] }).storage with
            calculationHistory :=
              [⟨"5 + 3", parseFloat "8"⟩, ⟨"1 ÷ 3", div (parseFloat "1") (parseFloat "3")⟩,
               ⟨"0 - 1.5e-7", parseFloat "-1.5e-7"⟩, ⟨"-5 × 0", zero⟩] }
    ∧ mul (parseFloat "-5") (parseFloat "0") = JSNumber.fin true 0 0
    ∧ loadHistory (fresh (saveHistory
        { init with calculationHistory := [⟨"Infinity × 2", JSNumber.inf false⟩] }).storage)
      = LoadOutcome.returnedOther (JSON.arr [JSON.obj
          [("expression", JSON.str "Infinity × 2"), ("result", JSON.null)]]) :=
  ⟨((save_load_round_trip
      { init with calculationHistory :=
          [⟨"5 + 3", parseFloat "8"⟩, ⟨"1 ÷ 3", div (parseFloat "1") (parseFloat "3")⟩,
           ⟨"0 - 1.5e-7", parseFloat "-1.5e-7"⟩,
           ⟨"-5 × 0", mul (parseFloat "-5") (parseFloat "0")⟩] }
      (by
        intro c hc
        simp only [List.mem_cons, List.mem_singleton, List.not_mem_nil, or_false] at hc
        rcases hc with rfl | rfl | rfl | rfl <;> decide)).1
      (by
        intro c hc
        simp only [List.mem_cons, List.mem_singleton, List.not_mem_nil, or_false] at hc
        rcases hc with rfl | rfl | rfl | rfl <;> decide)).1,
    by decide,
    ((save_load_round_trip
      { init with calculationHistory := [⟨"Infinity × 2", JSNumber.inf false⟩] }
      (by
        intro c hc
        simp only [List.mem_singleton] at hc
        subst hc
        decide)).2.1
      ⟨⟨"Infinity × 2", JSNumber.inf false⟩, by simp, by decide⟩).1⟩

end Calculator
